import Mathlib

/-!
# Verification of the `singleflight` call-coalescing library

This development is a shallow embedding of `src/lib.rs`, a Rust duplicate-
suppression ("single-flight") primitive.  A `Group<T>` holds a mutex-guarded
`HashMap<String, Call<T>>`; `Call<T>` holds a duplicate counter `dup` and an
unbounded crossbeam channel `chan`.  `Group::go(key, func)` either claims
leadership (key absent: insert a fresh record, run `func` outside the lock,
remove the record, broadcast `dup + 1` copies of the outcome on the record's
channel, then receive one copy for itself) or joins as a follower (key present:
increment `dup`, clone the record, and block receiving on its channel).
`Group::go_chan` is the same protocol, except that the leader sends `dup`
copies on the record's channel plus one copy on a fresh bounded(1) channel
whose receiver it returns, and a follower relays the received message into a
fresh bounded(1) channel whose receiver it returns.  In the source, both
`go_chan` paths run inside `crossbeam::thread::scope`, which joins the spawned
thread before `go_chan` returns; the embedding therefore places the whole
spawned body before the point at which `go_chan` hands its receiver back.

The embedding is an interleaving small-step semantics.  Each caller is a
thread owning a key and a work function; mutex-protected critical sections of
the source (the claim/join lookup, and the remove-on-completion) are single
atomic steps, every channel send, receive and the execution of the work are
their own atomic steps.  A schedule is the list of thread indices that move.
-/

namespace Singleflight

/-- A message carried on a share channel, mirroring the Rust
`Result<(T, bool)>` transported by `ShareSender`/`ShareReceiver`: a success
value paired with the shared flag, or a failure carrying only a textual
description. -/
abbrev Msg (T : Type) := Except String (T × Bool)

/-- Outcome of running the caller-supplied work once: the Rust closure
`F: Fn() -> Result<T>` either returns `Ok`, returns `Err` with a structured
error of some type `E`, or panics (diverges without returning). -/
inductive WorkRes (E T : Type) where
  | ok (v : T)
  | err (e : E)
  | panic
  deriving DecidableEq, Repr

/-- The in-flight call record stored in the registry, mirroring `Call<T>`:
the duplicate counter `dup` and (the identifier of) its broadcast channel. -/
structure CallRec where
  dup : Nat
  cid : Nat
  deriving DecidableEq, Repr

instance {ε α : Type} [DecidableEq ε] [DecidableEq α] : DecidableEq (Except ε α) := fun x y =>
  match x, y with
  | .ok a, .ok b =>
    if h : a = b then .isTrue (by rw [h]) else .isFalse (by simp [h])
  | .ok _, .error _ => .isFalse (by simp)
  | .error _, .ok _ => .isFalse (by simp)
  | .error a, .error b =>
    if h : a = b then .isTrue (by rw [h]) else .isFalse (by simp [h])

/-- Program counter of one caller thread, one constructor per atomic program
point of `go` / `go_chan`.  `go`: `start` (about to take the lock and claim or
join) → leader: `runWork` → `retireStep` (lock, `remove(key).unwrap()`) →
`sendLoop` (the `for _ in 0..=call.dup` broadcast) → `recvStep` (the leader's
own `recv`) → `done`; follower: `recvStep` → `done`.  `go_chan`: `startC` →
leader: `runWorkC` → `retireStepC` → `sendLoopC` (`dup` sends on the record
channel, then one send on the dedicated bounded(1) channel) → `doneChan`
(returns the dedicated receiver); follower: `recvForwardC` (receive from the
record channel and relay into a fresh dedicated channel) → `doneChan`.
`panicked` is a thread whose work panicked; `stuck` marks the
`remove(key).unwrap()` failure (never reachable from an initial state). -/
inductive PC (E T : Type) where
  | start
  | runWork
  | retireStep (res : Except E T)
  | sendLoop (cid : Nat) (msg : Msg T) (remaining : Nat)
  | recvStep (cid : Nat)
  | done (res : Msg T)
  | startC
  | runWorkC (dcid : Nat)
  | retireStepC (dcid : Nat) (res : Except E T)
  | sendLoopC (cid : Nat) (dcid : Nat) (msg : Msg T) (remaining : Nat)
  | recvForwardC (cid : Nat)
  | doneChan (dcid : Nat)
  | panicked
  | stuck
  deriving DecidableEq, Repr

/-- Observable events, recorded in a global log as steps happen:
claim/join decisions, work executions, record retirements (with the duplicate
count read from the retired record), channel sends and receives. -/
inductive Event where
  | claimed (tid : Nat) (key : String) (leader : Bool)
  | executed (tid : Nat)
  | retired (tid : Nat) (key : String) (d : Nat)
  | sent (tid : Nat) (cid : Nat)
  | received (tid : Nat) (cid : Nat)
  deriving DecidableEq, Repr

/-- One caller thread: the key and work it was invoked with, the role it was
assigned when it claimed or joined (`none` before that; `some true` = leader,
`some false` = follower), and its program counter. -/
structure Thread (E T : Type) where
  key : String
  func : WorkRes E T
  role : Option Bool
  pc : PC E T
  deriving DecidableEq, Repr

/-- Global state: the threads, the registry map (`shared_chans`, an
association list keyed by `String`), the buffers of every allocated channel
(indexed by channel id), and the event log. -/
structure GState (E T : Type) where
  threads : List (Thread E T)
  reg : List (String × CallRec)
  chans : List (List (Msg T))
  log : List Event
  deriving DecidableEq, Repr

/-- Registry lookup (`share.get_mut(key)` / `shared.remove(key)` lookup part). -/
def regLookup (k : String) : List (String × CallRec) → Option CallRec
  | [] => none
  | (k2, c) :: rest => if k2 = k then some c else regLookup k rest

/-- In-place `call.dup += 1` on the record for `k` (the `get_mut` branch). -/
def regBump (k : String) : List (String × CallRec) → List (String × CallRec)
  | [] => []
  | (k2, c) :: rest =>
    if k2 = k then (k2, { c with dup := c.dup + 1 }) :: rest
    else (k2, c) :: regBump k rest

/-- `shared.remove(key)`: drop the entry for `k`. -/
def regRemove (k : String) : List (String × CallRec) → List (String × CallRec)
  | [] => []
  | (k2, c) :: rest => if k2 = k then rest else (k2, c) :: regRemove k rest

/-- The message the leader broadcasts, computed from the work outcome and the
duplicate count of the retired record, mirroring
`match &func_res { Ok(val) => Ok((val.clone(), call.dup > 0)),
Err(err) => Err(anyhow!(err.to_string())) }`. -/
def mkMsg (toStr : E → String) (res : Except E T) (d : Nat) : Msg T :=
  match res with
  | .ok v => .ok (v, decide (0 < d))
  | .error e => .error (toStr e)

/-- Append a message to the buffer of channel `cid` (a channel send; the
record channels are unbounded, so a send always succeeds). -/
def pushBuf (cid : Nat) (m : Msg T) (cs : List (List (Msg T))) :
    List (List (Msg T)) :=
  match cs[cid]? with
  | some buf => cs.set cid (buf ++ [m])
  | none => cs

/-- One atomic step of thread `i`.  Threads that are finished, panicked, or
blocked on an empty channel leave the state unchanged.  `toStr` is the
`err.to_string()` conversion of the structured error type. -/
def step (toStr : E → String) (s : GState E T) (i : Nat) : GState E T :=
  match s.threads[i]? with
  | none => s
  | some t =>
    match t.pc with
    | .start =>
      match regLookup t.key s.reg with
      | some c =>
        { s with
          reg := regBump t.key s.reg
          threads := s.threads.set i { t with role := some false, pc := .recvStep c.cid }
          log := s.log ++ [.claimed i t.key false] }
      | none =>
        { s with
          reg := (t.key, ⟨0, s.chans.length⟩) :: s.reg
          chans := s.chans ++ [[]]
          threads := s.threads.set i { t with role := some true, pc := .runWork }
          log := s.log ++ [.claimed i t.key true] }
    | .runWork =>
      match t.func with
      | .ok v =>
        { s with threads := s.threads.set i { t with pc := .retireStep (.ok v) }
                 log := s.log ++ [.executed i] }
      | .err e =>
        { s with threads := s.threads.set i { t with pc := .retireStep (.error e) }
                 log := s.log ++ [.executed i] }
      | .panic =>
        { s with threads := s.threads.set i { t with pc := .panicked }
                 log := s.log ++ [.executed i] }
    | .retireStep res =>
      match regLookup t.key s.reg with
      | none => { s with threads := s.threads.set i { t with pc := .stuck } }
      | some c =>
        { s with
          reg := regRemove t.key s.reg
          threads := s.threads.set i
            { t with pc := .sendLoop c.cid (mkMsg toStr res c.dup) (c.dup + 1) }
          log := s.log ++ [.retired i t.key c.dup] }
    | .sendLoop cid msg (r + 1) =>
      { s with
        chans := pushBuf cid msg s.chans
        threads := s.threads.set i { t with pc := .sendLoop cid msg r }
        log := s.log ++ [.sent i cid] }
    | .sendLoop cid _ 0 =>
      { s with threads := s.threads.set i { t with pc := .recvStep cid } }
    | .recvStep cid =>
      match s.chans[cid]? with
      | some (m :: rest) =>
        { s with
          chans := s.chans.set cid rest
          threads := s.threads.set i { t with pc := .done m }
          log := s.log ++ [.received i cid] }
      | _ => s
    | .done _ => s
    | .startC =>
      match regLookup t.key s.reg with
      | some c =>
        { s with
          reg := regBump t.key s.reg
          threads := s.threads.set i { t with role := some false, pc := .recvForwardC c.cid }
          log := s.log ++ [.claimed i t.key false] }
      | none =>
        { s with
          reg := (t.key, ⟨0, s.chans.length⟩) :: s.reg
          chans := s.chans ++ [[], []]
          threads := s.threads.set i { t with role := some true, pc := .runWorkC (s.chans.length + 1) }
          log := s.log ++ [.claimed i t.key true] }
    | .runWorkC dcid =>
      match t.func with
      | .ok v =>
        { s with threads := s.threads.set i { t with pc := .retireStepC dcid (.ok v) }
                 log := s.log ++ [.executed i] }
      | .err e =>
        { s with threads := s.threads.set i { t with pc := .retireStepC dcid (.error e) }
                 log := s.log ++ [.executed i] }
      | .panic =>
        { s with threads := s.threads.set i { t with pc := .panicked }
                 log := s.log ++ [.executed i] }
    | .retireStepC dcid res =>
      match regLookup t.key s.reg with
      | none => { s with threads := s.threads.set i { t with pc := .stuck } }
      | some c =>
        { s with
          reg := regRemove t.key s.reg
          threads := s.threads.set i
            { t with pc := .sendLoopC c.cid dcid (mkMsg toStr res c.dup) c.dup }
          log := s.log ++ [.retired i t.key c.dup] }
    | .sendLoopC cid dcid msg (r + 1) =>
      { s with
        chans := pushBuf cid msg s.chans
        threads := s.threads.set i { t with pc := .sendLoopC cid dcid msg r }
        log := s.log ++ [.sent i cid] }
    | .sendLoopC _ dcid msg 0 =>
      { s with
        chans := pushBuf dcid msg s.chans
        threads := s.threads.set i { t with pc := .doneChan dcid }
        log := s.log ++ [.sent i dcid] }
    | .recvForwardC cid =>
      match s.chans[cid]? with
      | some (m :: rest) =>
        { s with
          chans := s.chans.set cid rest ++ [[m]]
          threads := s.threads.set i { t with pc := .doneChan s.chans.length }
          log := s.log ++ [.received i cid] }
      | _ => s
    | .doneChan _ => s
    | .panicked => s
    | .stuck => s

/-- Run a schedule: each entry names the thread that takes the next step. -/
def run (toStr : E → String) (s : GState E T) (sched : List Nat) : GState E T :=
  sched.foldl (step toStr) s

/-- One requested invocation: the key, the work, and whether it is a
`go_chan` call (`chanMode = true`) or a `go` call. -/
structure CallSpec (E T : Type) where
  key : String
  func : WorkRes E T
  chanMode : Bool
  deriving DecidableEq, Repr

/-- The thread a call spec starts as. -/
def initThread (sp : CallSpec E T) : Thread E T :=
  ⟨sp.key, sp.func, none, if sp.chanMode then .startC else .start⟩

/-- Initial state for a list of invocations of one `Group`: empty registry
(`Group::new`), no channels, empty log. -/
def mkInit (specs : List (CallSpec E T)) : GState E T :=
  ⟨specs.map initThread, [], [], []⟩

/-- Embed a non-panicking work outcome. -/
def embed (f : Except E T) : WorkRes E T :=
  match f with
  | .ok v => .ok v
  | .error e => .err e

/-- `N` invocations of the same key with the same (non-panicking) work;
`modes` selects `go_chan` (`true`) or `go` per caller. -/
def uniformInit (K : String) (f : Except E T) (modes : List Bool) : GState E T :=
  mkInit (modes.map fun m => ⟨K, embed f, m⟩)

/-! ## Event bookkeeping -/

/-- The thread an event belongs to. -/
def tidOf : Event → Nat
  | .claimed i _ _ => i
  | .executed i => i
  | .retired i _ _ => i
  | .sent i _ => i
  | .received i _ => i

/-- Is this a claim (leader or follower) by thread `i`? -/
def isClaimedOf (i : Nat) : Event → Bool
  | .claimed j _ _ => j == i
  | _ => false

/-- Is this a work execution by thread `i`? -/
def isExecutedOf (i : Nat) : Event → Bool
  | .executed j => j == i
  | _ => false

/-- Is this a record retirement by thread `i`? -/
def isRetiredOf (i : Nat) : Event → Bool
  | .retired j _ _ => j == i
  | _ => false

/-- Is this a channel send by thread `i`? -/
def isSentOf (i : Nat) : Event → Bool
  | .sent j _ => j == i
  | _ => false

/-- Is this a channel receive by thread `i`? -/
def isReceivedOf (i : Nat) : Event → Bool
  | .received j _ => j == i
  | _ => false

/-- Number of events in `log` satisfying `p`. -/
def cnt (p : Event → Bool) (log : List Event) : Nat := log.countP p

theorem cnt_append (p : Event → Bool) (l1 l2 : List Event) :
    cnt p (l1 ++ l2) = cnt p l1 + cnt p l2 :=
  List.countP_append p l1 l2

theorem cnt_singleton (p : Event → Bool) (e : Event) :
    cnt p [e] = if p e then 1 else 0 := by
  by_cases h : p e <;> simp [cnt, List.countP_cons, h]

theorem isOf_false_of_tid_ne (i : Nat) (e : Event) (h : tidOf e ≠ i) :
    isClaimedOf i e = false ∧ isExecutedOf i e = false ∧ isRetiredOf i e = false ∧
    isSentOf i e = false ∧ isReceivedOf i e = false := by
  cases e <;>
    simp_all [tidOf, isClaimedOf, isExecutedOf, isRetiredOf, isSentOf, isReceivedOf]

theorem retired_mem_of_cnt_pos {i : Nat} {log : List Event}
    (h : 0 < cnt (isRetiredOf i) log) : ∃ k d, Event.retired i k d ∈ log := by
  obtain ⟨e, he, hp⟩ := List.countP_pos_iff.mp h
  cases e <;> simp [isRetiredOf] at hp
  case retired j k d => exact ⟨k, d, hp ▸ he⟩

theorem executed_mem_of_cnt_pos {i : Nat} {log : List Event}
    (h : 0 < cnt (isExecutedOf i) log) : Event.executed i ∈ log := by
  obtain ⟨e, he, hp⟩ := List.countP_pos_iff.mp h
  cases e <;> simp [isExecutedOf] at hp
  case executed j => exact hp ▸ he

theorem mem_unique_of_cnt_le_one {p : Event → Bool} {l : List Event} (h : cnt p l ≤ 1)
    {a b : Event} (ha : a ∈ l) (hb : b ∈ l) (pa : p a = true) (pb : p b = true) :
    a = b := by
  rw [cnt] at h
  induction l with
  | nil => cases ha
  | cons x l ih =>
    rw [List.countP_cons] at h
    rcases List.mem_cons.mp ha with rfl | ha' <;> rcases List.mem_cons.mp hb with rfl | hb'
    · rfl
    · rw [if_pos pa] at h
      exact absurd (List.countP_pos_iff.mpr ⟨b, hb', pb⟩) (by omega)
    · rw [if_pos pb] at h
      exact absurd (List.countP_pos_iff.mpr ⟨a, ha', pa⟩) (by omega)
    · exact ih (by omega) ha' hb'

theorem append_singleton_eq_split {α : Type} {l : List α} {e : α} {pre : List α}
    {x : α} {suf : List α} (h : l ++ [e] = pre ++ x :: suf) :
    (∃ suf2, l = pre ++ x :: suf2) ∨ (pre = l ∧ x = e ∧ suf = []) := by
  induction pre generalizing l with
  | nil =>
    cases l with
    | nil =>
      rw [List.nil_append, List.nil_append] at h
      injection h with h1 h2
      exact Or.inr ⟨rfl, h1.symm, h2.symm⟩
    | cons a l2 =>
      rw [List.cons_append, List.nil_append] at h
      injection h with h1 h2
      exact Or.inl ⟨l2, by rw [h1]; rfl⟩
  | cons p pre2 ih =>
    cases l with
    | nil =>
      rw [List.nil_append, List.cons_append] at h
      injection h with h1 h2
      rcases List.append_eq_nil.mp h2.symm with ⟨-, h3⟩
      exact (List.cons_ne_nil _ _ h3).elim
    | cons a l2 =>
      rw [List.cons_append, List.cons_append] at h
      injection h with h1 h2
      rcases ih h2 with ⟨suf2, hs⟩ | ⟨hp, hx, hsuf⟩
      · exact Or.inl ⟨suf2, by rw [h1, hs]; rfl⟩
      · exact Or.inr ⟨by rw [h1, hp], hx, hsuf⟩

/-! ## Per-thread accounting invariant

For every thread, its program point determines exactly how many claim,
execute, retire, send and receive events it has logged, and its role. -/

/-- The five per-thread event counts. -/
def cntsEq (i : Nat) (log : List Event) (c e r sn rc : Nat) : Prop :=
  cnt (isClaimedOf i) log = c ∧ cnt (isExecutedOf i) log = e ∧
  cnt (isRetiredOf i) log = r ∧ cnt (isSentOf i) log = sn ∧
  cnt (isReceivedOf i) log = rc

/-- Exact accounting for one thread at each program point.  A leader that has
retired a record with duplicate count `d` and is `remaining` sends away from
finishing its broadcast loop has sent `d + 1 - remaining` messages in `go`
mode (`d - remaining` record-channel messages in `go_chan` mode, whose final
send targets the dedicated channel); at its terminal point it has sent exactly
`d + 1` messages.  A follower logs one claim and (once unblocked) one receive
and nothing else. -/
def TOne (i : Nat) (t : Thread E T) (log : List Event) : Prop :=
  match t.pc, t.role with
  | .start, ro => ro = none ∧ cntsEq i log 0 0 0 0 0
  | .startC, ro => ro = none ∧ cntsEq i log 0 0 0 0 0
  | .runWork, ro => ro = some true ∧ cntsEq i log 1 0 0 0 0
  | .runWorkC _, ro => ro = some true ∧ cntsEq i log 1 0 0 0 0
  | .retireStep _, ro => ro = some true ∧ cntsEq i log 1 1 0 0 0
  | .retireStepC _ _, ro => ro = some true ∧ cntsEq i log 1 1 0 0 0
  | .sendLoop _ _ rem, ro => ro = some true ∧
      ∃ k d, Event.retired i k d ∈ log ∧ rem ≤ d + 1 ∧ cntsEq i log 1 1 1 (d + 1 - rem) 0
  | .sendLoopC _ _ _ rem, ro => ro = some true ∧
      ∃ k d, Event.retired i k d ∈ log ∧ rem ≤ d ∧ cntsEq i log 1 1 1 (d - rem) 0
  | .recvStep _, some true =>
      ∃ k d, Event.retired i k d ∈ log ∧ cntsEq i log 1 1 1 (d + 1) 0
  | .recvStep _, ro => ro = some false ∧ cntsEq i log 1 0 0 0 0
  | .recvForwardC _, ro => ro = some false ∧ cntsEq i log 1 0 0 0 0
  | .done _, some true =>
      ∃ k d, Event.retired i k d ∈ log ∧ cntsEq i log 1 1 1 (d + 1) 1
  | .done _, ro => ro = some false ∧ cntsEq i log 1 0 0 0 1
  | .doneChan _, some true =>
      ∃ k d, Event.retired i k d ∈ log ∧ cntsEq i log 1 1 1 (d + 1) 0
  | .doneChan _, ro => ro = some false ∧ cntsEq i log 1 0 0 0 1
  | .panicked, ro => ro = some true ∧ cntsEq i log 1 1 0 0 0
  | .stuck, ro => ro = some true ∧ cntsEq i log 1 1 0 0 0

/-- The accounting invariant for all threads. -/
def TCInv (threads : List (Thread E T)) (log : List Event) : Prop :=
  ∀ i t, threads[i]? = some t → TOne i t log

/-- Every send by thread `i` is preceded, in the log, by a retirement by
thread `i`. -/
def SentAfterRetired (i : Nat) (log : List Event) : Prop :=
  ∀ pre cid suf, log = pre ++ Event.sent i cid :: suf →
    ∃ k d, Event.retired i k d ∈ pre

/-- Every retirement by thread `i` is preceded, in the log, by its work
execution. -/
def RetiredAfterExecuted (i : Nat) (log : List Event) : Prop :=
  ∀ pre k d suf, log = pre ++ Event.retired i k d :: suf → Event.executed i ∈ pre

/-- The ordering invariant for all threads. -/
def OrdInv (log : List Event) : Prop :=
  ∀ i, SentAfterRetired i log ∧ RetiredAfterExecuted i log

theorem TOne_append_other {j : Nat} {t : Thread E T} {log : List Event} {e : Event}
    (hne : tidOf e ≠ j) (h : TOne j t log) : TOne j t (log ++ [e]) := by
  obtain ⟨f1, f2, f3, f4, f5⟩ := isOf_false_of_tid_ne j e hne
  rcases t with ⟨tk, tf, tr, tpc⟩
  cases tpc <;> rcases tr with - | b <;> (try cases b) <;>
    simp only [TOne, cntsEq, cnt_append, cnt_singleton, f1, f2, f3, f4, f5,
      Bool.false_eq_true, if_false, Nat.add_zero] at h ⊢
  all_goals first
  | exact h
  | (obtain ⟨h0, k, d, hmem, hrest⟩ := h
     exact ⟨h0, k, d, List.mem_append_left _ hmem, hrest⟩)
  | (obtain ⟨k, d, hmem, hrest⟩ := h
     exact ⟨k, d, List.mem_append_left _ hmem, hrest⟩)

theorem lt_length_of_get?_eq_some {α : Type} {l : List α} {i : Nat} {a : α}
    (h : l[i]? = some a) : i < l.length :=
  (List.getElem?_eq_some.mp h).1

theorem OrdInv_append_other {log : List Event} {e : Event}
    (hsent : ∀ i cid, e ≠ Event.sent i cid)
    (hret : ∀ i k d, e ≠ Event.retired i k d)
    (h : OrdInv log) : OrdInv (log ++ [e]) := by
  intro j
  refine ⟨?_, ?_⟩
  · intro pre cid suf hsplit
    rcases append_singleton_eq_split hsplit with ⟨suf2, hl⟩ | ⟨-, hx, -⟩
    · exact (h j).1 pre cid suf2 hl
    · exact absurd hx.symm (hsent j cid)
  · intro pre k d suf hsplit
    rcases append_singleton_eq_split hsplit with ⟨suf2, hl⟩ | ⟨-, hx, -⟩
    · exact (h j).2 pre k d suf2 hl
    · exact absurd hx.symm (hret j k d)

theorem OrdInv_append_sent {log : List Event} {i cid : Nat}
    (hmem : ∃ k d, Event.retired i k d ∈ log)
    (h : OrdInv log) : OrdInv (log ++ [Event.sent i cid]) := by
  intro j
  refine ⟨?_, ?_⟩
  · intro pre cid2 suf hsplit
    rcases append_singleton_eq_split hsplit with ⟨suf2, hl⟩ | ⟨hpre, hx, -⟩
    · exact (h j).1 pre cid2 suf2 hl
    · obtain ⟨k, d, hm⟩ := hmem
      injection hx with h1 h2
      subst h1
      exact ⟨k, d, by rw [hpre]; exact hm⟩
  · intro pre k d suf hsplit
    rcases append_singleton_eq_split hsplit with ⟨suf2, hl⟩ | ⟨-, hx, -⟩
    · exact (h j).2 pre k d suf2 hl
    · exact Event.noConfusion hx

theorem OrdInv_append_retired {log : List Event} {i : Nat} {k : String} {d : Nat}
    (hmem : Event.executed i ∈ log)
    (h : OrdInv log) : OrdInv (log ++ [Event.retired i k d]) := by
  intro j
  refine ⟨?_, ?_⟩
  · intro pre cid2 suf hsplit
    rcases append_singleton_eq_split hsplit with ⟨suf2, hl⟩ | ⟨-, hx, -⟩
    · exact (h j).1 pre cid2 suf2 hl
    · exact Event.noConfusion hx
  · intro pre k2 d2 suf hsplit
    rcases append_singleton_eq_split hsplit with ⟨suf2, hl⟩ | ⟨hpre, hx, -⟩
    · exact (h j).2 pre k2 d2 suf2 hl
    · injection hx with h1 h2 h3
      subst h1
      rw [hpre]
      exact hmem

theorem TCInv_set {ths : List (Thread E T)} {log : List Event} {i : Nat}
    {t t' : Thread E T} {e : Event}
    (hti : ths[i]? = some t) (hnew : TOne i t' (log ++ [e]))
    (htc : TCInv ths log) (htid : tidOf e = i) :
    TCInv (ths.set i t') (log ++ [e]) := by
  intro j tj hj
  by_cases hij : i = j
  · subst hij
    rw [List.getElem?_set_self (lt_length_of_get?_eq_some hti)] at hj
    injection hj with hj
    subst hj
    exact hnew
  · rw [List.getElem?_set_ne hij] at hj
    exact TOne_append_other (by rw [htid]; exact hij) (htc j tj hj)

theorem TCInv_set_nolog {ths : List (Thread E T)} {log : List Event} {i : Nat}
    {t t' : Thread E T}
    (hti : ths[i]? = some t) (hnew : TOne i t' log) (htc : TCInv ths log) :
    TCInv (ths.set i t') log := by
  intro j tj hj
  by_cases hij : i = j
  · subst hij
    rw [List.getElem?_set_self (lt_length_of_get?_eq_some hti)] at hj
    injection hj with hj
    subst hj
    exact hnew
  · rw [List.getElem?_set_ne hij] at hj
    exact htc j tj hj

/-- The combined accounting and ordering invariant of a state. -/
def AccInv (s : GState E T) : Prop :=
  TCInv s.threads s.log ∧ OrdInv s.log



theorem AccInv_step (toStr : E → String) (s : GState E T) (i : Nat)
    (h : AccInv s) : AccInv (step toStr s i) := by
  obtain ⟨htc, hord⟩ := h
  cases hti : s.threads[i]? with
  | none => simp only [step, hti]; exact ⟨htc, hord⟩
  | some t =>
    have hT := htc i t hti
    rcases t with ⟨tk, tf, tro, tpc⟩
    cases tpc with
    | start =>
      obtain ⟨hro, c1, c2, c3, c4, c5⟩ := hT
      cases hreg : regLookup tk s.reg with
      | some c =>
        simp only [step, hti, hreg]
        have hnew : TOne i
            { key := tk, func := tf, role := some false, pc := PC.recvStep c.cid }
            (s.log ++ [Event.claimed i tk false]) := by
          simp [TOne, cntsEq, cnt_append, cnt_singleton, isClaimedOf, isExecutedOf,
            isRetiredOf, isSentOf, isReceivedOf, c1, c2, c3, c4, c5]
        have hO : OrdInv (s.log ++ [Event.claimed i tk false]) :=
          OrdInv_append_other (by simp) (by simp) hord
        exact ⟨TCInv_set hti hnew htc rfl, hO⟩
      | none =>
        simp only [step, hti, hreg]
        have hnew : TOne i
            { key := tk, func := tf, role := some true, pc := PC.runWork }
            (s.log ++ [Event.claimed i tk true]) := by
          simp [TOne, cntsEq, cnt_append, cnt_singleton, isClaimedOf, isExecutedOf,
            isRetiredOf, isSentOf, isReceivedOf, c1, c2, c3, c4, c5]
        have hO : OrdInv (s.log ++ [Event.claimed i tk true]) :=
          OrdInv_append_other (by simp) (by simp) hord
        exact ⟨TCInv_set hti hnew htc rfl, hO⟩
    | runWork =>
      obtain ⟨hro, c1, c2, c3, c4, c5⟩ := hT
      replace hro : tro = some true := hro
      have hO : OrdInv (s.log ++ [Event.executed i]) :=
        OrdInv_append_other (by simp) (by simp) hord
      cases tf with
      | ok v =>
        simp only [step, hti]
        have hnew : TOne i
            { key := tk, func := (WorkRes.ok v : WorkRes E T), role := tro,
              pc := PC.retireStep (Except.ok v) }
            (s.log ++ [Event.executed i]) := by
          refine ⟨hro, ?_⟩
          simp [cntsEq, cnt_append, cnt_singleton, isClaimedOf, isExecutedOf,
            isRetiredOf, isSentOf, isReceivedOf, c1, c2, c3, c4, c5]
        exact ⟨TCInv_set hti hnew htc rfl, hO⟩
      | err e0 =>
        simp only [step, hti]
        have hnew : TOne i
            { key := tk, func := (WorkRes.err e0 : WorkRes E T), role := tro,
              pc := PC.retireStep (Except.error e0) }
            (s.log ++ [Event.executed i]) := by
          refine ⟨hro, ?_⟩
          simp [cntsEq, cnt_append, cnt_singleton, isClaimedOf, isExecutedOf,
            isRetiredOf, isSentOf, isReceivedOf, c1, c2, c3, c4, c5]
        exact ⟨TCInv_set hti hnew htc rfl, hO⟩
      | panic =>
        simp only [step, hti]
        have hnew : TOne i
            { key := tk, func := (WorkRes.panic : WorkRes E T), role := tro, pc := PC.panicked }
            (s.log ++ [Event.executed i]) := by
          refine ⟨hro, ?_⟩
          simp [cntsEq, cnt_append, cnt_singleton, isClaimedOf, isExecutedOf,
            isRetiredOf, isSentOf, isReceivedOf, c1, c2, c3, c4, c5]
        exact ⟨TCInv_set hti hnew htc rfl, hO⟩
    | retireStep res =>
      obtain ⟨hro, c1, c2, c3, c4, c5⟩ := hT
      replace hro : tro = some true := hro
      cases hreg : regLookup tk s.reg with
      | none =>
        simp only [step, hti, hreg]
        have hnew : TOne i
            { key := tk, func := tf, role := tro, pc := PC.stuck } s.log :=
          ⟨hro, c1, c2, c3, c4, c5⟩
        exact ⟨TCInv_set_nolog hti hnew htc, hord⟩
      | some c =>
        simp only [step, hti, hreg]
        have hnew : TOne i
            { key := tk, func := tf, role := tro,
              pc := PC.sendLoop c.cid (mkMsg toStr res c.dup) (c.dup + 1) }
            (s.log ++ [Event.retired i tk c.dup]) := by
          refine ⟨hro, tk, c.dup, List.mem_append_right _ (by simp), le_refl _, ?_⟩
          simp [cntsEq, cnt_append, cnt_singleton, isClaimedOf, isExecutedOf,
            isRetiredOf, isSentOf, isReceivedOf, c1, c2, c3, c4, c5]
        have hO : OrdInv (s.log ++ [Event.retired i tk c.dup]) :=
          OrdInv_append_retired (executed_mem_of_cnt_pos (by omega)) hord
        exact ⟨TCInv_set hti hnew htc rfl, hO⟩
    | sendLoop cid msg rem =>
      obtain ⟨hro, k, d, hmem, hrem, c1, c2, c3, c4, c5⟩ := hT
      replace hro : tro = some true := hro
      cases rem with
      | zero =>
        simp only [step, hti]
        subst hro
        have hnew : TOne i
            { key := tk, func := tf, role := some true, pc := PC.recvStep cid }
            s.log :=
          ⟨k, d, hmem, c1, c2, c3, by simpa using c4, c5⟩
        exact ⟨TCInv_set_nolog hti hnew htc, hord⟩
      | succ r =>
        simp only [step, hti]
        have hnew : TOne i
            { key := tk, func := tf, role := tro, pc := PC.sendLoop cid msg r }
            (s.log ++ [Event.sent i cid]) := by
          refine ⟨hro, k, d, List.mem_append_left _ hmem, by omega, ?_⟩
          simp only [cntsEq, cnt_append, cnt_singleton, isClaimedOf, isExecutedOf,
            isRetiredOf, isSentOf, isReceivedOf] at c1 c2 c3 c4 c5 ⊢
          refine ⟨by simp [c1], by simp [c2], by simp [c3], ?_, by simp [c5]⟩
          simp only [beq_self_eq_true, if_true]
          omega
        have hO : OrdInv (s.log ++ [Event.sent i cid]) :=
          OrdInv_append_sent ⟨k, d, hmem⟩ hord
        exact ⟨TCInv_set hti hnew htc rfl, hO⟩
    | recvStep cid =>
      cases hch : s.chans[cid]? with
      | none => simp only [step, hti, hch]; exact ⟨htc, hord⟩
      | some buf =>
        cases buf with
        | nil => simp only [step, hti, hch]; exact ⟨htc, hord⟩
        | cons m rest =>
          simp only [step, hti, hch]
          have hO : OrdInv (s.log ++ [Event.received i cid]) :=
            OrdInv_append_other (by simp) (by simp) hord
          rcases tro with - | b
          · exact absurd hT.1 (by simp)
          · cases b
            · obtain ⟨-, c1, c2, c3, c4, c5⟩ := hT
              have hnew : TOne i
                  { key := tk, func := tf, role := some false, pc := PC.done m }
                  (s.log ++ [Event.received i cid]) := by
                simp [TOne, cntsEq, cnt_append, cnt_singleton, isClaimedOf,
                  isExecutedOf, isRetiredOf, isSentOf, isReceivedOf,
                  c1, c2, c3, c4, c5]
              exact ⟨TCInv_set hti hnew htc rfl, hO⟩
            · obtain ⟨k, d, hmem, c1, c2, c3, c4, c5⟩ := hT
              have hnew : TOne i
                  { key := tk, func := tf, role := some true, pc := PC.done m }
                  (s.log ++ [Event.received i cid]) := by
                refine ⟨k, d, List.mem_append_left _ hmem, ?_⟩
                simp [cntsEq, cnt_append, cnt_singleton, isClaimedOf, isExecutedOf,
                  isRetiredOf, isSentOf, isReceivedOf, c1, c2, c3, c4, c5]
              exact ⟨TCInv_set hti hnew htc rfl, hO⟩
    | done m => simp only [step, hti]; exact ⟨htc, hord⟩
    | startC =>
      obtain ⟨hro, c1, c2, c3, c4, c5⟩ := hT
      cases hreg : regLookup tk s.reg with
      | some c =>
        simp only [step, hti, hreg]
        have hnew : TOne i
            { key := tk, func := tf, role := some false, pc := PC.recvForwardC c.cid }
            (s.log ++ [Event.claimed i tk false]) := by
          simp [TOne, cntsEq, cnt_append, cnt_singleton, isClaimedOf, isExecutedOf,
            isRetiredOf, isSentOf, isReceivedOf, c1, c2, c3, c4, c5]
        have hO : OrdInv (s.log ++ [Event.claimed i tk false]) :=
          OrdInv_append_other (by simp) (by simp) hord
        exact ⟨TCInv_set hti hnew htc rfl, hO⟩
      | none =>
        simp only [step, hti, hreg]
        have hnew : TOne i
            { key := tk, func := tf, role := some true,
              pc := PC.runWorkC (s.chans.length + 1) }
            (s.log ++ [Event.claimed i tk true]) := by
          simp [TOne, cntsEq, cnt_append, cnt_singleton, isClaimedOf, isExecutedOf,
            isRetiredOf, isSentOf, isReceivedOf, c1, c2, c3, c4, c5]
        have hO : OrdInv (s.log ++ [Event.claimed i tk true]) :=
          OrdInv_append_other (by simp) (by simp) hord
        exact ⟨TCInv_set hti hnew htc rfl, hO⟩
    | runWorkC dcid =>
      obtain ⟨hro, c1, c2, c3, c4, c5⟩ := hT
      replace hro : tro = some true := hro
      have hO : OrdInv (s.log ++ [Event.executed i]) :=
        OrdInv_append_other (by simp) (by simp) hord
      cases tf with
      | ok v =>
        simp only [step, hti]
        have hnew : TOne i
            { key := tk, func := (WorkRes.ok v : WorkRes E T), role := tro,
              pc := PC.retireStepC dcid (Except.ok v) }
            (s.log ++ [Event.executed i]) := by
          refine ⟨hro, ?_⟩
          simp [cntsEq, cnt_append, cnt_singleton, isClaimedOf, isExecutedOf,
            isRetiredOf, isSentOf, isReceivedOf, c1, c2, c3, c4, c5]
        exact ⟨TCInv_set hti hnew htc rfl, hO⟩
      | err e0 =>
        simp only [step, hti]
        have hnew : TOne i
            { key := tk, func := (WorkRes.err e0 : WorkRes E T), role := tro,
              pc := PC.retireStepC dcid (Except.error e0) }
            (s.log ++ [Event.executed i]) := by
          refine ⟨hro, ?_⟩
          simp [cntsEq, cnt_append, cnt_singleton, isClaimedOf, isExecutedOf,
            isRetiredOf, isSentOf, isReceivedOf, c1, c2, c3, c4, c5]
        exact ⟨TCInv_set hti hnew htc rfl, hO⟩
      | panic =>
        simp only [step, hti]
        have hnew : TOne i
            { key := tk, func := (WorkRes.panic : WorkRes E T), role := tro, pc := PC.panicked }
            (s.log ++ [Event.executed i]) := by
          refine ⟨hro, ?_⟩
          simp [cntsEq, cnt_append, cnt_singleton, isClaimedOf, isExecutedOf,
            isRetiredOf, isSentOf, isReceivedOf, c1, c2, c3, c4, c5]
        exact ⟨TCInv_set hti hnew htc rfl, hO⟩
    | retireStepC dcid res =>
      obtain ⟨hro, c1, c2, c3, c4, c5⟩ := hT
      replace hro : tro = some true := hro
      cases hreg : regLookup tk s.reg with
      | none =>
        simp only [step, hti, hreg]
        have hnew : TOne i
            { key := tk, func := tf, role := tro, pc := PC.stuck } s.log :=
          ⟨hro, c1, c2, c3, c4, c5⟩
        exact ⟨TCInv_set_nolog hti hnew htc, hord⟩
      | some c =>
        simp only [step, hti, hreg]
        have hnew : TOne i
            { key := tk, func := tf, role := tro,
              pc := PC.sendLoopC c.cid dcid (mkMsg toStr res c.dup) c.dup }
            (s.log ++ [Event.retired i tk c.dup]) := by
          refine ⟨hro, tk, c.dup, List.mem_append_right _ (by simp), le_refl _, ?_⟩
          simp [cntsEq, cnt_append, cnt_singleton, isClaimedOf, isExecutedOf,
            isRetiredOf, isSentOf, isReceivedOf, c1, c2, c3, c4, c5]
        have hO : OrdInv (s.log ++ [Event.retired i tk c.dup]) :=
          OrdInv_append_retired (executed_mem_of_cnt_pos (by omega)) hord
        exact ⟨TCInv_set hti hnew htc rfl, hO⟩
    | sendLoopC cid dcid msg rem =>
      obtain ⟨hro, k, d, hmem, hrem, c1, c2, c3, c4, c5⟩ := hT
      replace hro : tro = some true := hro
      cases rem with
      | zero =>
        simp only [step, hti]
        subst hro
        have hnew : TOne i
            { key := tk, func := tf, role := some true, pc := PC.doneChan dcid }
            (s.log ++ [Event.sent i dcid]) := by
          refine ⟨k, d, List.mem_append_left _ hmem, ?_⟩
          simp only [cntsEq, cnt_append, cnt_singleton, isClaimedOf, isExecutedOf,
            isRetiredOf, isSentOf, isReceivedOf] at c1 c2 c3 c4 c5 ⊢
          refine ⟨by simp [c1], by simp [c2], by simp [c3], ?_, by simp [c5]⟩
          simp only [beq_self_eq_true, if_true]
          omega
        have hO : OrdInv (s.log ++ [Event.sent i dcid]) :=
          OrdInv_append_sent ⟨k, d, hmem⟩ hord
        exact ⟨TCInv_set hti hnew htc rfl, hO⟩
      | succ r =>
        simp only [step, hti]
        have hnew : TOne i
            { key := tk, func := tf, role := tro, pc := PC.sendLoopC cid dcid msg r }
            (s.log ++ [Event.sent i cid]) := by
          refine ⟨hro, k, d, List.mem_append_left _ hmem, by omega, ?_⟩
          simp only [cntsEq, cnt_append, cnt_singleton, isClaimedOf, isExecutedOf,
            isRetiredOf, isSentOf, isReceivedOf] at c1 c2 c3 c4 c5 ⊢
          refine ⟨by simp [c1], by simp [c2], by simp [c3], ?_, by simp [c5]⟩
          simp only [beq_self_eq_true, if_true]
          omega
        have hO : OrdInv (s.log ++ [Event.sent i cid]) :=
          OrdInv_append_sent ⟨k, d, hmem⟩ hord
        exact ⟨TCInv_set hti hnew htc rfl, hO⟩
    | recvForwardC cid =>
      obtain ⟨hro, c1, c2, c3, c4, c5⟩ := hT
      replace hro : tro = some false := hro
      subst hro
      cases hch : s.chans[cid]? with
      | none => simp only [step, hti, hch]; exact ⟨htc, hord⟩
      | some buf =>
        cases buf with
        | nil => simp only [step, hti, hch]; exact ⟨htc, hord⟩
        | cons m rest =>
          simp only [step, hti, hch]
          have hnew : TOne i
              { key := tk, func := tf, role := some false, pc := PC.doneChan s.chans.length }
              (s.log ++ [Event.received i cid]) := by
            refine ⟨rfl, ?_⟩
            simp [cntsEq, cnt_append, cnt_singleton, isClaimedOf, isExecutedOf,
              isRetiredOf, isSentOf, isReceivedOf, c1, c2, c3, c4, c5]
          have hO : OrdInv (s.log ++ [Event.received i cid]) :=
            OrdInv_append_other (by simp) (by simp) hord
          exact ⟨TCInv_set hti hnew htc rfl, hO⟩
    | doneChan dcid => simp only [step, hti]; exact ⟨htc, hord⟩
    | panicked => simp only [step, hti]; exact ⟨htc, hord⟩
    | stuck => simp only [step, hti]; exact ⟨htc, hord⟩

theorem AccInv_init (specs : List (CallSpec E T)) : AccInv (mkInit specs) := by
  constructor
  · intro i t hti
    simp only [mkInit, List.getElem?_map] at hti
    cases hsp : specs[i]? with
    | none => rw [hsp] at hti; cases hti
    | some sp =>
      rw [hsp] at hti
      injection hti with hti
      subst hti
      cases hm : sp.chanMode <;>
        simp [initThread, hm, TOne, cntsEq, cnt, mkInit, List.countP_nil]
  · intro j
    constructor
    · intro pre cid suf hsplit
      exact absurd hsplit.symm (List.append_ne_nil_of_right_ne_nil _ (by simp))
    · intro pre k d suf hsplit
      exact absurd hsplit.symm (List.append_ne_nil_of_right_ne_nil _ (by simp))

theorem AccInv_run (toStr : E → String) (specs : List (CallSpec E T))
    (sched : List Nat) : AccInv (run toStr (mkInit specs) sched) := by
  suffices h : ∀ (l : List Nat) (s : GState E T), AccInv s → AccInv (run toStr s l) from
    h sched _ (AccInv_init specs)
  intro l
  induction l with
  | nil => intro s hs; exact hs
  | cons a rest ih => intro s hs; exact ih _ (AccInv_step toStr s a hs)

/-! ## Observations and claim theorems -/

/-- Run a schedule from the initial state of a list of invocations. -/
def runInit (toStr : E → String) (specs : List (CallSpec E T))
    (sched : List Nat) : GState E T :=
  run toStr (mkInit specs) sched

/-- The program counter of thread `i`. -/
def pcOf (s : GState E T) (i : Nat) : Option (PC E T) :=
  (s.threads[i]?).map Thread.pc

/-- The role of thread `i` (`none` while unknown thread index). -/
def roleOf (s : GState E T) (i : Nat) : Option (Option Bool) :=
  (s.threads[i]?).map Thread.role

theorem cnt_retired_pos_of_mem {i : Nat} {k : String} {d : Nat} {log : List Event}
    (h : Event.retired i k d ∈ log) : 0 < cnt (isRetiredOf i) log :=
  List.countP_pos_iff.mpr ⟨_, h, by simp [isRetiredOf]⟩

/-- C7: in both `go` and `go_chan`, on every schedule from every initial
state, the leader's removal of the call record (`retired`) is logged strictly
before every one of its result-message sends of that round (all of a round's
sends are performed by its leader), and the work execution is logged strictly
before the removal.  This is the "removed the instant the leader's work
completes, strictly before any result is broadcast" ordering. -/
theorem retire_precedes_broadcast (toStr : E → String)
    (specs : List (CallSpec E T)) (sched : List Nat) (i : Nat) :
    (∀ pre cid suf, (runInit toStr specs sched).log = pre ++ Event.sent i cid :: suf →
      ∃ k d, Event.retired i k d ∈ pre) ∧
    (∀ pre k d suf, (runInit toStr specs sched).log = pre ++ Event.retired i k d :: suf →
      Event.executed i ∈ pre) :=
  (AccInv_run toStr specs sched).2 i

/-- Witness for C7 on a concrete one-caller `go` run: the broadcast send of
the round is preceded in the log by the record's retirement, and the
retirement by the work execution. -/
theorem retire_precedes_broadcast_witness :
    (∃ k d, Event.retired 0 k d ∈
      [Event.claimed 0 "key" true, Event.executed 0, Event.retired 0 "key" 0]) ∧
    Event.executed 0 ∈ [Event.claimed 0 "key" true, Event.executed 0] := by
  constructor
  · exact (retire_precedes_broadcast (fun e : String => e)
      [⟨"key", WorkRes.ok 7, false⟩] [0, 0, 0, 0, 0, 0] 0).1
      [Event.claimed 0 "key" true, Event.executed 0, Event.retired 0 "key" 0] 0
      [Event.received 0 0] (by decide)
  · exact (retire_precedes_broadcast (fun e : String => e)
      [⟨"key", WorkRes.ok 7, false⟩] [0, 0, 0, 0, 0, 0] 0).2
      [Event.claimed 0 "key" true, Event.executed 0] "key" 0
      [Event.sent 0 0, Event.received 0 0] (by decide)

/-- C6: on every schedule from every initial state: (a) a leader that retired
its record with duplicate count `d` and has reached its terminal point has
sent exactly `d + 1` outcome messages (one per follower plus one for itself —
in `go_chan` mode, `d` on the record channel plus one on its dedicated
channel); (b) a follower that has reached its terminal point has received
exactly one message; (c) a thread at a send point always performs its send in
one step — the (unbounded) channel never makes a send block. -/
theorem leader_broadcast_count_and_delivery (toStr : E → String)
    (specs : List (CallSpec E T)) (sched : List Nat) :
    (∀ i k d, Event.retired i k d ∈ (runInit toStr specs sched).log →
      ((∃ m, pcOf (runInit toStr specs sched) i = some (PC.done m)) ∨
        (∃ dc, pcOf (runInit toStr specs sched) i = some (PC.doneChan dc))) →
      cnt (isSentOf i) (runInit toStr specs sched).log = d + 1) ∧
    (∀ j, roleOf (runInit toStr specs sched) j = some (some false) →
      ((∃ m, pcOf (runInit toStr specs sched) j = some (PC.done m)) ∨
        (∃ dc, pcOf (runInit toStr specs sched) j = some (PC.doneChan dc))) →
      cnt (isReceivedOf j) (runInit toStr specs sched).log = 1) ∧
    (∀ (s2 : GState E T) (i2 cid : Nat) (msg : Msg T) (r : Nat),
      (pcOf s2 i2 = some (PC.sendLoop cid msg (r + 1)) ∨
        (∃ dc, pcOf s2 i2 = some (PC.sendLoopC cid dc msg (r + 1)))) →
      (step toStr s2 i2).log = s2.log ++ [Event.sent i2 cid]) := by
  have hAcc : AccInv (runInit toStr specs sched) := AccInv_run toStr specs sched
  refine ⟨?_, ?_, ?_⟩
  · intro i k d hmem hdone
    have hd : ∃ t, (runInit toStr specs sched).threads[i]? = some t ∧
        ((∃ m, t.pc = PC.done m) ∨ (∃ dc, t.pc = PC.doneChan dc)) := by
      rcases hdone with ⟨m, hm⟩ | ⟨dc, hdc⟩
      · obtain ⟨t, hti, hpc⟩ := Option.map_eq_some'.mp hm
        exact ⟨t, hti, Or.inl ⟨m, hpc⟩⟩
      · obtain ⟨t, hti, hpc⟩ := Option.map_eq_some'.mp hdc
        exact ⟨t, hti, Or.inr ⟨dc, hpc⟩⟩
    obtain ⟨t, hti, hpc⟩ := hd
    have hT := hAcc.1 i t hti
    rcases t with ⟨tk, tf, tro, tpc⟩
    rcases hpc with ⟨m, hpc⟩ | ⟨dc, hpc⟩ <;>
      replace hpc : tpc = _ := hpc <;> subst hpc <;> rcases tro with - | b <;>
      (try cases b) <;>
      simp only [TOne] at hT
    · exact absurd hT.1 (by simp)
    · have h0 := hT.2.2.2.1
      exact absurd (cnt_retired_pos_of_mem hmem) (by omega)
    · obtain ⟨k2, d2, hmem2, c1, c2, c3, c4, c5⟩ := hT
      have heq := mem_unique_of_cnt_le_one (le_of_eq c3) hmem hmem2
        (by simp [isRetiredOf]) (by simp [isRetiredOf])
      injection heq with h1 h2 h3
      rw [h3]
      exact c4
    · exact absurd hT.1 (by simp)
    · have h0 := hT.2.2.2.1
      exact absurd (cnt_retired_pos_of_mem hmem) (by omega)
    · obtain ⟨k2, d2, hmem2, c1, c2, c3, c4, c5⟩ := hT
      have heq := mem_unique_of_cnt_le_one (le_of_eq c3) hmem hmem2
        (by simp [isRetiredOf]) (by simp [isRetiredOf])
      injection heq with h1 h2 h3
      rw [h3]
      exact c4
  · intro j hrole hdone
    obtain ⟨t, hti, hro⟩ := Option.map_eq_some'.mp hrole
    have hT := hAcc.1 j t hti
    rcases t with ⟨tk, tf, tro, tpc⟩
    replace hro : tro = some false := hro
    subst hro
    rcases hdone with ⟨m, hm⟩ | ⟨dc, hdc⟩
    · obtain ⟨t2, hti2, hpc2⟩ := Option.map_eq_some'.mp hm
      rw [hti] at hti2
      injection hti2 with hti2
      subst hti2
      replace hpc2 : tpc = PC.done m := hpc2
      subst hpc2
      simp only [TOne] at hT
      exact hT.2.2.2.2.2
    · obtain ⟨t2, hti2, hpc2⟩ := Option.map_eq_some'.mp hdc
      rw [hti] at hti2
      injection hti2 with hti2
      subst hti2
      replace hpc2 : tpc = PC.doneChan dc := hpc2
      subst hpc2
      simp only [TOne] at hT
      exact hT.2.2.2.2.2
  · intro s2 i2 cid msg r hpc
    rcases hpc with hm | ⟨dc, hm⟩ <;>
      obtain ⟨t2, hti2, hpc2⟩ := Option.map_eq_some'.mp hm <;>
      rcases t2 with ⟨tk, tf, tro, tpc⟩
    · replace hpc2 : tpc = PC.sendLoop cid msg (r + 1) := hpc2
      subst hpc2
      simp [step, hti2]
    · replace hpc2 : tpc = PC.sendLoopC cid dc msg (r + 1) := hpc2
      subst hpc2
      simp [step, hti2]

/-- Witness for C6 on a concrete two-caller coalesced `go` run (duplicate
count 1): the leader sent 2 messages and the follower received exactly 1. -/
theorem leader_broadcast_count_and_delivery_witness :
    cnt (isSentOf 0) (runInit (fun e : String => e)
      [⟨"k", WorkRes.ok 5, false⟩, ⟨"k", WorkRes.ok 5, false⟩]
      [0, 1, 0, 0, 0, 0, 0, 1, 0]).log = 2 ∧
    cnt (isReceivedOf 1) (runInit (fun e : String => e)
      [⟨"k", WorkRes.ok 5, false⟩, ⟨"k", WorkRes.ok 5, false⟩]
      [0, 1, 0, 0, 0, 0, 0, 1, 0]).log = 1 := by
  constructor
  · exact (leader_broadcast_count_and_delivery (fun e : String => e)
      [⟨"k", WorkRes.ok 5, false⟩, ⟨"k", WorkRes.ok 5, false⟩]
      [0, 1, 0, 0, 0, 0, 0, 1, 0]).1 0 "k" 1 (by decide)
      (Or.inl ⟨Except.ok (5, true), by decide⟩)
  · exact (leader_broadcast_count_and_delivery (fun e : String => e)
      [⟨"k", WorkRes.ok 5, false⟩, ⟨"k", WorkRes.ok 5, false⟩]
      [0, 1, 0, 0, 0, 0, 0, 1, 0]).2.1 1 (by decide)
      (Or.inl ⟨Except.ok (5, true), by decide⟩)

/-- C3: a single `go` invocation with no concurrent activity for its key runs
the work and returns `Ok((v, false))`: the six steps are claim leadership, run
the work, retire the record (with duplicate count 0), send the one message,
leave the send loop, and receive it back, so the caller ends at
`done (Ok (v, false))` — `shared = false`.  In particular a caller invoking
key `"key"` with work returning `7` observes `(7, false)`. -/
theorem go_single_caller_not_shared :
    (∀ (E T : Type) (toStr : E → String) (K : String) (v : T),
      pcOf (runInit toStr [⟨K, WorkRes.ok v, false⟩] [0, 0, 0, 0, 0, 0]) 0 =
        some (PC.done (Except.ok (v, false)))) ∧
    pcOf (runInit (fun e : String => e) [⟨"key", WorkRes.ok 7, false⟩]
        [0, 0, 0, 0, 0, 0]) 0 =
      some (PC.done (Except.ok (7, false))) := by
  constructor
  · intro E T toStr K v
    simp [runInit, run, mkInit, initThread, step, regLookup, mkMsg, pushBuf, pcOf]
  · decide

/-- C5: two `go` invocations of the same key that do not overlap (the second
caller takes its first step only after the first caller has fully completed)
both claim leadership and both execute the work: the final log holds two
`executed` events, each caller ends at `done (Ok (v, false))`, and the
registry is empty again between the rounds (first conjunct: after the first
caller's six steps no record for `K` remains) and at the end — no result is
cached across rounds. -/
theorem go_sequential_rounds_execute_twice (E T : Type) (toStr : E → String)
    (K : String) (v : T) :
    (runInit toStr [⟨K, WorkRes.ok v, false⟩, ⟨K, WorkRes.ok v, false⟩]
      [0, 0, 0, 0, 0, 0]).reg = [] ∧
    runInit toStr [⟨K, WorkRes.ok v, false⟩, ⟨K, WorkRes.ok v, false⟩]
        [0, 0, 0, 0, 0, 0, 1, 1, 1, 1, 1, 1] =
      { threads := [⟨K, WorkRes.ok v, some true, PC.done (Except.ok (v, false))⟩,
                    ⟨K, WorkRes.ok v, some true, PC.done (Except.ok (v, false))⟩],
        reg := [],
        chans := [[], []],
        log := [Event.claimed 0 K true, Event.executed 0, Event.retired 0 K 0,
                Event.sent 0 0, Event.received 0 0, Event.claimed 1 K true,
                Event.executed 1, Event.retired 1 K 0, Event.sent 1 1,
                Event.received 1 1] } := by
  constructor
  · simp [runInit, run, mkInit, initThread, step, regLookup, regRemove, mkMsg, pushBuf]
  · simp [runInit, run, mkInit, initThread, step, regLookup, regRemove, mkMsg, pushBuf]

/-- C2 (behaviour the code actually has, contradicting the claim): `go_chan`
does **not** return before the work completes.  `crossbeam::thread::scope`
joins the spawned thread before returning, so by the time a `go_chan` leader
reaches its return point (`doneChan`), its work execution is already in the
log (first conjunct, over every initial state and schedule), and on a
concrete single-caller run the call returns only after claim, work, retire
and send have all happened, with the result already buffered in the returned
channel (second conjunct). -/
theorem go_chan_blocks_until_work_done (E T : Type) (toStr : E → String) :
    (∀ (specs : List (CallSpec E T)) (sched : List Nat) (i dc : Nat),
      pcOf (runInit toStr specs sched) i = some (PC.doneChan dc) →
      roleOf (runInit toStr specs sched) i = some (some true) →
      Event.executed i ∈ (runInit toStr specs sched).log) ∧
    (∀ (K : String) (v : T),
      runInit toStr [⟨K, WorkRes.ok v, true⟩] [0, 0, 0, 0, 0] =
        { threads := [⟨K, WorkRes.ok v, some true, PC.doneChan 1⟩],
          reg := [],
          chans := [[], [Except.ok (v, false)]],
          log := [Event.claimed 0 K true, Event.executed 0, Event.retired 0 K 0,
                  Event.sent 0 1] }) := by
  constructor
  · intro specs sched i dc hpc hro
    have hAcc : AccInv (runInit toStr specs sched) := AccInv_run toStr specs sched
    obtain ⟨t, hti, hpc2⟩ := Option.map_eq_some'.mp hpc
    obtain ⟨t2, hti2, hro2⟩ := Option.map_eq_some'.mp hro
    rw [hti] at hti2
    injection hti2 with hti2
    subst hti2
    have hT := hAcc.1 i t hti
    rcases t with ⟨tk, tf, tro, tpc⟩
    replace hpc2 : tpc = PC.doneChan dc := hpc2
    subst hpc2
    replace hro2 : tro = some true := hro2
    subst hro2
    obtain ⟨k2, d2, hmem2, c1, c2, c3, c4, c5⟩ := hT
    exact executed_mem_of_cnt_pos (by omega)
  · intro K v
    simp [runInit, run, mkInit, initThread, step, regLookup, regRemove, mkMsg, pushBuf]

/-- Witness for C2's first conjunct on the concrete single-caller `go_chan`
run: the returned-channel point has been reached and the work execution is in
the log. -/
theorem go_chan_blocks_until_work_done_witness :
    Event.executed 0 ∈ (runInit (fun e : String => e)
      [⟨"key", WorkRes.ok 7, true⟩] [0, 0, 0, 0, 0]).log :=
  (go_chan_blocks_until_work_done String Nat (fun e : String => e)).1
    [⟨"key", WorkRes.ok 7, true⟩] [0, 0, 0, 0, 0] 0 1 (by decide) (by decide)

/-! ## Registry invariant: a key is present iff an execution is in flight -/

/-- Number of entries for key `K` in the registry list. -/
def keyCount (K : String) (reg : List (String × CallRec)) : Nat :=
  reg.countP (fun p => p.1 == K)

theorem regLookup_none_iff {K : String} {reg : List (String × CallRec)} :
    regLookup K reg = none ↔ keyCount K reg = 0 := by
  induction reg with
  | nil => simp [regLookup, keyCount]
  | cons p rest ih =>
    rcases p with ⟨k2, c⟩
    rw [keyCount, List.countP_cons]
    by_cases hk : k2 = K <;> simp [regLookup, hk, ih, keyCount]

theorem keyCount_regBump (K K2 : String) (reg : List (String × CallRec)) :
    keyCount K2 (regBump K reg) = keyCount K2 reg := by
  induction reg with
  | nil => rfl
  | cons p rest ih =>
    rcases p with ⟨k2, c⟩
    by_cases hk : k2 = K <;>
      simp [regBump, hk, keyCount, List.countP_cons] at ih ⊢ <;> omega

theorem regLookup_regBump_isSome (K K2 : String) (reg : List (String × CallRec)) :
    (regLookup K2 (regBump K reg)).isSome = (regLookup K2 reg).isSome := by
  induction reg with
  | nil => rfl
  | cons p rest ih =>
    rcases p with ⟨k2, c⟩
    by_cases hk : k2 = K
    · subst hk
      by_cases hk2 : k2 = K2
      · subst hk2
        simp [regBump, regLookup]
      · simp [regBump, regLookup, hk2]
    · by_cases hk2 : k2 = K2
      · subst hk2
        simp [regBump, regLookup, hk]
      · simp [regBump, regLookup, hk, hk2, ih]

theorem regLookup_regRemove_ne {K K2 : String} (h : K2 ≠ K)
    (reg : List (String × CallRec)) :
    regLookup K2 (regRemove K reg) = regLookup K2 reg := by
  induction reg with
  | nil => rfl
  | cons p rest ih =>
    rcases p with ⟨k2, c⟩
    by_cases hk : k2 = K
    · subst hk
      simp [regRemove, regLookup, Ne.symm h]
    · by_cases hk2 : k2 = K2
      · subst hk2
        simp [regRemove, regLookup, hk]
      · simp [regRemove, regLookup, hk, hk2, ih]

theorem regLookup_regRemove_self {K : String} {reg : List (String × CallRec)}
    (h : keyCount K reg ≤ 1) : regLookup K (regRemove K reg) = none := by
  induction reg with
  | nil => rfl
  | cons p rest ih =>
    rcases p with ⟨k2, c⟩
    by_cases hk : k2 = K
    · simp only [regRemove, if_pos hk]
      rw [regLookup_none_iff]
      have h2 : keyCount K ((k2, c) :: rest) = keyCount K rest + 1 := by
        simp [keyCount, List.countP_cons, hk]
      omega
    · simp only [regRemove, if_neg hk, regLookup, if_neg hk]
      apply ih
      have h2 : keyCount K ((k2, c) :: rest) = keyCount K rest := by
        simp [keyCount, List.countP_cons, hk]
      omega

theorem keyCount_regRemove_le (K K2 : String) (reg : List (String × CallRec)) :
    keyCount K2 (regRemove K reg) ≤ keyCount K2 reg := by
  induction reg with
  | nil => exact le_refl _
  | cons p rest ih =>
    rcases p with ⟨k2, c⟩
    by_cases hk : k2 = K <;>
      simp [regRemove, hk, keyCount, List.countP_cons] at ih ⊢ <;>
      first
      | omega
      | (split <;> omega)

/-- Thread holds the registry entry of its key: it is between its leadership
claim and its retirement.  A leader whose work panicked is included — its
entry is never removed. -/
def activeP (t : Thread E T) : Bool :=
  match t.pc with
  | .runWork => true
  | .retireStep _ => true
  | .runWorkC _ => true
  | .retireStepC _ _ => true
  | .panicked => true
  | _ => false

/-- Thread is currently running an in-flight execution (between leadership
claim and retirement), its work not having panicked. -/
def activeW (t : Thread E T) : Bool :=
  match t.pc with
  | .runWork => true
  | .retireStep _ => true
  | .runWorkC _ => true
  | .retireStepC _ _ => true
  | _ => false

/-- The registry invariant: (1) a key is present in the map iff some thread
with that key holds its in-flight entry; (2) at most one thread per key does;
(3) at most one registry entry per key; (4) no thread ever hits the
`remove(key).unwrap()` failure; (5) only a panicking work reaches the
panicked point. -/
def RegInv (ths : List (Thread E T)) (reg : List (String × CallRec)) : Prop :=
  (∀ K : String, (regLookup K reg).isSome = true ↔
    ∃ (i : Nat) (t : Thread E T), ths[i]? = some t ∧ t.key = K ∧ activeP t = true) ∧
  (∀ (i j : Nat) (ti tj : Thread E T), ths[i]? = some ti → ths[j]? = some tj →
    activeP ti = true → activeP tj = true → ti.key = tj.key → i = j) ∧
  (∀ K : String, keyCount K reg ≤ 1) ∧
  (∀ (i : Nat) (t : Thread E T), ths[i]? = some t → t.pc ≠ PC.stuck) ∧
  (∀ (i : Nat) (t : Thread E T), ths[i]? = some t → t.pc = PC.panicked →
    t.func = WorkRes.panic)

theorem get?_set_eq_some_iff {ths : List (Thread E T)} {i j : Nat}
    {t t' tj : Thread E T} (hti : ths[i]? = some t) :
    ((ths.set i t')[j]? = some tj) ↔
      ((j = i ∧ tj = t') ∨ (j ≠ i ∧ ths[j]? = some tj)) := by
  by_cases hij : j = i
  · subst hij
    rw [List.getElem?_set_self (lt_length_of_get?_eq_some hti)]
    constructor
    · intro h
      injection h with h
      exact Or.inl ⟨rfl, h.symm⟩
    · rintro (⟨-, rfl⟩ | ⟨hne, -⟩)
      · rfl
      · exact absurd rfl hne
  · rw [List.getElem?_set_ne (Ne.symm hij)]
    constructor
    · intro h
      exact Or.inr ⟨hij, h⟩
    · rintro (⟨h1, -⟩ | ⟨-, h⟩)
      · exact absurd h1 hij
      · exact h

/-- Transport of `RegInv` along a thread update that does not change the
thread's key, work, or in-flight status. -/
theorem RegInv_set_pc {ths : List (Thread E T)} {reg : List (String × CallRec)}
    {i : Nat} {t t' : Thread E T}
    (hti : ths[i]? = some t) (hR : RegInv ths reg)
    (hact : activeP t' = activeP t) (hkey : t'.key = t.key)
    (hfunc : t'.func = t.func) (hstuck : t'.pc ≠ PC.stuck)
    (hpan : t'.pc = PC.panicked → t'.func = WorkRes.panic) :
    RegInv (ths.set i t') reg := by
  obtain ⟨h1, h2, h3, h4, h5⟩ := hR
  refine ⟨?_, ?_, h3, ?_, ?_⟩
  · intro K
    rw [h1 K]
    constructor
    · rintro ⟨j, tj, hj, hk, ha⟩
      by_cases hij : j = i
      · subst hij
        rw [hti] at hj
        injection hj with hj
        subst hj
        exact ⟨j, t', (get?_set_eq_some_iff hti).mpr (Or.inl ⟨rfl, rfl⟩),
          by rw [hkey]; exact hk, by rw [hact]; exact ha⟩
      · exact ⟨j, tj, (get?_set_eq_some_iff hti).mpr (Or.inr ⟨hij, hj⟩), hk, ha⟩
    · rintro ⟨j, tj, hj, hk, ha⟩
      rcases (get?_set_eq_some_iff hti).mp hj with ⟨rfl, rfl⟩ | ⟨-, hj2⟩
      · exact ⟨j, t, hti, by rw [← hkey]; exact hk, by rw [← hact]; exact ha⟩
      · exact ⟨j, tj, hj2, hk, ha⟩
  · intro a b ta tb hA hB haA haB hke
    rcases (get?_set_eq_some_iff hti).mp hA with ⟨rfl, rfl⟩ | ⟨-, hA2⟩ <;>
      rcases (get?_set_eq_some_iff hti).mp hB with ⟨rfl, rfl⟩ | ⟨-, hB2⟩
    · rfl
    · exact h2 a b t tb hti hB2 (by rw [← hact]; exact haA) haB
        (by rw [← hkey]; exact hke)
    · exact h2 a b ta t hA2 hti haA (by rw [← hact]; exact haB)
        (by rw [← hkey]; exact hke)
    · exact h2 a b ta tb hA2 hB2 haA haB hke
  · intro j tj hj
    rcases (get?_set_eq_some_iff hti).mp hj with ⟨rfl, rfl⟩ | ⟨-, hj2⟩
    · exact hstuck
    · exact h4 j tj hj2
  · intro j tj hj
    rcases (get?_set_eq_some_iff hti).mp hj with ⟨rfl, rfl⟩ | ⟨-, hj2⟩
    · exact hpan
    · exact h5 j tj hj2

/-- Transport of `RegInv` along `regBump` (a follower joining does not change
which keys are present). -/
theorem RegInv_regBump {ths : List (Thread E T)} {reg : List (String × CallRec)}
    (K : String) (hR : RegInv ths reg) : RegInv ths (regBump K reg) := by
  obtain ⟨h1, h2, h3, h4, h5⟩ := hR
  refine ⟨?_, h2, ?_, h4, h5⟩
  · intro K2
    rw [regLookup_regBump_isSome]
    exact h1 K2
  · intro K2
    rw [keyCount_regBump]
    exact h3 K2


theorem RegInv_claim_leader {s : GState E T} {i : Nat} {tk : String}
    {tf : WorkRes E T} {tro : Option Bool} {pc0 pc1 : PC E T} {cid : Nat}
    (hti : s.threads[i]? = some ⟨tk, tf, tro, pc0⟩)
    (hR : RegInv s.threads s.reg)
    (hreg : regLookup tk s.reg = none)
    (hin0 : activeP (⟨tk, tf, tro, pc0⟩ : Thread E T) = false)
    (hact1 : activeP (⟨tk, tf, some true, pc1⟩ : Thread E T) = true)
    (hstuck1 : pc1 ≠ PC.stuck) (hpan1 : pc1 ≠ PC.panicked) :
    RegInv (s.threads.set i ⟨tk, tf, some true, pc1⟩)
      ((tk, ⟨0, cid⟩) :: s.reg) := by
  obtain ⟨h1, h2, h3, h4, h5⟩ := hR
  have hcons : ∀ K : String, tk ≠ K →
      regLookup K ((tk, (⟨0, cid⟩ : CallRec)) :: s.reg) = regLookup K s.reg := by
    intro K hK
    simp [regLookup, hK]
  refine ⟨?_, ?_, ?_, ?_, ?_⟩
  · intro K
    by_cases hK : tk = K
    · subst hK
      constructor
      · intro _
        exact ⟨i, ⟨tk, tf, some true, pc1⟩,
          (get?_set_eq_some_iff hti).mpr (Or.inl ⟨rfl, rfl⟩), rfl, hact1⟩
      · intro _
        simp [regLookup]
    · rw [hcons K hK]
      constructor
      · intro hS
        obtain ⟨j, tj, hj, hk, ha⟩ := (h1 K).mp hS
        by_cases hij : j = i
        · subst hij
          rw [hti] at hj
          injection hj with hj
          subst hj
          exact absurd ha (by rw [hin0]; simp)
        · exact ⟨j, tj, (get?_set_eq_some_iff hti).mpr (Or.inr ⟨hij, hj⟩), hk, ha⟩
      · rintro ⟨j, tj, hj, hk, ha⟩
        rcases (get?_set_eq_some_iff hti).mp hj with ⟨rfl, rfl⟩ | ⟨-, hj2⟩
        · exact absurd hk hK
        · exact (h1 K).mpr ⟨j, tj, hj2, hk, ha⟩
  · intro a b ta tb hA hB haA haB hke
    rcases (get?_set_eq_some_iff hti).mp hA with ⟨rfl, rfl⟩ | ⟨hA1, hA2⟩ <;>
      rcases (get?_set_eq_some_iff hti).mp hB with ⟨rfl, rfl⟩ | ⟨hB1, hB2⟩
    · rfl
    · exfalso
      have hS : (regLookup tk s.reg).isSome = true :=
        (h1 tk).mpr ⟨b, tb, hB2, hke.symm, haB⟩
      rw [hreg] at hS
      cases hS
    · exfalso
      have hS : (regLookup tk s.reg).isSome = true :=
        (h1 tk).mpr ⟨a, ta, hA2, hke, haA⟩
      rw [hreg] at hS
      cases hS
    · exact h2 a b ta tb hA2 hB2 haA haB hke
  · intro K
    by_cases hK : tk = K
    · subst hK
      have h0 : keyCount tk s.reg = 0 := regLookup_none_iff.mp hreg
      have hc : keyCount tk ((tk, (⟨0, cid⟩ : CallRec)) :: s.reg) =
          keyCount tk s.reg + 1 := by
        simp [keyCount, List.countP_cons]
      omega
    · have hc : keyCount K ((tk, (⟨0, cid⟩ : CallRec)) :: s.reg) =
          keyCount K s.reg := by
        simp [keyCount, List.countP_cons, hK]
      rw [hc]
      exact h3 K
  · intro j tj hj
    rcases (get?_set_eq_some_iff hti).mp hj with ⟨rfl, rfl⟩ | ⟨-, hj2⟩
    · exact hstuck1
    · exact h4 j tj hj2
  · intro j tj hj
    rcases (get?_set_eq_some_iff hti).mp hj with ⟨rfl, rfl⟩ | ⟨-, hj2⟩
    · intro hp
      exact absurd hp hpan1
    · exact h5 j tj hj2

theorem RegInv_retire {s : GState E T} {i : Nat} {tk : String}
    {tf : WorkRes E T} {tro : Option Bool} {pc0 pc1 : PC E T}
    (hti : s.threads[i]? = some ⟨tk, tf, tro, pc0⟩)
    (hR : RegInv s.threads s.reg)
    (hact0 : activeP (⟨tk, tf, tro, pc0⟩ : Thread E T) = true)
    (hin1 : activeP (⟨tk, tf, tro, pc1⟩ : Thread E T) = false)
    (hstuck1 : pc1 ≠ PC.stuck) (hpan1 : pc1 ≠ PC.panicked) :
    RegInv (s.threads.set i ⟨tk, tf, tro, pc1⟩) (regRemove tk s.reg) := by
  obtain ⟨h1, h2, h3, h4, h5⟩ := hR
  refine ⟨?_, ?_, ?_, ?_, ?_⟩
  · intro K
    by_cases hK : tk = K
    · subst hK
      constructor
      · intro hS
        rw [regLookup_regRemove_self (h3 tk)] at hS
        cases hS
      · rintro ⟨j, tj, hj, hk, ha⟩
        exfalso
        rcases (get?_set_eq_some_iff hti).mp hj with ⟨rfl, rfl⟩ | ⟨hne, hj2⟩
        · exact absurd ha (by rw [hin1]; simp)
        · exact hne (h2 j i tj ⟨tk, tf, tro, pc0⟩ hj2 hti ha hact0 hk)
    · have hne2 : K ≠ tk := fun h => hK h.symm
      rw [regLookup_regRemove_ne hne2]
      constructor
      · intro hS
        obtain ⟨j, tj, hj, hk, ha⟩ := (h1 K).mp hS
        by_cases hij : j = i
        · subst hij
          rw [hti] at hj
          injection hj with hj
          subst hj
          exact absurd hk hK
        · exact ⟨j, tj, (get?_set_eq_some_iff hti).mpr (Or.inr ⟨hij, hj⟩), hk, ha⟩
      · rintro ⟨j, tj, hj, hk, ha⟩
        rcases (get?_set_eq_some_iff hti).mp hj with ⟨rfl, rfl⟩ | ⟨-, hj2⟩
        · exact absurd ha (by rw [hin1]; simp)
        · exact (h1 K).mpr ⟨j, tj, hj2, hk, ha⟩
  · intro a b ta tb hA hB haA haB hke
    rcases (get?_set_eq_some_iff hti).mp hA with ⟨rfl, rfl⟩ | ⟨hA1, hA2⟩ <;>
      rcases (get?_set_eq_some_iff hti).mp hB with ⟨rfl, rfl⟩ | ⟨hB1, hB2⟩
    · rfl
    · exact absurd haA (by rw [hin1]; simp)
    · exact absurd haB (by rw [hin1]; simp)
    · exact h2 a b ta tb hA2 hB2 haA haB hke
  · intro K
    exact le_trans (keyCount_regRemove_le tk K s.reg) (h3 K)
  · intro j tj hj
    rcases (get?_set_eq_some_iff hti).mp hj with ⟨rfl, rfl⟩ | ⟨-, hj2⟩
    · exact hstuck1
    · exact h4 j tj hj2
  · intro j tj hj
    rcases (get?_set_eq_some_iff hti).mp hj with ⟨rfl, rfl⟩ | ⟨-, hj2⟩
    · intro hp
      exact absurd hp hpan1
    · exact h5 j tj hj2


theorem RegInv_step (toStr : E → String) (s : GState E T) (i : Nat)
    (hR : RegInv s.threads s.reg) :
    RegInv (step toStr s i).threads (step toStr s i).reg := by
  cases hti : s.threads[i]? with
  | none => simp only [step, hti]; exact hR
  | some t =>
    rcases t with ⟨tk, tf, tro, tpc⟩
    cases tpc with
    | start =>
      cases hreg : regLookup tk s.reg with
      | some c =>
        simp only [step, hti, hreg]
        exact RegInv_regBump tk
          (RegInv_set_pc hti hR rfl rfl rfl (by simp) (by simp))
      | none =>
        simp only [step, hti, hreg]
        exact RegInv_claim_leader hti hR hreg (by simp [activeP])
          (by simp [activeP]) (by simp) (by simp)
    | runWork =>
      cases tf with
      | ok v =>
        simp only [step, hti]
        exact RegInv_set_pc hti hR rfl rfl rfl (by simp) (by simp)
      | err e0 =>
        simp only [step, hti]
        exact RegInv_set_pc hti hR rfl rfl rfl (by simp) (by simp)
      | panic =>
        simp only [step, hti]
        exact RegInv_set_pc hti hR rfl rfl rfl (by simp) (fun _ => rfl)
    | retireStep res =>
      cases hreg : regLookup tk s.reg with
      | none =>
        exfalso
        have hS : (regLookup tk s.reg).isSome = true :=
          (hR.1 tk).mpr ⟨i, ⟨tk, tf, tro, PC.retireStep res⟩, hti, rfl,
            by simp [activeP]⟩
        rw [hreg] at hS
        cases hS
      | some c =>
        simp only [step, hti, hreg]
        exact RegInv_retire hti hR (by simp [activeP]) (by simp [activeP])
          (by simp) (by simp)
    | sendLoop cid msg rem =>
      cases rem with
      | zero =>
        simp only [step, hti]
        exact RegInv_set_pc hti hR rfl rfl rfl (by simp) (by simp)
      | succ r =>
        simp only [step, hti]
        exact RegInv_set_pc hti hR rfl rfl rfl (by simp) (by simp)
    | recvStep cid =>
      cases hch : s.chans[cid]? with
      | none => simp only [step, hti, hch]; exact hR
      | some buf =>
        cases buf with
        | nil => simp only [step, hti, hch]; exact hR
        | cons m rest =>
          simp only [step, hti, hch]
          exact RegInv_set_pc hti hR rfl rfl rfl (by simp) (by simp)
    | done m => simp only [step, hti]; exact hR
    | startC =>
      cases hreg : regLookup tk s.reg with
      | some c =>
        simp only [step, hti, hreg]
        exact RegInv_regBump tk
          (RegInv_set_pc hti hR rfl rfl rfl (by simp) (by simp))
      | none =>
        simp only [step, hti, hreg]
        exact RegInv_claim_leader hti hR hreg (by simp [activeP])
          (by simp [activeP]) (by simp) (by simp)
    | runWorkC dcid =>
      cases tf with
      | ok v =>
        simp only [step, hti]
        exact RegInv_set_pc hti hR rfl rfl rfl (by simp) (by simp)
      | err e0 =>
        simp only [step, hti]
        exact RegInv_set_pc hti hR rfl rfl rfl (by simp) (by simp)
      | panic =>
        simp only [step, hti]
        exact RegInv_set_pc hti hR rfl rfl rfl (by simp) (fun _ => rfl)
    | retireStepC dcid res =>
      cases hreg : regLookup tk s.reg with
      | none =>
        exfalso
        have hS : (regLookup tk s.reg).isSome = true :=
          (hR.1 tk).mpr ⟨i, ⟨tk, tf, tro, PC.retireStepC dcid res⟩, hti, rfl,
            by simp [activeP]⟩
        rw [hreg] at hS
        cases hS
      | some c =>
        simp only [step, hti, hreg]
        exact RegInv_retire hti hR (by simp [activeP]) (by simp [activeP])
          (by simp) (by simp)
    | sendLoopC cid dcid msg rem =>
      cases rem with
      | zero =>
        simp only [step, hti]
        exact RegInv_set_pc hti hR rfl rfl rfl (by simp) (by simp)
      | succ r =>
        simp only [step, hti]
        exact RegInv_set_pc hti hR rfl rfl rfl (by simp) (by simp)
    | recvForwardC cid =>
      cases hch : s.chans[cid]? with
      | none => simp only [step, hti, hch]; exact hR
      | some buf =>
        cases buf with
        | nil => simp only [step, hti, hch]; exact hR
        | cons m rest =>
          simp only [step, hti, hch]
          exact RegInv_set_pc hti hR rfl rfl rfl (by simp) (by simp)
    | doneChan dcid => simp only [step, hti]; exact hR
    | panicked => simp only [step, hti]; exact hR
    | stuck => simp only [step, hti]; exact hR

theorem RegInv_init (specs : List (CallSpec E T)) :
    RegInv (mkInit specs).threads (mkInit specs).reg := by
  refine ⟨?_, ?_, ?_, ?_, ?_⟩
  · intro K
    constructor
    · intro hS
      cases hS
    · rintro ⟨j, tj, hj, -, ha⟩
      exfalso
      simp only [mkInit, List.getElem?_map] at hj
      cases hsp : specs[j]? with
      | none => rw [hsp] at hj; cases hj
      | some sp =>
        rw [hsp] at hj
        injection hj with hj
        subst hj
        cases hm : sp.chanMode <;> simp [initThread, hm, activeP] at ha
  · intro a b ta tb hA hB haA haB hke
    exfalso
    simp only [mkInit, List.getElem?_map] at hA
    cases hsp : specs[a]? with
    | none => rw [hsp] at hA; cases hA
    | some sp =>
      rw [hsp] at hA
      injection hA with hA
      subst hA
      cases hm : sp.chanMode <;> simp [initThread, hm, activeP] at haA
  · intro K
    exact Nat.le_of_eq rfl |>.trans (by simp [keyCount, mkInit, List.countP_nil])
  · intro j tj hj
    simp only [mkInit, List.getElem?_map] at hj
    cases hsp : specs[j]? with
    | none => rw [hsp] at hj; cases hj
    | some sp =>
      rw [hsp] at hj
      injection hj with hj
      subst hj
      cases hm : sp.chanMode <;> simp [initThread, hm]
  · intro j tj hj hp
    exfalso
    simp only [mkInit, List.getElem?_map] at hj
    cases hsp : specs[j]? with
    | none => rw [hsp] at hj; cases hj
    | some sp =>
      rw [hsp] at hj
      injection hj with hj
      subst hj
      cases hm : sp.chanMode <;> simp [initThread, hm] at hp

theorem RegInv_run (toStr : E → String) (specs : List (CallSpec E T))
    (sched : List Nat) :
    RegInv (runInit toStr specs sched).threads (runInit toStr specs sched).reg := by
  suffices h : ∀ (l : List Nat) (s : GState E T), RegInv s.threads s.reg →
      RegInv (run toStr s l).threads (run toStr s l).reg from
    h sched _ (RegInv_init specs)
  intro l
  induction l with
  | nil => intro s hs; exact hs
  | cons a rest ih => intro s hs; exact ih _ (RegInv_step toStr s a hs)


theorem map_set_keyfunc {ths : List (Thread E T)} {i : Nat} {t t' : Thread E T}
    (hti : ths[i]? = some t) (hk : t'.key = t.key) (hf : t'.func = t.func)
    (j : Nat) :
    ((ths.set i t')[j]?).map (fun t => (t.key, t.func)) =
      (ths[j]?).map (fun t => (t.key, t.func)) := by
  by_cases hij : i = j
  · subst hij
    rw [List.getElem?_set_self (lt_length_of_get?_eq_some hti), hti]
    simp [hk, hf]
  · rw [List.getElem?_set_ne hij]

/-- A step never changes any thread's key or work function. -/
theorem step_preserves_keyfunc (toStr : E → String) (s : GState E T)
    (i j : Nat) :
    ((step toStr s i).threads[j]?).map (fun t => (t.key, t.func)) =
      (s.threads[j]?).map (fun t => (t.key, t.func)) := by
  cases hti : s.threads[i]? with
  | none => simp only [step, hti]
  | some t =>
    rcases t with ⟨tk, tf, tro, tpc⟩
    cases tpc <;> simp only [step, hti] <;>
      (try split) <;> (try split) <;>
      first
      | rfl
      | (refine map_set_keyfunc hti ?_ ?_ j <;> rfl)

theorem run_preserves_keyfunc (toStr : E → String) (s : GState E T)
    (sched : List Nat) (j : Nat) :
    ((run toStr s sched).threads[j]?).map (fun t => (t.key, t.func)) =
      (s.threads[j]?).map (fun t => (t.key, t.func)) := by
  induction sched generalizing s with
  | nil => rfl
  | cons a rest ih =>
    calc ((run toStr (step toStr s a) rest).threads[j]?).map
          (fun t => (t.key, t.func))
        = ((step toStr s a).threads[j]?).map (fun t => (t.key, t.func)) :=
          ih (step toStr s a)
      _ = (s.threads[j]?).map (fun t => (t.key, t.func)) :=
          step_preserves_keyfunc toStr s a j

/-- Threads of a run keep the key and work function of their call spec. -/
theorem runInit_keyfunc (toStr : E → String) (specs : List (CallSpec E T))
    (sched : List Nat) (j : Nat) (t : Thread E T)
    (hj : (runInit toStr specs sched).threads[j]? = some t) :
    ∃ sp, specs[j]? = some sp ∧ t.key = sp.key ∧ t.func = sp.func := by
  have h : ((runInit toStr specs sched).threads[j]?).map (fun t => (t.key, t.func)) =
      ((mkInit specs).threads[j]?).map (fun t => (t.key, t.func)) :=
    run_preserves_keyfunc toStr (mkInit specs) sched j
  rw [hj] at h
  simp only [mkInit, List.getElem?_map] at h
  cases hsp : specs[j]? with
  | none => rw [hsp] at h; cases h
  | some sp =>
    rw [hsp] at h
    simp only [Option.map_some'] at h
    injection h with h
    rw [Prod.mk.injEq] at h
    exact ⟨sp, rfl, h.1, h.2⟩


/-- C8: the registry invariant of the mapping.  For every initial state whose
work functions are genuine fallible computations (no panics) and every
schedule: a key is present in the mapping if and only if an execution for
that key is currently in flight, i.e. some caller of that key is between its
leadership claim and its retirement of the record.  In particular no entry
ever represents a completed (retired) or cached result. -/
theorem registry_iff_inflight (E T : Type) (toStr : E → String)
    (specs : List (CallSpec E T)) (sched : List Nat)
    (hnp : ∀ sp ∈ specs, sp.func ≠ WorkRes.panic) (K : String) :
    (regLookup K (runInit toStr specs sched).reg).isSome = true ↔
      ∃ (i : Nat) (t : Thread E T),
        (runInit toStr specs sched).threads[i]? = some t ∧ t.key = K ∧
        activeW t = true := by
  have hR : RegInv (runInit toStr specs sched).threads
      (runInit toStr specs sched).reg := RegInv_run toStr specs sched
  constructor
  · intro hS
    obtain ⟨i, t, hti, hk, ha⟩ := (hR.1 K).mp hS
    refine ⟨i, t, hti, hk, ?_⟩
    rcases t with ⟨tk, tf, tro, tpc⟩
    cases tpc with
    | runWork => rfl
    | retireStep res => rfl
    | runWorkC dcid => rfl
    | retireStepC dcid res => rfl
    | panicked =>
      exfalso
      have hf : (⟨tk, tf, tro, PC.panicked⟩ : Thread E T).func = WorkRes.panic :=
        hR.2.2.2.2 i _ hti rfl
      obtain ⟨sp, hsp, -, hfe⟩ := runInit_keyfunc toStr specs sched i _ hti
      exact hnp sp (List.getElem?_mem hsp) (by rw [← hfe]; exact hf)
    | start => exact Bool.noConfusion ha
    | sendLoop cid msg rem => exact Bool.noConfusion ha
    | recvStep cid => exact Bool.noConfusion ha
    | done m => exact Bool.noConfusion ha
    | startC => exact Bool.noConfusion ha
    | sendLoopC cid dcid msg rem => exact Bool.noConfusion ha
    | recvForwardC cid => exact Bool.noConfusion ha
    | doneChan dcid => exact Bool.noConfusion ha
    | stuck => exact Bool.noConfusion ha
  · rintro ⟨i, t, hti, hk, ha⟩
    refine (hR.1 K).mpr ⟨i, t, hti, hk, ?_⟩
    rcases t with ⟨tk, tf, tro, tpc⟩
    cases tpc with
    | runWork => rfl
    | retireStep res => rfl
    | runWorkC dcid => rfl
    | retireStepC dcid res => rfl
    | panicked => rfl
    | start => exact Bool.noConfusion ha
    | sendLoop cid msg rem => exact Bool.noConfusion ha
    | recvStep cid => exact Bool.noConfusion ha
    | done m => exact Bool.noConfusion ha
    | startC => exact Bool.noConfusion ha
    | sendLoopC cid dcid msg rem => exact Bool.noConfusion ha
    | recvForwardC cid => exact Bool.noConfusion ha
    | doneChan dcid => exact Bool.noConfusion ha
    | stuck => exact Bool.noConfusion ha

/-- Witness for C8 on a concrete run: after the single caller has claimed
leadership and run its work but not yet retired (two steps), the key is in
the registry and the theorem yields the in-flight thread; and the reverse
direction re-derives presence from in-flight-ness. -/
theorem registry_iff_inflight_witness :
    ∃ (i : Nat) (t : Thread String Nat),
      (runInit (fun e : String => e) [⟨"key", WorkRes.ok 7, false⟩]
        [0, 0]).threads[i]? = some t ∧ t.key = "key" ∧ activeW t = true :=
  (registry_iff_inflight String Nat (fun e : String => e)
    [⟨"key", WorkRes.ok 7, false⟩] [0, 0] (by decide) "key").mp (by decide)


/-- Program points a leader with panicking work can be at after claiming:
about to run the work, or panicked. -/
def pcFence (p : PC E T) : Prop :=
  p = PC.runWork ∨ (∃ dc, p = PC.runWorkC dc) ∨ p = PC.panicked

/-- Fence invariant for a caller `i0` of key `K` whose work panics: `i0`
keeps its key and work; once `i0` has claimed leadership its program point
stays before any retirement (it never retires, never broadcasts); and no
other caller ever claims leadership of `K` after `i0`'s leadership claim. -/
def PanicFence (i0 : Nat) (K : String) (ths : List (Thread E T))
    (log : List Event) : Prop :=
  (∀ t : Thread E T, ths[i0]? = some t → t.func = WorkRes.panic ∧ t.key = K) ∧
  (Event.claimed i0 K true ∈ log →
    ∃ t : Thread E T, ths[i0]? = some t ∧ pcFence t.pc) ∧
  (∀ (j : Nat) (pre suf : List Event), j ≠ i0 →
    log = pre ++ Event.claimed j K true :: suf →
    Event.claimed i0 K true ∉ pre)

theorem PanicFence_set {ths : List (Thread E T)} {log : List Event}
    {i0 : Nat} {K : String} {i : Nat} {t t' : Thread E T}
    (hti : ths[i]? = some t) (hk : t'.key = t.key) (hf : t'.func = t.func)
    (hP : PanicFence i0 K ths log)
    (h3 : t.func = WorkRes.panic → pcFence t.pc → pcFence t'.pc) :
    PanicFence i0 K (ths.set i t') log := by
  obtain ⟨P0, P1, P2⟩ := hP
  refine ⟨?_, ?_, P2⟩
  · intro u hu
    rcases (get?_set_eq_some_iff hti).mp hu with ⟨hi, rfl⟩ | ⟨-, hu2⟩
    · have h0 := P0 t (by rw [hi]; exact hti)
      exact ⟨by rw [hf]; exact h0.1, by rw [hk]; exact h0.2⟩
    · exact P0 u hu2
  · intro hm
    obtain ⟨t1, ht1, hpc1⟩ := P1 hm
    by_cases hii : i0 = i
    · have hti0 : ths[i0]? = some t := by rw [hii]; exact hti
      rw [hti0] at ht1
      injection ht1 with ht1
      refine ⟨t', ?_, h3 (P0 t hti0).1 (ht1 ▸ hpc1)⟩
      rw [hii]
      exact (get?_set_eq_some_iff hti).mpr (Or.inl ⟨rfl, rfl⟩)
    · exact ⟨t1, (get?_set_eq_some_iff hti).mpr (Or.inr ⟨hii, ht1⟩), hpc1⟩

theorem PanicFence_append {ths : List (Thread E T)} {log : List Event}
    {i0 : Nat} {K : String} {e : Event}
    (hP : PanicFence i0 K ths log)
    (he : ∀ j : Nat, e ≠ Event.claimed j K true) :
    PanicFence i0 K ths (log ++ [e]) := by
  obtain ⟨P0, P1, P2⟩ := hP
  refine ⟨P0, ?_, ?_⟩
  · intro hm
    rcases List.mem_append.mp hm with hm2 | hm2
    · exact P1 hm2
    · rw [List.mem_singleton] at hm2
      exact absurd hm2.symm (he i0)
  · intro j pre suf hj hsplit
    rcases append_singleton_eq_split hsplit with ⟨suf2, hl⟩ | ⟨-, hx, -⟩
    · exact P2 j pre suf2 hj hl
    · exact absurd hx.symm (he j)

theorem PanicFence_step (toStr : E → String) (s : GState E T) (i : Nat)
    (i0 : Nat) (K : String)
    (hR : RegInv s.threads s.reg) (hP : PanicFence i0 K s.threads s.log) :
    PanicFence i0 K (step toStr s i).threads (step toStr s i).log := by
  cases hti : s.threads[i]? with
  | none => simp only [step, hti]; exact hP
  | some t =>
    rcases t with ⟨tk, tf, tro, tpc⟩
    cases tpc with
    | start =>
      cases hreg : regLookup tk s.reg with
      | some c =>
        simp only [step, hti, hreg]
        exact PanicFence_append
          (PanicFence_set hti rfl rfl hP
            (fun _ h => absurd h (by simp [pcFence])))
          (fun j h => by injection h with h1 h2 h3; exact Bool.noConfusion h3)
      | none =>
        simp only [step, hti, hreg]
        by_cases hKk : tk = K
        · subst hKk
          obtain ⟨P0, P1, P2⟩ := hP
          have hnotin : Event.claimed i0 tk true ∉ s.log := by
            intro hm
            obtain ⟨t1, ht1, hpc1⟩ := P1 hm
            have h0 := P0 t1 ht1
            have hS : (regLookup tk s.reg).isSome = true := by
              refine (hR.1 tk).mpr ⟨i0, t1, ht1, h0.2, ?_⟩
              rcases hpc1 with h | ⟨dc, h⟩ | h <;>
                rcases t1 with ⟨u1, u2, u3, u4⟩ <;>
                replace h : u4 = _ := h <;> subst h <;> rfl
            rw [hreg] at hS
            cases hS
          refine ⟨?_, ?_, ?_⟩
          · intro u hu
            rcases (get?_set_eq_some_iff hti).mp hu with ⟨hi, rfl⟩ | ⟨-, hu2⟩
            · have h0 := P0 _ (by rw [hi]; exact hti)
              exact ⟨h0.1, h0.2⟩
            · exact P0 u hu2
          · intro hm
            rcases List.mem_append.mp hm with hm2 | hm2
            · exact absurd hm2 hnotin
            · rw [List.mem_singleton] at hm2
              injection hm2 with h1 h2 h3
              subst h1
              exact ⟨⟨tk, tf, some true, PC.runWork⟩,
                (get?_set_eq_some_iff hti).mpr (Or.inl ⟨rfl, rfl⟩),
                Or.inl rfl⟩
          · intro j pre suf hj hsplit
            rcases append_singleton_eq_split hsplit with ⟨suf2, hl⟩ | ⟨hpre, hx, -⟩
            · exact P2 j pre suf2 hj hl
            · injection hx with h1 h2 h3
              subst h1
              rw [hpre]
              exact hnotin
        · refine PanicFence_append
            (PanicFence_set hti rfl rfl hP
              (fun _ h => absurd h (by simp [pcFence]))) ?_
          intro j h
          injection h with h1 h2 h3
          exact hKk h2
    | runWork =>
      cases tf with
      | ok v =>
        simp only [step, hti]
        exact PanicFence_append
          (PanicFence_set hti rfl rfl hP
            (fun hfp _ => absurd hfp (by simp)))
          (fun j h => Event.noConfusion h)
      | err e0 =>
        simp only [step, hti]
        exact PanicFence_append
          (PanicFence_set hti rfl rfl hP
            (fun hfp _ => absurd hfp (by simp)))
          (fun j h => Event.noConfusion h)
      | panic =>
        simp only [step, hti]
        exact PanicFence_append
          (PanicFence_set hti rfl rfl hP
            (fun _ _ => Or.inr (Or.inr rfl)))
          (fun j h => Event.noConfusion h)
    | retireStep res =>
      cases hreg : regLookup tk s.reg with
      | none =>
        simp only [step, hti, hreg]
        exact PanicFence_set hti rfl rfl hP
          (fun _ h => absurd h (by simp [pcFence]))
      | some c =>
        simp only [step, hti, hreg]
        exact PanicFence_append
          (PanicFence_set hti rfl rfl hP
            (fun _ h => absurd h (by simp [pcFence])))
          (fun j h => Event.noConfusion h)
    | sendLoop cid msg rem =>
      cases rem with
      | zero =>
        simp only [step, hti]
        exact PanicFence_set hti rfl rfl hP
          (fun _ h => absurd h (by simp [pcFence]))
      | succ r =>
        simp only [step, hti]
        exact PanicFence_append
          (PanicFence_set hti rfl rfl hP
            (fun _ h => absurd h (by simp [pcFence])))
          (fun j h => Event.noConfusion h)
    | recvStep cid =>
      cases hch : s.chans[cid]? with
      | none => simp only [step, hti, hch]; exact hP
      | some buf =>
        cases buf with
        | nil => simp only [step, hti, hch]; exact hP
        | cons m rest =>
          simp only [step, hti, hch]
          exact PanicFence_append
            (PanicFence_set hti rfl rfl hP
              (fun _ h => absurd h (by simp [pcFence])))
            (fun j h => Event.noConfusion h)
    | done m => simp only [step, hti]; exact hP
    | startC =>
      cases hreg : regLookup tk s.reg with
      | some c =>
        simp only [step, hti, hreg]
        exact PanicFence_append
          (PanicFence_set hti rfl rfl hP
            (fun _ h => absurd h (by simp [pcFence])))
          (fun j h => by injection h with h1 h2 h3; exact Bool.noConfusion h3)
      | none =>
        simp only [step, hti, hreg]
        by_cases hKk : tk = K
        · subst hKk
          obtain ⟨P0, P1, P2⟩ := hP
          have hnotin : Event.claimed i0 tk true ∉ s.log := by
            intro hm
            obtain ⟨t1, ht1, hpc1⟩ := P1 hm
            have h0 := P0 t1 ht1
            have hS : (regLookup tk s.reg).isSome = true := by
              refine (hR.1 tk).mpr ⟨i0, t1, ht1, h0.2, ?_⟩
              rcases hpc1 with h | ⟨dc, h⟩ | h <;>
                rcases t1 with ⟨u1, u2, u3, u4⟩ <;>
                replace h : u4 = _ := h <;> subst h <;> rfl
            rw [hreg] at hS
            cases hS
          refine ⟨?_, ?_, ?_⟩
          · intro u hu
            rcases (get?_set_eq_some_iff hti).mp hu with ⟨hi, rfl⟩ | ⟨-, hu2⟩
            · have h0 := P0 _ (by rw [hi]; exact hti)
              exact ⟨h0.1, h0.2⟩
            · exact P0 u hu2
          · intro hm
            rcases List.mem_append.mp hm with hm2 | hm2
            · exact absurd hm2 hnotin
            · rw [List.mem_singleton] at hm2
              injection hm2 with h1 h2 h3
              subst h1
              exact ⟨⟨tk, tf, some true, PC.runWorkC (s.chans.length + 1)⟩,
                (get?_set_eq_some_iff hti).mpr (Or.inl ⟨rfl, rfl⟩),
                Or.inr (Or.inl ⟨s.chans.length + 1, rfl⟩)⟩
          · intro j pre suf hj hsplit
            rcases append_singleton_eq_split hsplit with ⟨suf2, hl⟩ | ⟨hpre, hx, -⟩
            · exact P2 j pre suf2 hj hl
            · injection hx with h1 h2 h3
              subst h1
              rw [hpre]
              exact hnotin
        · refine PanicFence_append
            (PanicFence_set hti rfl rfl hP
              (fun _ h => absurd h (by simp [pcFence]))) ?_
          intro j h
          injection h with h1 h2 h3
          exact hKk h2
    | runWorkC dcid =>
      cases tf with
      | ok v =>
        simp only [step, hti]
        exact PanicFence_append
          (PanicFence_set hti rfl rfl hP
            (fun hfp _ => absurd hfp (by simp)))
          (fun j h => Event.noConfusion h)
      | err e0 =>
        simp only [step, hti]
        exact PanicFence_append
          (PanicFence_set hti rfl rfl hP
            (fun hfp _ => absurd hfp (by simp)))
          (fun j h => Event.noConfusion h)
      | panic =>
        simp only [step, hti]
        exact PanicFence_append
          (PanicFence_set hti rfl rfl hP
            (fun _ _ => Or.inr (Or.inr rfl)))
          (fun j h => Event.noConfusion h)
    | retireStepC dcid res =>
      cases hreg : regLookup tk s.reg with
      | none =>
        simp only [step, hti, hreg]
        exact PanicFence_set hti rfl rfl hP
          (fun _ h => absurd h (by simp [pcFence]))
      | some c =>
        simp only [step, hti, hreg]
        exact PanicFence_append
          (PanicFence_set hti rfl rfl hP
            (fun _ h => absurd h (by simp [pcFence])))
          (fun j h => Event.noConfusion h)
    | sendLoopC cid dcid msg rem =>
      cases rem with
      | zero =>
        simp only [step, hti]
        exact PanicFence_append
          (PanicFence_set hti rfl rfl hP
            (fun _ h => absurd h (by simp [pcFence])))
          (fun j h => Event.noConfusion h)
      | succ r =>
        simp only [step, hti]
        exact PanicFence_append
          (PanicFence_set hti rfl rfl hP
            (fun _ h => absurd h (by simp [pcFence])))
          (fun j h => Event.noConfusion h)
    | recvForwardC cid =>
      cases hch : s.chans[cid]? with
      | none => simp only [step, hti, hch]; exact hP
      | some buf =>
        cases buf with
        | nil => simp only [step, hti, hch]; exact hP
        | cons m rest =>
          simp only [step, hti, hch]
          exact PanicFence_append
            (PanicFence_set hti rfl rfl hP
              (fun _ h => absurd h (by simp [pcFence])))
            (fun j h => Event.noConfusion h)
    | doneChan dcid => simp only [step, hti]; exact hP
    | panicked => simp only [step, hti]; exact hP
    | stuck => simp only [step, hti]; exact hP

theorem PanicFence_init (specs : List (CallSpec E T)) (i0 : Nat) (K : String)
    (mo : Bool) (hspec : specs[i0]? = some ⟨K, WorkRes.panic, mo⟩) :
    PanicFence i0 K (mkInit specs).threads (mkInit specs).log := by
  refine ⟨?_, ?_, ?_⟩
  · intro t ht
    simp only [mkInit, List.getElem?_map] at ht
    rw [hspec] at ht
    injection ht with ht
    subst ht
    exact ⟨rfl, rfl⟩
  · intro hm
    exact absurd hm (List.not_mem_nil _)
  · intro j pre suf hj hsplit
    exact absurd hsplit.symm (List.append_ne_nil_of_right_ne_nil _ (by simp))

theorem PanicFence_run (toStr : E → String) (specs : List (CallSpec E T))
    (sched : List Nat) (i0 : Nat) (K : String) (mo : Bool)
    (hspec : specs[i0]? = some ⟨K, WorkRes.panic, mo⟩) :
    PanicFence i0 K (runInit toStr specs sched).threads
      (runInit toStr specs sched).log := by
  suffices h : ∀ (l : List Nat) (s : GState E T), RegInv s.threads s.reg →
      PanicFence i0 K s.threads s.log →
      PanicFence i0 K (run toStr s l).threads (run toStr s l).log from
    h sched _ (RegInv_init specs) (PanicFence_init specs i0 K mo hspec)
  intro l
  induction l with
  | nil => intro s h1 h2; exact h2
  | cons a rest ih =>
    intro s h1 h2
    exact ih _ (RegInv_step toStr s a h1) (PanicFence_step toStr s a i0 K h1 h2)


theorem cnt_sent_pos_of_mem {i cid : Nat} {log : List Event}
    (h : Event.sent i cid ∈ log) : 0 < cnt (isSentOf i) log :=
  List.countP_pos_iff.mpr ⟨_, h, by simp [isSentOf]⟩

/-- C10: if the work of caller `i0` for key `K` panics (and `i0`'s claim did
panic — it reached the panicked point), then: the registry still contains
`K`'s record; `i0` never retired the record and never broadcast any outcome
message; and no other caller ever claimed leadership of `K` after `i0`'s
leadership claim — so every later caller for `K` joins as a follower instead
of starting a fresh execution. -/
theorem panic_leaves_record_and_blocks_key (E T : Type) (toStr : E → String)
    (specs : List (CallSpec E T)) (sched : List Nat) (i0 : Nat) (K : String)
    (mo : Bool) (hspec : specs[i0]? = some ⟨K, WorkRes.panic, mo⟩)
    (hpan : pcOf (runInit toStr specs sched) i0 = some PC.panicked) :
    (regLookup K (runInit toStr specs sched).reg).isSome = true ∧
    (∀ (k : String) (d : Nat),
      Event.retired i0 k d ∉ (runInit toStr specs sched).log) ∧
    (∀ cid : Nat, Event.sent i0 cid ∉ (runInit toStr specs sched).log) ∧
    (∀ (j : Nat) (pre suf : List Event), j ≠ i0 →
      (runInit toStr specs sched).log = pre ++ Event.claimed j K true :: suf →
      Event.claimed i0 K true ∉ pre) := by
  have hR : RegInv (runInit toStr specs sched).threads
      (runInit toStr specs sched).reg := RegInv_run toStr specs sched
  have hF : PanicFence i0 K (runInit toStr specs sched).threads
      (runInit toStr specs sched).log := PanicFence_run toStr specs sched i0 K mo hspec
  have hAcc : AccInv (runInit toStr specs sched) := AccInv_run toStr specs sched
  obtain ⟨t, hti, hpc⟩ := Option.map_eq_some'.mp hpan
  rcases t with ⟨tk, tf, tro, tpc⟩
  replace hpc : tpc = PC.panicked := hpc
  subst hpc
  have hkey : tk = K := (hF.1 _ hti).2
  refine ⟨?_, ?_, ?_, hF.2.2⟩
  · exact (hR.1 K).mpr ⟨i0, _, hti, hkey, rfl⟩
  · intro k d hmem
    have hT := hAcc.1 i0 _ hti
    have c3 := hT.2.2.2.1
    exact absurd (cnt_retired_pos_of_mem hmem) (by omega)
  · intro cid hmem
    have hT := hAcc.1 i0 _ hti
    have c4 := hT.2.2.2.2.1
    exact absurd (cnt_sent_pos_of_mem hmem) (by omega)

/-- Witness for C10 on a concrete run: caller 0's work for `"k"` panics after
its claim; a later caller has joined as a follower; the record is still in
the registry and no retirement by caller 0 was ever logged. -/
theorem panic_leaves_record_and_blocks_key_witness :
    (regLookup "k" (runInit (fun e : String => e)
      [⟨"k", WorkRes.panic, false⟩, ⟨"k", WorkRes.ok 1, false⟩]
      [0, 0, 1, 1, 1]).reg).isSome = true ∧
    Event.retired 0 "k" 0 ∉ (runInit (fun e : String => e)
      [⟨"k", WorkRes.panic, false⟩, ⟨"k", WorkRes.ok 1, false⟩]
      [0, 0, 1, 1, 1]).log := by
  have h := panic_leaves_record_and_blocks_key String Nat (fun e : String => e)
    [⟨"k", WorkRes.panic, false⟩, ⟨"k", WorkRes.ok 1, false⟩] [0, 0, 1, 1, 1]
    0 "k" false (by decide) (by decide)
  exact ⟨h.1, h.2.1 "k" 0⟩


/-! ## Error rounds: every delivered outcome is the stringified failure -/

theorem append_chan_mem {T : Type} {cs bs : List (List (Msg T))} {cid2 : Nat}
    {buf2 : List (Msg T)} (h : (cs ++ bs)[cid2]? = some buf2) :
    cs[cid2]? = some buf2 ∨ buf2 ∈ bs := by
  rw [List.getElem?_append] at h
  by_cases hlt : cid2 < cs.length
  · rw [if_pos hlt] at h
    exact Or.inl h
  · rw [if_neg hlt] at h
    exact Or.inr (List.getElem?_mem h)

theorem pushBuf_mem {T : Type} {cid : Nat} {m : Msg T} {cs : List (List (Msg T))}
    {cid2 : Nat} {buf2 : List (Msg T)} (h : (pushBuf cid m cs)[cid2]? = some buf2)
    {x : Msg T} (hx : x ∈ buf2) :
    (∃ buf, cs[cid2]? = some buf ∧ x ∈ buf) ∨ x = m := by
  unfold pushBuf at h
  cases hc : cs[cid]? with
  | none => rw [hc] at h; exact Or.inl ⟨buf2, h, hx⟩
  | some buf =>
    rw [hc] at h
    by_cases hcc : cid = cid2
    · subst hcc
      rw [List.getElem?_set_self (lt_length_of_get?_eq_some hc)] at h
      injection h with h
      subst h
      rcases List.mem_append.mp hx with h2 | h2
      · exact Or.inl ⟨buf, hc, h2⟩
      · rw [List.mem_singleton] at h2
        exact Or.inr h2
    · rw [List.getElem?_set_ne hcc] at h
      exact Or.inl ⟨buf2, h, hx⟩

theorem set_chan_mem {T : Type} {cs : List (List (Msg T))} {cid : Nat}
    {rest : List (Msg T)} {cid2 : Nat} {buf2 : List (Msg T)}
    (h : (cs.set cid rest)[cid2]? = some buf2) {x : Msg T} (hx : x ∈ buf2) :
    (∃ buf, cs[cid2]? = some buf ∧ x ∈ buf) ∨ (cid2 = cid ∧ x ∈ rest) := by
  by_cases hcc : cid = cid2
  · subst hcc
    cases hc : cs[cid]? with
    | none =>
      rw [List.set_eq_of_length_le (List.getElem?_eq_none_iff.mp hc)] at h
      rw [hc] at h
      cases h
    | some buf =>
      rw [List.getElem?_set_self (lt_length_of_get?_eq_some hc)] at h
      injection h with h
      subst h
      exact Or.inr ⟨rfl, hx⟩
  · rw [List.getElem?_set_ne hcc] at h
    exact Or.inl ⟨buf2, h, hx⟩

/-- Per-thread piece of the error-round invariant: every outcome or message
a thread carries is the stringified failure. -/
def ErrT (e : E) (toStr : E → String) (t : Thread E T) : Prop :=
  match t.pc with
  | .retireStep res => res = Except.error e
  | .retireStepC _ res => res = Except.error e
  | .sendLoop _ msg _ => msg = Except.error (toStr e)
  | .sendLoopC _ _ msg _ => msg = Except.error (toStr e)
  | .done m => m = Except.error (toStr e)
  | _ => True

/-- Error-round invariant: in a system where every caller's work fails with
`e`, every thread's work is `err e`, every carried outcome is the
stringified failure, and every message in every channel buffer is the
stringified failure. -/
def ErrInv (e : E) (toStr : E → String) (s : GState E T) : Prop :=
  (∀ (i : Nat) (t : Thread E T), s.threads[i]? = some t →
    t.func = WorkRes.err e ∧ ErrT e toStr t) ∧
  (∀ (cid : Nat) (buf : List (Msg T)), s.chans[cid]? = some buf →
    ∀ m ∈ buf, m = Except.error (toStr e))

theorem ErrInv_threads_set {e : E} {toStr : E → String} {s : GState E T}
    {i : Nat} {t t' : Thread E T} (hti : s.threads[i]? = some t)
    (hIE : ∀ (j : Nat) (u : Thread E T), s.threads[j]? = some u →
      u.func = WorkRes.err e ∧ ErrT e toStr u)
    (hf : t'.func = WorkRes.err e) (hE : ErrT e toStr t') :
    ∀ (j : Nat) (u : Thread E T), (s.threads.set i t')[j]? = some u →
      u.func = WorkRes.err e ∧ ErrT e toStr u := by
  intro j u hu
  rcases (get?_set_eq_some_iff hti).mp hu with ⟨-, rfl⟩ | ⟨-, hu2⟩
  · exact ⟨hf, hE⟩
  · exact hIE j u hu2

theorem ErrInv_step (toStr : E → String) (e : E) (s : GState E T) (i : Nat)
    (hI : ErrInv e toStr s) : ErrInv e toStr (step toStr s i) := by
  obtain ⟨h1, h2⟩ := hI
  cases hti : s.threads[i]? with
  | none => simp only [step, hti]; exact ⟨h1, h2⟩
  | some t =>
    have hfe := h1 i t hti
    rcases t with ⟨tk, tf, tro, tpc⟩
    replace hfe : tf = WorkRes.err e ∧ ErrT e toStr ⟨tk, tf, tro, tpc⟩ := hfe
    cases tpc with
    | start =>
      cases hreg : regLookup tk s.reg with
      | some c =>
        simp only [step, hti, hreg]
        exact ⟨ErrInv_threads_set hti h1 hfe.1 trivial, h2⟩
      | none =>
        simp only [step, hti, hreg]
        refine ⟨ErrInv_threads_set hti h1 hfe.1 trivial, ?_⟩
        intro cid buf hbuf m hm
        rcases append_chan_mem hbuf with hold | hnew
        · exact h2 cid buf hold m hm
        · rw [List.mem_singleton] at hnew
          subst hnew
          cases hm
    | runWork =>
      cases tf with
      | ok v => exact absurd hfe.1 (by simp)
      | panic => exact absurd hfe.1 (by simp)
      | err e0 =>
        have he0 : e0 = e := by
          have := hfe.1
          injection this
        subst he0
        simp only [step, hti]
        exact ⟨ErrInv_threads_set hti h1 hfe.1 rfl, h2⟩
    | retireStep res =>
      have hres : res = Except.error e := hfe.2
      subst hres
      cases hreg : regLookup tk s.reg with
      | none =>
        simp only [step, hti, hreg]
        exact ⟨ErrInv_threads_set hti h1 hfe.1 trivial, h2⟩
      | some c =>
        simp only [step, hti, hreg]
        exact ⟨ErrInv_threads_set hti h1 hfe.1 rfl, h2⟩
    | sendLoop cid msg rem =>
      have hmsg : msg = Except.error (toStr e) := hfe.2
      cases rem with
      | zero =>
        simp only [step, hti]
        exact ⟨ErrInv_threads_set hti h1 hfe.1 trivial, h2⟩
      | succ r =>
        simp only [step, hti]
        refine ⟨ErrInv_threads_set hti h1 hfe.1 hmsg, ?_⟩
        intro cid2 buf hbuf m hm
        rcases pushBuf_mem hbuf hm with ⟨buf0, hb0, hmb⟩ | hx
        · exact h2 cid2 buf0 hb0 m hmb
        · rw [hx, hmsg]
    | recvStep cid =>
      cases hch : s.chans[cid]? with
      | none => simp only [step, hti, hch]; exact ⟨h1, h2⟩
      | some buf =>
        cases buf with
        | nil => simp only [step, hti, hch]; exact ⟨h1, h2⟩
        | cons m rest =>
          have hmE : m = Except.error (toStr e) :=
            h2 cid (m :: rest) hch m (by simp)
          simp only [step, hti, hch]
          refine ⟨ErrInv_threads_set hti h1 hfe.1 hmE, ?_⟩
          intro cid2 buf2 hbuf x hx
          rcases set_chan_mem hbuf hx with ⟨buf0, hb0, hmb⟩ | ⟨-, hxr⟩
          · exact h2 cid2 buf0 hb0 x hmb
          · exact h2 cid (m :: rest) hch x (by simp [hxr])
    | done m => simp only [step, hti]; exact ⟨h1, h2⟩
    | startC =>
      cases hreg : regLookup tk s.reg with
      | some c =>
        simp only [step, hti, hreg]
        exact ⟨ErrInv_threads_set hti h1 hfe.1 trivial, h2⟩
      | none =>
        simp only [step, hti, hreg]
        refine ⟨ErrInv_threads_set hti h1 hfe.1 trivial, ?_⟩
        intro cid buf hbuf m hm
        rcases append_chan_mem hbuf with hold | hnew
        · exact h2 cid buf hold m hm
        · have hb : buf = [] := by simpa using hnew
          subst hb
          cases hm
    | runWorkC dcid =>
      cases tf with
      | ok v => exact absurd hfe.1 (by simp)
      | panic => exact absurd hfe.1 (by simp)
      | err e0 =>
        have he0 : e0 = e := by
          have := hfe.1
          injection this
        subst he0
        simp only [step, hti]
        exact ⟨ErrInv_threads_set hti h1 hfe.1 rfl, h2⟩
    | retireStepC dcid res =>
      have hres : res = Except.error e := hfe.2
      subst hres
      cases hreg : regLookup tk s.reg with
      | none =>
        simp only [step, hti, hreg]
        exact ⟨ErrInv_threads_set hti h1 hfe.1 trivial, h2⟩
      | some c =>
        simp only [step, hti, hreg]
        exact ⟨ErrInv_threads_set hti h1 hfe.1 rfl, h2⟩
    | sendLoopC cid dcid msg rem =>
      have hmsg : msg = Except.error (toStr e) := hfe.2
      cases rem with
      | zero =>
        simp only [step, hti]
        refine ⟨ErrInv_threads_set hti h1 hfe.1 trivial, ?_⟩
        intro cid2 buf hbuf m hm
        rcases pushBuf_mem hbuf hm with ⟨buf0, hb0, hmb⟩ | hx
        · exact h2 cid2 buf0 hb0 m hmb
        · rw [hx, hmsg]
      | succ r =>
        simp only [step, hti]
        refine ⟨ErrInv_threads_set hti h1 hfe.1 hmsg, ?_⟩
        intro cid2 buf hbuf m hm
        rcases pushBuf_mem hbuf hm with ⟨buf0, hb0, hmb⟩ | hx
        · exact h2 cid2 buf0 hb0 m hmb
        · rw [hx, hmsg]
    | recvForwardC cid =>
      cases hch : s.chans[cid]? with
      | none => simp only [step, hti, hch]; exact ⟨h1, h2⟩
      | some buf =>
        cases buf with
        | nil => simp only [step, hti, hch]; exact ⟨h1, h2⟩
        | cons m rest =>
          have hmE : m = Except.error (toStr e) :=
            h2 cid (m :: rest) hch m (by simp)
          simp only [step, hti, hch]
          refine ⟨ErrInv_threads_set hti h1 hfe.1 trivial, ?_⟩
          intro cid2 buf2 hbuf x hx
          rcases append_chan_mem hbuf with hold | hnew
          · rcases set_chan_mem hold hx with ⟨buf0, hb0, hmb⟩ | ⟨-, hxr⟩
            · exact h2 cid2 buf0 hb0 x hmb
            · exact h2 cid (m :: rest) hch x (by simp [hxr])
          · rw [List.mem_singleton] at hnew
            subst hnew
            rw [List.mem_singleton] at hx
            rw [hx, hmE]
    | doneChan dcid => simp only [step, hti]; exact ⟨h1, h2⟩
    | panicked => simp only [step, hti]; exact ⟨h1, h2⟩
    | stuck => simp only [step, hti]; exact ⟨h1, h2⟩

theorem ErrInv_run (toStr : E → String) (e : E)
    (keyModes : List (String × Bool)) (sched : List Nat) :
    ErrInv e toStr (runInit toStr
      (keyModes.map fun km => (⟨km.1, WorkRes.err e, km.2⟩ : CallSpec E T))
      sched) := by
  suffices h : ∀ (l : List Nat) (s : GState E T), ErrInv e toStr s →
      ErrInv e toStr (run toStr s l) by
    refine h sched _ ⟨?_, ?_⟩
    · intro i t hti
      simp only [mkInit, List.map_map, List.getElem?_map] at hti
      cases hkm : keyModes[i]? with
      | none => rw [hkm] at hti; cases hti
      | some km =>
        rw [hkm] at hti
        simp only [Option.map_some'] at hti
        injection hti with hti
        subst hti
        refine ⟨rfl, ?_⟩
        cases hm : km.2 <;> simp [initThread, Function.comp, hm, ErrT]
    · intro cid buf hbuf
      cases hbuf
  intro l
  induction l with
  | nil => intro s hs; exact hs
  | cons a rest ih => intro s hs; exact ih _ (ErrInv_step toStr e s a hs)


/-- C4: in a system where every caller's work fails with the structured
error `e`, on every schedule: every caller that has returned from `go`
holds the failure outcome carrying exactly the stringified error
`toStr e` (never the structured `e` itself — the message type transports
only the textual description); every message in every channel buffer
(including the dedicated channels `go_chan` callers read their outcome
from) is that same stringified failure; and no caller ever observes a
success for such a round. -/
theorem go_failure_propagates_stringified (E T : Type) (toStr : E → String)
    (e : E) (keyModes : List (String × Bool)) (sched : List Nat) :
    (∀ (i : Nat) (m : Msg T),
      pcOf (runInit toStr
        (keyModes.map fun km => (⟨km.1, WorkRes.err e, km.2⟩ : CallSpec E T))
        sched) i = some (PC.done m) →
      m = Except.error (toStr e)) ∧
    (∀ (cid : Nat) (buf : List (Msg T)),
      (runInit toStr
        (keyModes.map fun km => (⟨km.1, WorkRes.err e, km.2⟩ : CallSpec E T))
        sched).chans[cid]? = some buf →
      ∀ m ∈ buf, m = Except.error (toStr e)) ∧
    (∀ (i : Nat) (v : T) (b : Bool),
      pcOf (runInit toStr
        (keyModes.map fun km => (⟨km.1, WorkRes.err e, km.2⟩ : CallSpec E T))
        sched) i ≠ some (PC.done (Except.ok (v, b)))) := by
  have hI := @ErrInv_run E T toStr e keyModes sched
  have hdone : ∀ (i : Nat) (m : Msg T),
      pcOf (runInit toStr
        (keyModes.map fun km => (⟨km.1, WorkRes.err e, km.2⟩ : CallSpec E T))
        sched) i = some (PC.done m) → m = Except.error (toStr e) := by
    intro i m hm
    obtain ⟨t, hti, hpc⟩ := Option.map_eq_some'.mp hm
    have hfe := (hI.1 i t hti).2
    rcases t with ⟨tk, tf, tro, tpc⟩
    replace hpc : tpc = PC.done m := hpc
    subst hpc
    exact hfe
  refine ⟨hdone, hI.2, ?_⟩
  intro i v b hm
  have := hdone i (Except.ok (v, b)) hm
  cases this

/-- Witness for C4 on a concrete two-caller run (one `go`, one `go_chan`)
whose work fails with `"boom"`: the `go_chan` caller's dedicated channel
holds only the stringified failure, and the `go` caller did not end with a
success outcome. -/
theorem go_failure_propagates_stringified_witness :
    (∀ m ∈ [(Except.error "boom" : Msg Nat)], m = Except.error "boom") ∧
    pcOf (runInit (fun s : String => s)
      ([("k", false), ("k", true)].map fun km =>
        (⟨km.1, WorkRes.err "boom", km.2⟩ : CallSpec String Nat))
      [0, 1, 0, 0, 0, 0, 0, 1, 0]) 0 ≠
      some (PC.done (Except.ok (5, true))) := by
  have h := go_failure_propagates_stringified String Nat (fun s : String => s)
    "boom" [("k", false), ("k", true)] [0, 1, 0, 0, 0, 0, 0, 1, 0]
  exact ⟨h.2.1 1 [Except.error "boom"] (by decide), h.2.2 0 5 true⟩


/-! ## Channel ownership: a returned `go_chan` receiver holds its message -/

theorem isSome_get?_iff_lt {α : Type} {l : List α} {n : Nat} :
    (l[n]?).isSome = true ↔ n < l.length := by
  rw [Option.isSome_iff_ne_none, ne_eq, List.getElem?_eq_none_iff]
  omega

theorem get?_append_of_isSome {α : Type} {cs bs : List α} {c : Nat}
    (h : (cs[c]?).isSome = true) : (cs ++ bs)[c]? = cs[c]? := by
  rw [List.getElem?_append, if_pos (isSome_get?_iff_lt.mp h)]

theorem get?_append_fresh {α : Type} (cs bs : List α) (k : Nat) :
    (cs ++ bs)[cs.length + k]? = bs[k]? := by
  rw [List.getElem?_append, if_neg (by omega)]
  congr 1
  omega

theorem set_get?_isSome {α : Type} (cs : List α) (cid : Nat) (rest : α)
    (c : Nat) : (((cs.set cid rest)[c]?).isSome) = ((cs[c]?).isSome) := by
  by_cases h : c < cs.length
  · rw [Bool.eq_iff_iff, isSome_get?_iff_lt, isSome_get?_iff_lt, List.length_set]
  · rw [Bool.eq_iff_iff, isSome_get?_iff_lt, isSome_get?_iff_lt, List.length_set]

theorem pushBuf_get?_isSome {T : Type} (cid : Nat) (m : Msg T)
    (cs : List (List (Msg T))) (c : Nat) :
    (((pushBuf cid m cs)[c]?).isSome) = ((cs[c]?).isSome) := by
  unfold pushBuf
  cases hc : cs[cid]? with
  | none => rfl
  | some buf => exact set_get?_isSome cs cid _ c

theorem pushBuf_get?_ne {T : Type} {cid c : Nat} (h : c ≠ cid) (m : Msg T)
    (cs : List (List (Msg T))) : (pushBuf cid m cs)[c]? = cs[c]? := by
  unfold pushBuf
  cases hc : cs[cid]? with
  | none => rfl
  | some buf => exact List.getElem?_set_ne (fun h2 => h h2.symm)

theorem pushBuf_get?_self {T : Type} {cid : Nat} {buf : List (Msg T)}
    {cs : List (List (Msg T))} (hc : cs[cid]? = some buf) (m : Msg T) :
    (pushBuf cid m cs)[cid]? = some (buf ++ [m]) := by
  unfold pushBuf
  rw [hc]
  exact List.getElem?_set_self (lt_length_of_get?_eq_some hc)

theorem regLookup_mem {K : String} {reg : List (String × CallRec)} {c : CallRec}
    (h : regLookup K reg = some c) : (K, c) ∈ reg := by
  induction reg with
  | nil => cases h
  | cons p rest ih =>
    rcases p with ⟨k2, c2⟩
    by_cases hk : k2 = K
    · rw [regLookup, if_pos hk] at h
      injection h with h
      subst h
      subst hk
      exact List.mem_cons_self _ _
    · rw [regLookup, if_neg hk] at h
      exact List.mem_cons_of_mem _ (ih h)

theorem regBump_cid_mem {K : String} {reg : List (String × CallRec)}
    {p : String × CallRec} (h : p ∈ regBump K reg) :
    ∃ q ∈ reg, q.2.cid = p.2.cid := by
  induction reg with
  | nil => cases h
  | cons q0 rest ih =>
    rcases q0 with ⟨k2, c2⟩
    by_cases hk : k2 = K
    · rw [regBump, if_pos hk] at h
      rcases List.mem_cons.mp h with rfl | h2
      · exact ⟨(k2, c2), List.mem_cons_self _ _, rfl⟩
      · exact ⟨p, List.mem_cons_of_mem _ h2, rfl⟩
    · rw [regBump, if_neg hk] at h
      rcases List.mem_cons.mp h with rfl | h2
      · exact ⟨(k2, c2), List.mem_cons_self _ _, rfl⟩
      · obtain ⟨q, hq, he⟩ := ih h2
        exact ⟨q, List.mem_cons_of_mem _ hq, he⟩

theorem regBump_cid_mem' {K : String} {reg : List (String × CallRec)}
    {q : String × CallRec} (h : q ∈ reg) :
    ∃ p ∈ regBump K reg, p.2.cid = q.2.cid := by
  induction reg with
  | nil => cases h
  | cons q0 rest ih =>
    rcases q0 with ⟨k2, c2⟩
    by_cases hk : k2 = K
    · rw [regBump, if_pos hk]
      rcases List.mem_cons.mp h with rfl | h2
      · exact ⟨_, List.mem_cons_self _ _, rfl⟩
      · exact ⟨q, List.mem_cons_of_mem _ h2, rfl⟩
    · rw [regBump, if_neg hk]
      rcases List.mem_cons.mp h with rfl | h2
      · exact ⟨(k2, c2), List.mem_cons_self _ _, rfl⟩
      · obtain ⟨p, hp, he⟩ := ih h2
        exact ⟨p, List.mem_cons_of_mem _ hp, he⟩

theorem regRemove_subset {K : String} {reg : List (String × CallRec)}
    {p : String × CallRec} (h : p ∈ regRemove K reg) : p ∈ reg := by
  induction reg with
  | nil => cases h
  | cons q0 rest ih =>
    rcases q0 with ⟨k2, c2⟩
    by_cases hk : k2 = K
    · rw [regRemove, if_pos hk] at h
      exact List.mem_cons_of_mem _ h
    · rw [regRemove, if_neg hk] at h
      rcases List.mem_cons.mp h with rfl | h2
      · exact List.mem_cons_self _ _
      · exact List.mem_cons_of_mem _ (ih h2)

/-- Channel ids a thread's program point reads from or broadcasts to: these
are shared with the round's other participants. -/
def pcShared (p : PC E T) (c : Nat) : Prop :=
  match p with
  | .sendLoop cid _ _ => c = cid
  | .sendLoopC cid _ _ _ => c = cid
  | .recvStep cid => c = cid
  | .recvForwardC cid => c = cid
  | _ => False

/-- Channel ids a thread owns exclusively: the dedicated bounded(1) channel
a `go_chan` call returns (or is about to return). -/
def pcPrivate (p : PC E T) (c : Nat) : Prop :=
  match p with
  | .runWorkC d => c = d
  | .retireStepC d _ => c = d
  | .sendLoopC _ d _ _ => c = d
  | .doneChan d => c = d
  | _ => False

/-- A channel id reachable by other participants: the channel of a registry
record, or a channel some thread reads from or broadcasts to. -/
def isSharedId (ths : List (Thread E T)) (reg : List (String × CallRec))
    (c : Nat) : Prop :=
  (∃ p ∈ reg, p.2.cid = c) ∨
  (∃ (j : Nat) (u : Thread E T), ths[j]? = some u ∧ pcShared u.pc c)

/-- Contents of the channels a thread references privately: empty until the
final dedicated send, exactly one message once the receiver is handed back. -/
def DCont (cs : List (List (Msg T))) (t : Thread E T) : Prop :=
  match t.pc with
  | .runWorkC d => cs[d]? = some []
  | .retireStepC d _ => cs[d]? = some []
  | .sendLoopC _ d _ _ => cs[d]? = some []
  | .doneChan d => ∃ m, cs[d]? = some [m]
  | _ => True

/-- Channel-ownership invariant: shared ids are allocated; private ids are
not shared and not private to any other thread; private channel contents are
as `DCont` states. -/
def DInv (s : GState E T) : Prop :=
  (∀ c : Nat, isSharedId s.threads s.reg c → ((s.chans[c]?).isSome) = true) ∧
  (∀ (i : Nat) (t : Thread E T) (d : Nat), s.threads[i]? = some t →
    pcPrivate t.pc d → ¬ isSharedId s.threads s.reg d ∧
    ∀ (j : Nat) (u : Thread E T), s.threads[j]? = some u → j ≠ i →
      ¬ pcPrivate u.pc d) ∧
  (∀ (i : Nat) (t : Thread E T), s.threads[i]? = some t → DCont s.chans t)


theorem DCont_priv_isSome {T E : Type} {cs : List (List (Msg T))}
    {u : Thread E T} {d : Nat} (h : DCont cs u) (hp : pcPrivate u.pc d) :
    ((cs[d]?).isSome) = true := by
  rcases u with ⟨u1, u2, u3, upc⟩
  cases upc <;> simp only [DCont, pcPrivate] at h hp
  case runWorkC d2 => subst hp; rw [h]; rfl
  case retireStepC d2 r => subst hp; rw [h]; rfl
  case sendLoopC c2 d2 m r => subst hp; rw [h]; rfl
  case doneChan d2 =>
    obtain ⟨m, hm⟩ := h
    subst hp
    rw [hm]
    rfl
  all_goals exact hp.elim

theorem DCont_transport {T E : Type} {cs cs' : List (List (Msg T))}
    {u : Thread E T}
    (hpriv : ∀ d, pcPrivate u.pc d → cs'[d]? = cs[d]?)
    (h : DCont cs u) : DCont cs' u := by
  rcases u with ⟨u1, u2, u3, upc⟩
  cases upc <;> simp only [DCont, pcPrivate] at * <;> try trivial
  · rw [hpriv _ rfl]; exact h
  · rw [hpriv _ rfl]; exact h
  · rw [hpriv _ rfl]; exact h
  · rw [hpriv _ rfl]; exact h

theorem DInv_mono {s : GState E T} {i : Nat} {t t' : Thread E T}
    {reg' : List (String × CallRec)} {cs' : List (List (Msg T))}
    {log' : List Event}
    (hti : s.threads[i]? = some t) (hD : DInv s)
    (hregsub : ∀ c : Nat, (∃ p ∈ reg', p.2.cid = c) → isSharedId s.threads s.reg c)
    (hshsub : ∀ c : Nat, pcShared t'.pc c → isSharedId s.threads s.reg c)
    (hprivsub : ∀ d : Nat, pcPrivate t'.pc d → pcPrivate t.pc d)
    (hcs_some : ∀ c : Nat, ((cs'[c]?).isSome) = ((s.chans[c]?).isSome))
    (hcs_priv : ∀ (j : Nat) (u : Thread E T) (d : Nat), s.threads[j]? = some u →
      j ≠ i → pcPrivate u.pc d → cs'[d]? = s.chans[d]?)
    (hcont : DCont cs' t') :
    DInv ⟨s.threads.set i t', reg', cs', log'⟩ := by
  obtain ⟨W1, W2, W3⟩ := hD
  have hsub : ∀ cX : Nat, isSharedId (s.threads.set i t') reg' cX →
      isSharedId s.threads s.reg cX := by
    intro cX h
    rcases h with hr | ⟨j, u, hj, hs⟩
    · exact hregsub cX hr
    · rcases (get?_set_eq_some_iff hti).mp hj with ⟨rfl, rfl⟩ | ⟨-, hj2⟩
      · exact hshsub cX hs
      · exact Or.inr ⟨j, u, hj2, hs⟩
  refine ⟨?_, ?_, ?_⟩
  · intro c hc
    rw [hcs_some c]
    exact W1 c (hsub c hc)
  · intro i2 t2 d h2 hp
    rcases (get?_set_eq_some_iff hti).mp h2 with ⟨rfl, rfl⟩ | ⟨hne, h22⟩
    · obtain ⟨hnsh, huni⟩ := W2 i2 t d hti (hprivsub d hp)
      refine ⟨fun hS => hnsh (hsub d hS), ?_⟩
      intro j u hj hji hpu
      rcases (get?_set_eq_some_iff hti).mp hj with ⟨rfl, rfl⟩ | ⟨-, hj2⟩
      · exact absurd rfl hji
      · exact huni j u hj2 hji hpu
    · obtain ⟨hnsh, huni⟩ := W2 i2 t2 d h22 hp
      refine ⟨fun hS => hnsh (hsub d hS), ?_⟩
      intro j u hj hji hpu
      rcases (get?_set_eq_some_iff hti).mp hj with ⟨rfl, rfl⟩ | ⟨-, hj2⟩
      · exact huni _ t hti (fun he => hne he.symm) (hprivsub d hpu)
      · exact huni j u hj2 hji hpu
  · intro i2 t2 h2
    rcases (get?_set_eq_some_iff hti).mp h2 with ⟨rfl, rfl⟩ | ⟨hne, h22⟩
    · exact hcont
    · exact DCont_transport
        (fun d hd => hcs_priv i2 t2 d h22 hne hd) (W3 i2 t2 h22)


theorem DInv_alloc_go {s : GState E T} {i : Nat} {tk : String}
    {tf : WorkRes E T} {tro : Option Bool} {log' : List Event}
    (hti : s.threads[i]? = some ⟨tk, tf, tro, PC.start⟩) (hD : DInv s) :
    DInv ⟨s.threads.set i ⟨tk, tf, some true, PC.runWork⟩,
      (tk, ⟨0, s.chans.length⟩) :: s.reg, s.chans ++ [[]], log'⟩ := by
  obtain ⟨W1, W2, W3⟩ := hD
  have hfresh : ((s.chans ++ [[]])[s.chans.length]?) = some [] := by
    have h := get?_append_fresh s.chans [[]] 0
    simpa using h
  refine ⟨?_, ?_, ?_⟩
  · intro c hc
    rcases hc with ⟨p, hp, he⟩ | ⟨j, u, hj, hs⟩
    · rcases List.mem_cons.mp hp with rfl | hp2
      · have he2 : s.chans.length = c := he
        rw [← he2, hfresh]
        rfl
      · have hold : isSharedId s.threads s.reg c := Or.inl ⟨p, hp2, he⟩
        rw [get?_append_of_isSome (W1 c hold)]
        exact W1 c hold
    · rcases (get?_set_eq_some_iff hti).mp hj with ⟨rfl, rfl⟩ | ⟨-, hj2⟩
      · exact (hs : False).elim
      · have hold : isSharedId s.threads s.reg c := Or.inr ⟨j, u, hj2, hs⟩
        rw [get?_append_of_isSome (W1 c hold)]
        exact W1 c hold
  · intro i2 t2 d h2 hp
    rcases (get?_set_eq_some_iff hti).mp h2 with ⟨rfl, rfl⟩ | ⟨hne, h22⟩
    · exact (hp : False).elim
    · obtain ⟨hnsh, huni⟩ := W2 i2 t2 d h22 hp
      have hdlt : d < s.chans.length :=
        isSome_get?_iff_lt.mp (DCont_priv_isSome (W3 i2 t2 h22) hp)
      refine ⟨?_, ?_⟩
      · intro hS
        rcases hS with ⟨p, hp2, he⟩ | ⟨j, u, hj, hs⟩
        · rcases List.mem_cons.mp hp2 with rfl | hp3
          · have he2 : s.chans.length = d := he
            omega
          · exact hnsh (Or.inl ⟨p, hp3, he⟩)
        · rcases (get?_set_eq_some_iff hti).mp hj with ⟨rfl, rfl⟩ | ⟨-, hj2⟩
          · exact (hs : False).elim
          · exact hnsh (Or.inr ⟨j, u, hj2, hs⟩)
      · intro j u hj hji hpu
        rcases (get?_set_eq_some_iff hti).mp hj with ⟨rfl, rfl⟩ | ⟨-, hj2⟩
        · exact (hpu : False).elim
        · exact huni j u hj2 hji hpu
  · intro i2 t2 h2
    rcases (get?_set_eq_some_iff hti).mp h2 with ⟨rfl, rfl⟩ | ⟨hne, h22⟩
    · trivial
    · refine DCont_transport ?_ (W3 i2 t2 h22)
      intro d hd
      exact get?_append_of_isSome (DCont_priv_isSome (W3 i2 t2 h22) hd)

theorem DInv_alloc_chan {s : GState E T} {i : Nat} {tk : String}
    {tf : WorkRes E T} {tro : Option Bool} {log' : List Event}
    (hti : s.threads[i]? = some ⟨tk, tf, tro, PC.startC⟩) (hD : DInv s) :
    DInv ⟨s.threads.set i ⟨tk, tf, some true, PC.runWorkC (s.chans.length + 1)⟩,
      (tk, ⟨0, s.chans.length⟩) :: s.reg, s.chans ++ [[], []], log'⟩ := by
  obtain ⟨W1, W2, W3⟩ := hD
  have hfresh0 : ((s.chans ++ [[], []])[s.chans.length]?) = some [] := by
    have h := get?_append_fresh s.chans [[], []] 0
    simpa using h
  have hfresh1 : ((s.chans ++ [[], []])[s.chans.length + 1]?) = some [] :=
    get?_append_fresh s.chans [[], []] 1
  refine ⟨?_, ?_, ?_⟩
  · intro c hc
    rcases hc with ⟨p, hp, he⟩ | ⟨j, u, hj, hs⟩
    · rcases List.mem_cons.mp hp with rfl | hp2
      · have he2 : s.chans.length = c := he
        rw [← he2, hfresh0]
        rfl
      · have hold : isSharedId s.threads s.reg c := Or.inl ⟨p, hp2, he⟩
        rw [get?_append_of_isSome (W1 c hold)]
        exact W1 c hold
    · rcases (get?_set_eq_some_iff hti).mp hj with ⟨rfl, rfl⟩ | ⟨-, hj2⟩
      · exact (hs : False).elim
      · have hold : isSharedId s.threads s.reg c := Or.inr ⟨j, u, hj2, hs⟩
        rw [get?_append_of_isSome (W1 c hold)]
        exact W1 c hold
  · intro i2 t2 d h2 hp
    rcases (get?_set_eq_some_iff hti).mp h2 with ⟨rfl, rfl⟩ | ⟨hne, h22⟩
    · have hd : d = s.chans.length + 1 := hp
      subst hd
      refine ⟨?_, ?_⟩
      · intro hS
        rcases hS with ⟨p, hp2, he⟩ | ⟨j, u, hj, hs⟩
        · rcases List.mem_cons.mp hp2 with rfl | hp3
          · have he2 : s.chans.length = s.chans.length + 1 := he
            omega
          · have hlt := isSome_get?_iff_lt.mp (W1 _ (Or.inl ⟨p, hp3, he⟩))
            omega
        · rcases (get?_set_eq_some_iff hti).mp hj with ⟨rfl, rfl⟩ | ⟨-, hj2⟩
          · exact (hs : False).elim
          · have hlt := isSome_get?_iff_lt.mp (W1 _ (Or.inr ⟨j, u, hj2, hs⟩))
            omega
      · intro j u hj hji hpu
        rcases (get?_set_eq_some_iff hti).mp hj with ⟨rfl, rfl⟩ | ⟨-, hj2⟩
        · exact absurd rfl hji
        · have hlt : s.chans.length + 1 < s.chans.length :=
            isSome_get?_iff_lt.mp (DCont_priv_isSome (W3 j u hj2) hpu)
          omega
    · obtain ⟨hnsh, huni⟩ := W2 i2 t2 d h22 hp
      have hdlt : d < s.chans.length :=
        isSome_get?_iff_lt.mp (DCont_priv_isSome (W3 i2 t2 h22) hp)
      refine ⟨?_, ?_⟩
      · intro hS
        rcases hS with ⟨p, hp2, he⟩ | ⟨j, u, hj, hs⟩
        · rcases List.mem_cons.mp hp2 with rfl | hp3
          · have he2 : s.chans.length = d := he
            omega
          · exact hnsh (Or.inl ⟨p, hp3, he⟩)
        · rcases (get?_set_eq_some_iff hti).mp hj with ⟨rfl, rfl⟩ | ⟨-, hj2⟩
          · exact (hs : False).elim
          · exact hnsh (Or.inr ⟨j, u, hj2, hs⟩)
      · intro j u hj hji hpu
        rcases (get?_set_eq_some_iff hti).mp hj with ⟨rfl, rfl⟩ | ⟨-, hj2⟩
        · have hd2 : d = s.chans.length + 1 := hpu
          omega
        · exact huni j u hj2 hji hpu
  · intro i2 t2 h2
    rcases (get?_set_eq_some_iff hti).mp h2 with ⟨rfl, rfl⟩ | ⟨hne, h22⟩
    · exact hfresh1
    · refine DCont_transport ?_ (W3 i2 t2 h22)
      intro d hd
      exact get?_append_of_isSome (DCont_priv_isSome (W3 i2 t2 h22) hd)


theorem DInv_forward {s : GState E T} {i : Nat} {tk : String}
    {tf : WorkRes E T} {tro : Option Bool} {cid : Nat} {m : Msg T}
    {rest : List (Msg T)} {log' : List Event}
    (hti : s.threads[i]? = some ⟨tk, tf, tro, PC.recvForwardC cid⟩)
    (hch : s.chans[cid]? = some (m :: rest)) (hD : DInv s) :
    DInv ⟨s.threads.set i ⟨tk, tf, tro, PC.doneChan s.chans.length⟩,
      s.reg, s.chans.set cid rest ++ [[m]], log'⟩ := by
  obtain ⟨W1, W2, W3⟩ := hD
  have hcidsh : isSharedId s.threads s.reg cid :=
    Or.inr ⟨i, _, hti, rfl⟩
  have hlenset : (s.chans.set cid rest).length = s.chans.length :=
    List.length_set _ _ _
  have hfresh : ((s.chans.set cid rest ++ [[m]])[s.chans.length]?) = some [m] := by
    have h := get?_append_fresh (s.chans.set cid rest) [[m]] 0
    rw [hlenset] at h
    simpa using h
  have hkeep : ∀ c : Nat, ((s.chans[c]?).isSome) = true →
      ((s.chans.set cid rest ++ [[m]])[c]?).isSome = true := by
    intro c hc
    rw [get?_append_of_isSome (by rw [set_get?_isSome]; exact hc),
      set_get?_isSome]
    exact hc
  have hkeep2 : ∀ c : Nat, c ≠ cid → ((s.chans[c]?).isSome) = true →
      ((s.chans.set cid rest ++ [[m]])[c]?) = s.chans[c]? := by
    intro c hcne hc
    rw [get?_append_of_isSome (by rw [set_get?_isSome]; exact hc)]
    exact List.getElem?_set_ne (fun h => hcne h.symm)
  refine ⟨?_, ?_, ?_⟩
  · intro c hc
    have hold : isSharedId s.threads s.reg c := by
      rcases hc with hr | ⟨j, u, hj, hs⟩
      · exact Or.inl hr
      · rcases (get?_set_eq_some_iff hti).mp hj with ⟨rfl, rfl⟩ | ⟨-, hj2⟩
        · exact (hs : False).elim
        · exact Or.inr ⟨j, u, hj2, hs⟩
    exact hkeep c (W1 c hold)
  · intro i2 t2 d h2 hp
    have hsub : ∀ cX : Nat,
        isSharedId (s.threads.set i ⟨tk, tf, tro, PC.doneChan s.chans.length⟩)
          s.reg cX → isSharedId s.threads s.reg cX := by
      intro cX h
      rcases h with hr | ⟨j, u, hj, hs⟩
      · exact Or.inl hr
      · rcases (get?_set_eq_some_iff hti).mp hj with ⟨rfl, rfl⟩ | ⟨-, hj2⟩
        · exact (hs : False).elim
        · exact Or.inr ⟨j, u, hj2, hs⟩
    rcases (get?_set_eq_some_iff hti).mp h2 with ⟨rfl, rfl⟩ | ⟨hne, h22⟩
    · have hd : d = s.chans.length := hp
      subst hd
      refine ⟨?_, ?_⟩
      · intro hS
        have hlt := isSome_get?_iff_lt.mp (W1 _ (hsub _ hS))
        omega
      · intro j u hj hji hpu
        rcases (get?_set_eq_some_iff hti).mp hj with ⟨rfl, rfl⟩ | ⟨-, hj2⟩
        · exact absurd rfl hji
        · have hlt : s.chans.length < s.chans.length :=
            isSome_get?_iff_lt.mp (DCont_priv_isSome (W3 j u hj2) hpu)
          omega
    · obtain ⟨hnsh, huni⟩ := W2 i2 t2 d h22 hp
      refine ⟨fun hS => hnsh (hsub d hS), ?_⟩
      intro j u hj hji hpu
      rcases (get?_set_eq_some_iff hti).mp hj with ⟨rfl, rfl⟩ | ⟨-, hj2⟩
      · have hd2 : d = s.chans.length := hpu
        have hdlt : d < s.chans.length :=
          isSome_get?_iff_lt.mp (DCont_priv_isSome (W3 i2 t2 h22) hp)
        omega
      · exact huni j u hj2 hji hpu
  · intro i2 t2 h2
    rcases (get?_set_eq_some_iff hti).mp h2 with ⟨rfl, rfl⟩ | ⟨hne, h22⟩
    · exact ⟨m, hfresh⟩
    · refine DCont_transport ?_ (W3 i2 t2 h22)
      intro d hd
      have hdne : d ≠ cid := by
        intro hdc
        subst hdc
        exact (W2 i2 t2 d h22 hd).1 hcidsh
      exact hkeep2 d hdne (DCont_priv_isSome (W3 i2 t2 h22) hd)


theorem DInv_step (toStr : E → String) (s : GState E T) (i : Nat)
    (hD : DInv s) : DInv (step toStr s i) := by
  cases hti : s.threads[i]? with
  | none => simp only [step, hti]; exact hD
  | some t =>
    rcases t with ⟨tk, tf, tro, tpc⟩
    cases tpc with
    | start =>
      cases hreg : regLookup tk s.reg with
      | some c =>
        simp only [step, hti, hreg]
        refine DInv_mono hti hD ?_ ?_ ?_ ?_ ?_ ?_
        · intro c0 hc
          obtain ⟨p, hp, he⟩ := hc
          obtain ⟨q, hq, he2⟩ := regBump_cid_mem hp
          exact Or.inl ⟨q, hq, he2.trans he⟩
        · intro c0 h
          exact Or.inl ⟨(tk, c), regLookup_mem hreg, h.symm⟩
        · intro d h
          exact (h : False).elim
        · intro c0
          rfl
        · intro _ _ _ _ _ _
          rfl
        · trivial
      | none =>
        simp only [step, hti, hreg]
        exact DInv_alloc_go hti hD
    | runWork =>
      cases tf with
      | ok v =>
        simp only [step, hti]
        refine DInv_mono hti hD (fun c0 hc => Or.inl hc)
          (fun c0 h => (h : False).elim) (fun d h => (h : False).elim)
          (fun c0 => rfl) (fun _ _ _ _ _ _ => rfl) trivial
      | err e0 =>
        simp only [step, hti]
        refine DInv_mono hti hD (fun c0 hc => Or.inl hc)
          (fun c0 h => (h : False).elim) (fun d h => (h : False).elim)
          (fun c0 => rfl) (fun _ _ _ _ _ _ => rfl) trivial
      | panic =>
        simp only [step, hti]
        refine DInv_mono hti hD (fun c0 hc => Or.inl hc)
          (fun c0 h => (h : False).elim) (fun d h => (h : False).elim)
          (fun c0 => rfl) (fun _ _ _ _ _ _ => rfl) trivial
    | retireStep res =>
      cases hreg : regLookup tk s.reg with
      | none =>
        simp only [step, hti, hreg]
        refine DInv_mono hti hD (fun c0 hc => Or.inl hc)
          (fun c0 h => (h : False).elim) (fun d h => (h : False).elim)
          (fun c0 => rfl) (fun _ _ _ _ _ _ => rfl) trivial
      | some c =>
        simp only [step, hti, hreg]
        refine DInv_mono hti hD ?_ ?_ ?_ ?_ ?_ ?_
        · intro c0 hc
          obtain ⟨p, hp, he⟩ := hc
          exact Or.inl ⟨p, regRemove_subset hp, he⟩
        · intro c0 h
          exact Or.inl ⟨(tk, c), regLookup_mem hreg, h.symm⟩
        · intro d h
          exact (h : False).elim
        · intro c0
          rfl
        · intro _ _ _ _ _ _
          rfl
        · trivial
    | sendLoop cid msg rem =>
      cases rem with
      | zero =>
        simp only [step, hti]
        refine DInv_mono hti hD (fun c0 hc => Or.inl hc)
          (fun c0 h => Or.inr ⟨i, _, hti, h⟩) (fun d h => (h : False).elim)
          (fun c0 => rfl) (fun _ _ _ _ _ _ => rfl) trivial
      | succ r =>
        simp only [step, hti]
        refine DInv_mono hti hD (fun c0 hc => Or.inl hc)
          (fun c0 h => Or.inr ⟨i, _, hti, h⟩) (fun d h => (h : False).elim)
          (fun c0 => pushBuf_get?_isSome cid msg s.chans c0) ?_ trivial
        intro j u d hj hji hpu
        refine pushBuf_get?_ne ?_ msg s.chans
        intro hdc
        exact (hD.2.1 j u d hj hpu).1 (Or.inr ⟨i, _, hti, hdc⟩)
    | recvStep cid =>
      cases hch : s.chans[cid]? with
      | none => simp only [step, hti, hch]; exact hD
      | some buf =>
        cases buf with
        | nil => simp only [step, hti, hch]; exact hD
        | cons m rest =>
          simp only [step, hti, hch]
          refine DInv_mono hti hD (fun c0 hc => Or.inl hc)
            (fun c0 h => (h : False).elim) (fun d h => (h : False).elim)
            (fun c0 => set_get?_isSome s.chans cid rest c0) ?_ trivial
          intro j u d hj hji hpu
          refine List.getElem?_set_ne ?_
          intro hdc
          exact (hD.2.1 j u d hj hpu).1 (Or.inr ⟨i, _, hti, hdc.symm⟩)
    | done m => simp only [step, hti]; exact hD
    | startC =>
      cases hreg : regLookup tk s.reg with
      | some c =>
        simp only [step, hti, hreg]
        refine DInv_mono hti hD ?_ ?_ ?_ ?_ ?_ ?_
        · intro c0 hc
          obtain ⟨p, hp, he⟩ := hc
          obtain ⟨q, hq, he2⟩ := regBump_cid_mem hp
          exact Or.inl ⟨q, hq, he2.trans he⟩
        · intro c0 h
          exact Or.inl ⟨(tk, c), regLookup_mem hreg, h.symm⟩
        · intro d h
          exact (h : False).elim
        · intro c0
          rfl
        · intro _ _ _ _ _ _
          rfl
        · trivial
      | none =>
        simp only [step, hti, hreg]
        exact DInv_alloc_chan hti hD
    | runWorkC dcid =>
      cases tf with
      | ok v =>
        simp only [step, hti]
        refine DInv_mono hti hD (fun c0 hc => Or.inl hc)
          (fun c0 h => (h : False).elim) (fun d h => h)
          (fun c0 => rfl) (fun _ _ _ _ _ _ => rfl)
          (hD.2.2 i ⟨tk, WorkRes.ok v, tro, PC.runWorkC dcid⟩ hti)
      | err e0 =>
        simp only [step, hti]
        refine DInv_mono hti hD (fun c0 hc => Or.inl hc)
          (fun c0 h => (h : False).elim) (fun d h => h)
          (fun c0 => rfl) (fun _ _ _ _ _ _ => rfl)
          (hD.2.2 i ⟨tk, WorkRes.err e0, tro, PC.runWorkC dcid⟩ hti)
      | panic =>
        simp only [step, hti]
        refine DInv_mono hti hD (fun c0 hc => Or.inl hc)
          (fun c0 h => (h : False).elim) (fun d h => (h : False).elim)
          (fun c0 => rfl) (fun _ _ _ _ _ _ => rfl) trivial
    | retireStepC dcid res =>
      cases hreg : regLookup tk s.reg with
      | none =>
        simp only [step, hti, hreg]
        refine DInv_mono hti hD (fun c0 hc => Or.inl hc)
          (fun c0 h => (h : False).elim) (fun d h => (h : False).elim)
          (fun c0 => rfl) (fun _ _ _ _ _ _ => rfl) trivial
      | some c =>
        simp only [step, hti, hreg]
        refine DInv_mono hti hD ?_ ?_ ?_ ?_ ?_ ?_
        · intro c0 hc
          obtain ⟨p, hp, he⟩ := hc
          exact Or.inl ⟨p, regRemove_subset hp, he⟩
        · intro c0 h
          exact Or.inl ⟨(tk, c), regLookup_mem hreg, h.symm⟩
        · intro d h
          exact h
        · intro c0
          rfl
        · intro _ _ _ _ _ _
          rfl
        · exact hD.2.2 i ⟨tk, tf, tro, PC.retireStepC dcid res⟩ hti
    | sendLoopC cid dcid msg rem =>
      cases rem with
      | zero =>
        simp only [step, hti]
        refine DInv_mono hti hD (fun c0 hc => Or.inl hc)
          (fun c0 h => (h : False).elim) (fun d h => h)
          (fun c0 => pushBuf_get?_isSome dcid msg s.chans c0) ?_ ?_
        · intro j u d hj hji hpu
          refine pushBuf_get?_ne ?_ msg s.chans
          intro hdd
          exact (hD.2.1 i ⟨tk, tf, tro, PC.sendLoopC cid dcid msg 0⟩ dcid
            hti rfl).2 j u hj hji (hdd ▸ hpu)
        · exact ⟨msg, pushBuf_get?_self
            (hD.2.2 i ⟨tk, tf, tro, PC.sendLoopC cid dcid msg 0⟩ hti) msg⟩
      | succ r =>
        simp only [step, hti]
        refine DInv_mono hti hD (fun c0 hc => Or.inl hc)
          (fun c0 h => Or.inr ⟨i, _, hti, h⟩) (fun d h => h)
          (fun c0 => pushBuf_get?_isSome cid msg s.chans c0) ?_ ?_
        · intro j u d hj hji hpu
          refine pushBuf_get?_ne ?_ msg s.chans
          intro hdc
          exact (hD.2.1 j u d hj hpu).1 (Or.inr ⟨i, _, hti, hdc⟩)
        · have hne : dcid ≠ cid := by
            intro hdd
            exact (hD.2.1 i ⟨tk, tf, tro, PC.sendLoopC cid dcid msg (r + 1)⟩
              dcid hti rfl).1 (Or.inr ⟨i, _, hti, hdd⟩)
          show (pushBuf cid msg s.chans)[dcid]? = some []
          rw [pushBuf_get?_ne hne msg s.chans]
          exact hD.2.2 i ⟨tk, tf, tro, PC.sendLoopC cid dcid msg (r + 1)⟩ hti
    | recvForwardC cid =>
      cases hch : s.chans[cid]? with
      | none => simp only [step, hti, hch]; exact hD
      | some buf =>
        cases buf with
        | nil => simp only [step, hti, hch]; exact hD
        | cons m rest =>
          simp only [step, hti, hch]
          exact DInv_forward hti hch hD
    | doneChan dcid => simp only [step, hti]; exact hD
    | panicked => simp only [step, hti]; exact hD
    | stuck => simp only [step, hti]; exact hD


theorem initThread_pc_cases (sp : CallSpec E T) :
    (initThread sp).pc = (PC.startC : PC E T) ∨
    (initThread sp).pc = (PC.start : PC E T) := by
  unfold initThread
  cases sp.chanMode
  · exact Or.inr rfl
  · exact Or.inl rfl

theorem DInv_init (specs : List (CallSpec E T)) : DInv (mkInit specs) := by
  refine ⟨?_, ?_, ?_⟩
  · intro c hc
    rcases hc with ⟨p, hp, -⟩ | ⟨j, u, hj, hs⟩
    · cases hp
    · exfalso
      simp only [mkInit, List.getElem?_map] at hj
      cases hsp : specs[j]? with
      | none => rw [hsp] at hj; cases hj
      | some sp =>
        rw [hsp] at hj
        injection hj with hj
        subst hj
        rcases initThread_pc_cases sp with h | h <;> rw [h] at hs <;>
          exact (hs : False)
  · intro j u d hj hp
    exfalso
    simp only [mkInit, List.getElem?_map] at hj
    cases hsp : specs[j]? with
    | none => rw [hsp] at hj; cases hj
    | some sp =>
      rw [hsp] at hj
      injection hj with hj
      subst hj
      rcases initThread_pc_cases sp with h | h <;> rw [h] at hp <;>
        exact (hp : False)
  · intro j u hj
    simp only [mkInit, List.getElem?_map] at hj
    cases hsp : specs[j]? with
    | none => rw [hsp] at hj; cases hj
    | some sp =>
      rw [hsp] at hj
      injection hj with hj
      subst hj
      rcases initThread_pc_cases sp with h | h <;>
        rcases u0 : initThread sp with ⟨u1, u2, u3, upc⟩ <;>
        rw [u0] at h <;> simp only at h <;> rw [DCont.eq_def] <;>
        rw [h] <;> trivial

theorem DInv_run (toStr : E → String) (specs : List (CallSpec E T))
    (sched : List Nat) : DInv (runInit toStr specs sched) := by
  suffices h : ∀ (l : List Nat) (s : GState E T), DInv s →
      DInv (run toStr s l) from h sched _ (DInv_init specs)
  intro l
  induction l with
  | nil => intro s hs; exact hs
  | cons a rest ih => intro s hs; exact ih _ (DInv_step toStr s a hs)


/-- **C9.** For every call to `go_chan` (leader or follower path), at the
moment `go_chan` returns — the thread sits at `doneChan dc`, the program
point right after `thread::scope` joined the spawned worker and the
receiver for channel `dc` is handed back — the returned capacity-1 receiver
already contains the round's single outcome message, so a subsequent
receive on the returned handle never blocks: in every reachable state, a
thread at `doneChan dc` finds exactly one message in channel `dc`. -/
theorem go_chan_receiver_ready_at_return (E T : Type) (toStr : E → String)
    (specs : List (CallSpec E T)) (sched : List Nat) (i dc : Nat)
    (h : pcOf (runInit toStr specs sched) i = some (PC.doneChan dc)) :
    ∃ m, (runInit toStr specs sched).chans[dc]? = some [m] := by
  have hD := DInv_run toStr specs sched
  rw [pcOf] at h
  cases hti : (runInit toStr specs sched).threads[i]? with
  | none => rw [hti] at h; cases h
  | some t =>
    rw [hti] at h
    injection h with h
    have hc := hD.2.2 i t hti
    rcases t with ⟨t1, t2, t3, tpc⟩
    replace h : tpc = PC.doneChan dc := h
    subst h
    exact hc

theorem go_chan_receiver_ready_at_return_witness :
    pcOf (runInit (fun e : String => e)
        [(⟨"key", WorkRes.ok 7, true⟩ : CallSpec String Nat)]
        [0, 0, 0, 0, 0]) 0 = some (PC.doneChan 1) ∧
    ∃ m, (runInit (fun e : String => e)
        [(⟨"key", WorkRes.ok 7, true⟩ : CallSpec String Nat)]
        [0, 0, 0, 0, 0]).chans[1]? = some [m] :=
  ⟨by decide, go_chan_receiver_ready_at_return String Nat (fun e : String => e)
    [⟨"key", WorkRes.ok 7, true⟩] [0, 0, 0, 0, 0] 0 1 (by decide)⟩


/-! ## Coalescing: a uniform round with one leader claim -/

/-- Is this a leadership claim (any thread, any key)? -/
def isLClaim : Event → Bool
  | .claimed _ _ true => true
  | _ => false

/-- Is this a follower join (any thread, any key)? -/
def isFClaim : Event → Bool
  | .claimed _ _ false => true
  | _ => false

/-- Is this a work execution (any thread)? -/
def isExec : Event → Bool
  | .executed _ => true
  | _ => false

/-- The two entry program points (`go` / `go_chan` not yet started). -/
def initPC (p : PC E T) : Prop := p = PC.start ∨ p = PC.startC

instance (p : PC E T) [DecidableEq T] [DecidableEq E] : Decidable (initPC p) :=
  inferInstanceAs (Decidable (_ ∨ _))

/-- Every allocated channel buffer is empty. -/
def chansEmpty (cs : List (List (Msg T))) : Prop :=
  ∀ (c : Nat) (buf : List (Msg T)), cs[c]? = some buf → buf = []

/-- Every message in every allocated channel buffer equals `M`. -/
def allMsgs (cs : List (List (Msg T))) (M : Msg T) : Prop :=
  ∀ (c : Nat) (buf : List (Msg T)), cs[c]? = some buf → ∀ m ∈ buf, m = M

/-- The leader's program points while the work is running. -/
def LeaderRun (p : PC E T) : Prop := p = PC.runWork ∨ p = PC.runWorkC 1

/-- The leader's program points after the work returned, before retiring. -/
def LeaderRetire (f : Except E T) (p : PC E T) : Prop :=
  p = PC.retireStep f ∨ p = PC.retireStepC 1 f

/-- The leader's program points after retiring the record: broadcasting on
channel 0, then receiving its own copy (`go`) or finishing on the dedicated
channel 1 (`go_chan`). -/
def LeaderPost (M : Msg T) (p : PC E T) : Prop :=
  (∃ r, p = PC.sendLoop 0 M r) ∨ p = PC.recvStep 0 ∨ p = PC.done M ∨
  (∃ r, p = PC.sendLoopC 0 1 M r) ∨ p = PC.doneChan 1

/-- A follower's program points before the broadcast: not yet started, or
waiting on the round's shared channel 0. -/
def FollowerPre (p : PC E T) : Prop :=
  initPC p ∨ p = PC.recvStep 0 ∨ p = PC.recvForwardC 0

/-- A follower's program points once the broadcast may have begun: as before,
or already holding its copy of the round's message `M`. -/
def FollowerPost (M : Msg T) (p : PC E T) : Prop :=
  FollowerPre p ∨ p = PC.done M ∨ ∃ dc, p = PC.doneChan dc

/-- Every thread is an invocation of key `K` with (non-panicking) work `f`. -/
def KF (K : String) (f : Except E T) (s : GState E T) : Prop :=
  ∀ (j : Nat) (u : Thread E T), s.threads[j]? = some u →
    u.key = K ∧ u.func = embed f

/-- Round invariant of a uniform system (`N` callers of the same key `K` with
the same work `f`) in which at most one leadership claim ever happens.  Either
the system is pristine (phase A), or some caller `ld` claimed leadership
(phase B) and the round proceeds through the in-flight stage (registry holds
the record with the current follower count; no message broadcast yet) into the
retired stage (registry empty, work executed exactly once, every buffered
message is the round message `mkMsg toStr f D` for the frozen follower count
`D`, and every caller sits at a program point consistent with its role). -/
def UInv (K : String) (f : Except E T) (toStr : E → String)
    (s : GState E T) : Prop :=
  (s.reg = [] ∧ s.chans = [] ∧ s.log = [] ∧
    ∀ (j : Nat) (u : Thread E T), s.threads[j]? = some u → initPC u.pc) ∨
  (∃ (ld : Nat) (tl : Thread E T), s.threads[ld]? = some tl ∧
    cnt isLClaim s.log = 1 ∧
    (∀ (j : Nat) (u : Thread E T), s.threads[j]? = some u → j ≠ ld →
      ¬ initPC u.pc → 1 ≤ cnt isFClaim s.log) ∧
    ((s.reg = [(K, ⟨cnt isFClaim s.log, 0⟩)] ∧ chansEmpty s.chans ∧
      ((LeaderRun tl.pc ∧ cnt isExec s.log = 0) ∨
       (LeaderRetire f tl.pc ∧ cnt isExec s.log = 1)) ∧
      (∀ (j : Nat) (u : Thread E T), s.threads[j]? = some u → j ≠ ld →
        FollowerPre u.pc)) ∨
     (s.reg = [] ∧ cnt isExec s.log = 1 ∧
      allMsgs s.chans (mkMsg toStr f (cnt isFClaim s.log)) ∧
      LeaderPost (mkMsg toStr f (cnt isFClaim s.log)) tl.pc ∧
      (∀ (j : Nat) (u : Thread E T), s.threads[j]? = some u → j ≠ ld →
        FollowerPost (mkMsg toStr f (cnt isFClaim s.log)) u.pc))))

theorem cnt_snoc (p : Event → Bool) (log : List Event) (e : Event) :
    cnt p (log ++ [e]) = cnt p log + (if p e then 1 else 0) := by
  rw [cnt_append, cnt_singleton]

theorem cnt_le_snoc (p : Event → Bool) (log : List Event) (e : Event) :
    cnt p log ≤ cnt p (log ++ [e]) := by
  rw [cnt_snoc]
  omega

theorem KF_step (K : String) (f : Except E T) (toStr : E → String)
    (s : GState E T) (i : Nat) (hkf : KF K f s) : KF K f (step toStr s i) := by
  intro j u hj
  have h := step_preserves_keyfunc toStr s i j
  rw [hj] at h
  cases h2 : s.threads[j]? with
  | none => rw [h2] at h; cases h
  | some u0 =>
    rw [h2] at h
    simp only [Option.map_some'] at h
    injection h with h
    rw [Prod.mk.injEq] at h
    obtain ⟨hk, hf⟩ := hkf j u0 h2
    exact ⟨h.1.trans hk, h.2.trans hf⟩


theorem step_threads_length (toStr : E → String) (s : GState E T) (i : Nat) :
    (step toStr s i).threads.length = s.threads.length := by
  have h : ∀ j : Nat, (((step toStr s i).threads[j]?).isSome) =
      ((s.threads[j]?).isSome) := by
    intro j
    have hm := step_preserves_keyfunc toStr s i j
    cases h1 : (step toStr s i).threads[j]? <;> cases h2 : s.threads[j]? <;>
      rw [h1, h2] at hm <;> first | rfl | cases hm
  have h1 := h s.threads.length
  have h2 := h (step toStr s i).threads.length
  rw [Bool.eq_iff_iff, isSome_get?_iff_lt, isSome_get?_iff_lt] at h1 h2
  omega

theorem run_threads_length (toStr : E → String) (s : GState E T)
    (sched : List Nat) : (run toStr s sched).threads.length = s.threads.length := by
  induction sched generalizing s with
  | nil => rfl
  | cons a rest ih =>
    calc (run toStr (step toStr s a) rest).threads.length
        = (step toStr s a).threads.length := ih (step toStr s a)
      _ = s.threads.length := step_threads_length toStr s a

theorem step_log_ext (toStr : E → String) (s : GState E T) (i : Nat) :
    ∃ ext : List Event, (step toStr s i).log = s.log ++ ext := by
  cases hti : s.threads[i]? with
  | none => exact ⟨[], by simp [step, hti]⟩
  | some t =>
    rcases t with ⟨tk, tf, tro, tpc⟩
    cases tpc <;> simp only [step, hti] <;> (try split) <;> (try split) <;>
      first
      | exact ⟨_, rfl⟩
      | exact ⟨[], (List.append_nil s.log).symm⟩

theorem cnt_le_step (toStr : E → String) (s : GState E T) (i : Nat)
    (p : Event → Bool) : cnt p s.log ≤ cnt p (step toStr s i).log := by
  obtain ⟨ext, he⟩ := step_log_ext toStr s i
  rw [he, cnt_append]
  omega

theorem cnt_le_run (toStr : E → String) (s : GState E T) (sched : List Nat)
    (p : Event → Bool) : cnt p s.log ≤ cnt p (run toStr s sched).log := by
  induction sched generalizing s with
  | nil => exact Nat.le_refl _
  | cons a rest ih =>
    exact (cnt_le_step toStr s a p).trans (ih (step toStr s a))


theorem UInv_stepA (K : String) (f : Except E T) (toStr : E → String)
    (s : GState E T) (i : Nat) (hkf : KF K f s)
    (hreg : s.reg = []) (hch : s.chans = []) (hlog : s.log = [])
    (hinit : ∀ (j : Nat) (u : Thread E T), s.threads[j]? = some u →
      initPC u.pc) :
    UInv K f toStr (step toStr s i) := by
  cases hti : s.threads[i]? with
  | none =>
    simp only [step, hti]
    exact Or.inl ⟨hreg, hch, hlog, hinit⟩
  | some t =>
    obtain ⟨hk, hf⟩ := hkf i t hti
    rcases t with ⟨tk, tf, tro, tpc⟩
    replace hk : tk = K := hk
    replace hf : tf = embed f := hf
    subst hk
    subst hf
    have hrl : regLookup tk s.reg = none := by rw [hreg]; rfl
    rcases hinit i _ hti with hpc | hpc <;>
      replace hpc : tpc = _ := hpc <;> subst hpc
    · simp only [step, hti, hrl]
      rw [hreg, hch, hlog]
      refine Or.inr ⟨i, _,
        List.getElem?_set_self (lt_length_of_get?_eq_some hti), ?_, ?_,
        Or.inl ⟨?_, ?_, ?_, ?_⟩⟩
      · simp [cnt, List.countP_cons, isLClaim]
      · intro j u hj hji hni
        rw [List.getElem?_set_ne (fun h => hji h.symm)] at hj
        exact absurd (hinit j u hj) hni
      · simp [cnt, List.countP_cons, isFClaim]
      · intro c buf h
        cases c with
        | zero => exact (Option.some.inj h).symm
        | succ c2 => cases h
      · exact Or.inl ⟨Or.inl rfl, by simp [cnt, List.countP_cons, isExec]⟩
      · intro j u hj hji
        rw [List.getElem?_set_ne (fun h => hji h.symm)] at hj
        exact Or.inl (hinit j u hj)
    · simp only [step, hti, hrl]
      rw [hreg, hch, hlog]
      refine Or.inr ⟨i, _,
        List.getElem?_set_self (lt_length_of_get?_eq_some hti), ?_, ?_,
        Or.inl ⟨?_, ?_, ?_, ?_⟩⟩
      · simp [cnt, List.countP_cons, isLClaim]
      · intro j u hj hji hni
        rw [List.getElem?_set_ne (fun h => hji h.symm)] at hj
        exact absurd (hinit j u hj) hni
      · simp [cnt, List.countP_cons, isFClaim]
      · intro c buf h
        cases c with
        | zero => exact (Option.some.inj h).symm
        | succ c2 =>
          cases c2 with
          | zero => exact (Option.some.inj h).symm
          | succ c3 => cases h
      · exact Or.inl ⟨Or.inr rfl, by simp [cnt, List.countP_cons, isExec]⟩
      · intro j u hj hji
        rw [List.getElem?_set_ne (fun h => hji h.symm)] at hj
        exact Or.inl (hinit j u hj)


theorem cnt_snoc_ne (p : Event → Bool) (e : Event) (log : List Event)
    (h : p e = false) : cnt p (log ++ [e]) = cnt p log := by
  rw [cnt_snoc, h]
  simp

theorem cnt_snoc_eq (p : Event → Bool) (e : Event) (log : List Event)
    (h : p e = true) : cnt p (log ++ [e]) = cnt p log + 1 := by
  rw [cnt_snoc, h]
  simp

theorem FC_leader {s : GState E T} {ld : Nat} (t' : Thread E T)
    (ext : List Event)
    (hfc1 : ∀ (j : Nat) (u : Thread E T), s.threads[j]? = some u → j ≠ ld →
      ¬ initPC u.pc → 1 ≤ cnt isFClaim s.log) :
    ∀ (j : Nat) (u : Thread E T), (s.threads.set ld t')[j]? = some u → j ≠ ld →
      ¬ initPC u.pc → 1 ≤ cnt isFClaim (s.log ++ ext) := by
  intro j u hj hji hni
  rw [List.getElem?_set_ne (fun h2 => hji h2.symm)] at hj
  calc 1 ≤ cnt isFClaim s.log := hfc1 j u hj hji hni
    _ ≤ cnt isFClaim (s.log ++ ext) := by rw [cnt_append]; omega

theorem FC_follower {s : GState E T} {ld i : Nat} {t : Thread E T}
    (t' : Thread E T) (ext : List Event) (hti : s.threads[i]? = some t)
    (hold : ¬ initPC t.pc)
    (hfc1 : ∀ (j : Nat) (u : Thread E T), s.threads[j]? = some u → j ≠ ld →
      ¬ initPC u.pc → 1 ≤ cnt isFClaim s.log) :
    ∀ (j : Nat) (u : Thread E T), (s.threads.set i t')[j]? = some u → j ≠ ld →
      ¬ initPC u.pc → 1 ≤ cnt isFClaim (s.log ++ ext) := by
  intro j u hj hji hni
  have hle : cnt isFClaim s.log ≤ cnt isFClaim (s.log ++ ext) := by
    rw [cnt_append]; omega
  by_cases hjei : j = i
  · subst hjei
    exact (hfc1 j t hti hji hold).trans hle
  · rw [List.getElem?_set_ne (fun h2 => hjei h2.symm)] at hj
    exact (hfc1 j u hj hji hni).trans hle

theorem Fol_set_leader {s : GState E T} {ld : Nat} (t' : Thread E T)
    {P : PC E T → Prop}
    (h : ∀ (j : Nat) (u : Thread E T), s.threads[j]? = some u → j ≠ ld →
      P u.pc) :
    ∀ (j : Nat) (u : Thread E T), (s.threads.set ld t')[j]? = some u → j ≠ ld →
      P u.pc := by
  intro j u hj hji
  rw [List.getElem?_set_ne (fun h2 => hji h2.symm)] at hj
  exact h j u hj hji

theorem Fol_set_follower {s : GState E T} {ld i : Nat} {t : Thread E T}
    (t' : Thread E T) {P : PC E T → Prop} (hti : s.threads[i]? = some t)
    (h : ∀ (j : Nat) (u : Thread E T), s.threads[j]? = some u → j ≠ ld →
      P u.pc) (hP : P t'.pc) :
    ∀ (j : Nat) (u : Thread E T), (s.threads.set i t')[j]? = some u → j ≠ ld →
      P u.pc := by
  intro j u hj hji
  by_cases hjei : j = i
  · subst hjei
    rw [List.getElem?_set_self (lt_length_of_get?_eq_some hti)] at hj
    injection hj with hj
    subst hj
    exact hP
  · rw [List.getElem?_set_ne (fun h2 => hjei h2.symm)] at hj
    exact h j u hj hji


theorem UInv_stepB_leader (K : String) (f : Except E T) (toStr : E → String)
    (s : GState E T) (ld : Nat) (tl : Thread E T)
    (hkf : KF K f s) (htl : s.threads[ld]? = some tl)
    (hlc : cnt isLClaim s.log = 1)
    (hfc1 : ∀ (j : Nat) (u : Thread E T), s.threads[j]? = some u → j ≠ ld →
      ¬ initPC u.pc → 1 ≤ cnt isFClaim s.log)
    (hB : (s.reg = [(K, ⟨cnt isFClaim s.log, 0⟩)] ∧ chansEmpty s.chans ∧
      ((LeaderRun tl.pc ∧ cnt isExec s.log = 0) ∨
       (LeaderRetire f tl.pc ∧ cnt isExec s.log = 1)) ∧
      (∀ (j : Nat) (u : Thread E T), s.threads[j]? = some u → j ≠ ld →
        FollowerPre u.pc)) ∨
     (s.reg = [] ∧ cnt isExec s.log = 1 ∧
      allMsgs s.chans (mkMsg toStr f (cnt isFClaim s.log)) ∧
      LeaderPost (mkMsg toStr f (cnt isFClaim s.log)) tl.pc ∧
      (∀ (j : Nat) (u : Thread E T), s.threads[j]? = some u → j ≠ ld →
        FollowerPost (mkMsg toStr f (cnt isFClaim s.log)) u.pc))) :
    UInv K f toStr (step toStr s ld) := by
  obtain ⟨hk, hf⟩ := hkf ld tl htl
  rcases tl with ⟨tk, tf, tro, tpc⟩
  replace hk : K = tk := hk.symm
  replace hf : tf = embed f := hf
  subst hk hf
  rcases hB with ⟨hreg, hce, hstage, hfol⟩ | ⟨hreg, hex, hAM, hlp, hfol⟩
  · rcases hstage with ⟨hrun, hexc⟩ | ⟨hret, hexc⟩
    · rcases hrun with hpc | hpc <;> replace hpc : tpc = _ := hpc <;> subst hpc
      · cases f with
        | ok v =>
          simp only [step, htl, embed]
          exact Or.inr ⟨ld,
            ⟨K, embed (Except.ok v), tro, PC.retireStep (Except.ok v)⟩,
            List.getElem?_set_self (lt_length_of_get?_eq_some htl),
            by rw [cnt_snoc_ne isLClaim (Event.executed ld) s.log rfl]; exact hlc,
            FC_leader _ _ hfc1,
            Or.inl ⟨by rw [cnt_snoc_ne isFClaim (Event.executed ld) s.log rfl]; exact hreg,
              hce,
              Or.inr ⟨Or.inl rfl,
                by rw [cnt_snoc_eq isExec (Event.executed ld) s.log rfl, hexc]⟩,
              Fol_set_leader _ hfol⟩⟩
        | error e0 =>
          simp only [step, htl, embed]
          exact Or.inr ⟨ld,
            ⟨K, embed (Except.error e0), tro, PC.retireStep (Except.error e0)⟩,
            List.getElem?_set_self (lt_length_of_get?_eq_some htl),
            by rw [cnt_snoc_ne isLClaim (Event.executed ld) s.log rfl]; exact hlc,
            FC_leader _ _ hfc1,
            Or.inl ⟨by rw [cnt_snoc_ne isFClaim (Event.executed ld) s.log rfl]; exact hreg,
              hce,
              Or.inr ⟨Or.inl rfl,
                by rw [cnt_snoc_eq isExec (Event.executed ld) s.log rfl, hexc]⟩,
              Fol_set_leader _ hfol⟩⟩
      · cases f with
        | ok v =>
          simp only [step, htl, embed]
          exact Or.inr ⟨ld,
            ⟨K, embed (Except.ok v), tro, PC.retireStepC 1 (Except.ok v)⟩,
            List.getElem?_set_self (lt_length_of_get?_eq_some htl),
            by rw [cnt_snoc_ne isLClaim (Event.executed ld) s.log rfl]; exact hlc,
            FC_leader _ _ hfc1,
            Or.inl ⟨by rw [cnt_snoc_ne isFClaim (Event.executed ld) s.log rfl]; exact hreg,
              hce,
              Or.inr ⟨Or.inr rfl,
                by rw [cnt_snoc_eq isExec (Event.executed ld) s.log rfl, hexc]⟩,
              Fol_set_leader _ hfol⟩⟩
        | error e0 =>
          simp only [step, htl, embed]
          exact Or.inr ⟨ld,
            ⟨K, embed (Except.error e0), tro, PC.retireStepC 1 (Except.error e0)⟩,
            List.getElem?_set_self (lt_length_of_get?_eq_some htl),
            by rw [cnt_snoc_ne isLClaim (Event.executed ld) s.log rfl]; exact hlc,
            FC_leader _ _ hfc1,
            Or.inl ⟨by rw [cnt_snoc_ne isFClaim (Event.executed ld) s.log rfl]; exact hreg,
              hce,
              Or.inr ⟨Or.inr rfl,
                by rw [cnt_snoc_eq isExec (Event.executed ld) s.log rfl, hexc]⟩,
              Fol_set_leader _ hfol⟩⟩
    · have hrl : regLookup K s.reg = some ⟨cnt isFClaim s.log, 0⟩ := by
        rw [hreg]
        simp [regLookup]
      have hrr : regRemove K s.reg = [] := by
        rw [hreg]
        simp [regRemove]
      have hAM0 : ∀ M0 : Msg T, allMsgs s.chans M0 := by
        intro M0 c buf h m hm
        rw [hce c buf h] at hm
        cases hm
      rcases hret with hpc | hpc <;> replace hpc : tpc = _ := hpc <;> subst hpc
      · have hfq : cnt isFClaim (s.log ++ [Event.retired ld K (cnt isFClaim s.log)]) =
            cnt isFClaim s.log :=
          cnt_snoc_ne isFClaim (Event.retired ld K (cnt isFClaim s.log)) s.log rfl
        simp only [step, htl, hrl]
        refine Or.inr ⟨ld, ⟨K, embed f, tro,
            PC.sendLoop 0 (mkMsg toStr f (cnt isFClaim s.log)) (cnt isFClaim s.log + 1)⟩,
          List.getElem?_set_self (lt_length_of_get?_eq_some htl), ?_,
          FC_leader _ _ hfc1, Or.inr ⟨hrr, ?_, ?_, ?_, ?_⟩⟩
        · rw [cnt_snoc_ne isLClaim (Event.retired ld K (cnt isFClaim s.log)) s.log rfl]
          exact hlc
        · rw [cnt_snoc_ne isExec (Event.retired ld K (cnt isFClaim s.log)) s.log rfl]
          exact hexc
        · exact hAM0 _
        · rw [hfq]
          exact Or.inl ⟨cnt isFClaim s.log + 1, rfl⟩
        · intro j u hj hji
          rw [List.getElem?_set_ne (fun h2 => hji h2.symm)] at hj
          exact Or.inl (hfol j u hj hji)
      · have hfq : cnt isFClaim (s.log ++ [Event.retired ld K (cnt isFClaim s.log)]) =
            cnt isFClaim s.log :=
          cnt_snoc_ne isFClaim (Event.retired ld K (cnt isFClaim s.log)) s.log rfl
        simp only [step, htl, hrl]
        refine Or.inr ⟨ld, ⟨K, embed f, tro,
            PC.sendLoopC 0 1 (mkMsg toStr f (cnt isFClaim s.log)) (cnt isFClaim s.log)⟩,
          List.getElem?_set_self (lt_length_of_get?_eq_some htl), ?_,
          FC_leader _ _ hfc1, Or.inr ⟨hrr, ?_, ?_, ?_, ?_⟩⟩
        · rw [cnt_snoc_ne isLClaim (Event.retired ld K (cnt isFClaim s.log)) s.log rfl]
          exact hlc
        · rw [cnt_snoc_ne isExec (Event.retired ld K (cnt isFClaim s.log)) s.log rfl]
          exact hexc
        · exact hAM0 _
        · rw [hfq]
          exact Or.inr (Or.inr (Or.inr (Or.inl ⟨cnt isFClaim s.log, rfl⟩)))
        · intro j u hj hji
          rw [List.getElem?_set_ne (fun h2 => hji h2.symm)] at hj
          exact Or.inl (hfol j u hj hji)
  · rcases hlp with ⟨r, hpc⟩ | hpc | hpc | ⟨r, hpc⟩ | hpc <;>
      replace hpc : tpc = _ := hpc <;> subst hpc
    · cases r with
      | zero =>
        simp only [step, htl]
        refine Or.inr ⟨ld, ⟨K, embed f, tro, PC.recvStep 0⟩,
          List.getElem?_set_self (lt_length_of_get?_eq_some htl), hlc, ?_,
          Or.inr ⟨hreg, hex, hAM, Or.inr (Or.inl rfl), Fol_set_leader _ hfol⟩⟩
        intro j u hj hji hni
        rw [List.getElem?_set_ne (fun h2 => hji h2.symm)] at hj
        exact hfc1 j u hj hji hni
      | succ r2 =>
        have hfq : cnt isFClaim (s.log ++ [Event.sent ld 0]) = cnt isFClaim s.log :=
          cnt_snoc_ne isFClaim (Event.sent ld 0) s.log rfl
        have hAM2 : allMsgs
            (pushBuf 0 (mkMsg toStr f (cnt isFClaim s.log)) s.chans)
            (mkMsg toStr f (cnt isFClaim s.log)) := by
          intro c buf h m hm
          rcases pushBuf_mem h hm with ⟨buf0, hb0, hm0⟩ | he
          · exact hAM c buf0 hb0 m hm0
          · exact he
        simp only [step, htl]
        refine Or.inr ⟨ld, ⟨K, embed f, tro,
            PC.sendLoop 0 (mkMsg toStr f (cnt isFClaim s.log)) r2⟩,
          List.getElem?_set_self (lt_length_of_get?_eq_some htl), ?_,
          FC_leader _ _ hfc1, Or.inr ⟨hreg, ?_, ?_, ?_, ?_⟩⟩
        · rw [cnt_snoc_ne isLClaim (Event.sent ld 0) s.log rfl]
          exact hlc
        · rw [cnt_snoc_ne isExec (Event.sent ld 0) s.log rfl]
          exact hex
        · rw [hfq]
          exact hAM2
        · rw [hfq]
          exact Or.inl ⟨r2, rfl⟩
        · rw [hfq]
          exact Fol_set_leader _ hfol
    · cases hch0 : s.chans[0]? with
      | none =>
        simp only [step, htl, hch0]
        exact Or.inr ⟨ld, _, htl, hlc, hfc1,
          Or.inr ⟨hreg, hex, hAM, Or.inr (Or.inl rfl), hfol⟩⟩
      | some buf =>
        cases buf with
        | nil =>
          simp only [step, htl, hch0]
          exact Or.inr ⟨ld, _, htl, hlc, hfc1,
            Or.inr ⟨hreg, hex, hAM, Or.inr (Or.inl rfl), hfol⟩⟩
        | cons m rest =>
          have hmM : m = mkMsg toStr f (cnt isFClaim s.log) :=
            hAM 0 _ hch0 m (List.mem_cons_self m rest)
          subst hmM
          have hAM2 : allMsgs (s.chans.set 0 rest)
              (mkMsg toStr f (cnt isFClaim s.log)) := by
            intro c buf h x hx
            rcases set_chan_mem h hx with ⟨buf0, hb0, hx0⟩ | ⟨-, hx0⟩
            · exact hAM c buf0 hb0 x hx0
            · exact hAM 0 _ hch0 x (List.mem_cons_of_mem _ hx0)
          have hfq : cnt isFClaim (s.log ++ [Event.received ld 0]) =
              cnt isFClaim s.log :=
            cnt_snoc_ne isFClaim (Event.received ld 0) s.log rfl
          simp only [step, htl, hch0]
          refine Or.inr ⟨ld, ⟨K, embed f, tro,
              PC.done (mkMsg toStr f (cnt isFClaim s.log))⟩,
            List.getElem?_set_self (lt_length_of_get?_eq_some htl), ?_,
            FC_leader _ _ hfc1, Or.inr ⟨hreg, ?_, ?_, ?_, ?_⟩⟩
          · rw [cnt_snoc_ne isLClaim (Event.received ld 0) s.log rfl]
            exact hlc
          · rw [cnt_snoc_ne isExec (Event.received ld 0) s.log rfl]
            exact hex
          · rw [hfq]
            exact hAM2
          · rw [hfq]
            exact Or.inr (Or.inr (Or.inl rfl))
          · rw [hfq]
            exact Fol_set_leader _ hfol
    · simp only [step, htl]
      exact Or.inr ⟨ld, _, htl, hlc, hfc1,
        Or.inr ⟨hreg, hex, hAM, Or.inr (Or.inr (Or.inl rfl)), hfol⟩⟩
    · cases r with
      | zero =>
        have hfq : cnt isFClaim (s.log ++ [Event.sent ld 1]) = cnt isFClaim s.log :=
          cnt_snoc_ne isFClaim (Event.sent ld 1) s.log rfl
        have hAM2 : allMsgs
            (pushBuf 1 (mkMsg toStr f (cnt isFClaim s.log)) s.chans)
            (mkMsg toStr f (cnt isFClaim s.log)) := by
          intro c buf h m hm
          rcases pushBuf_mem h hm with ⟨buf0, hb0, hm0⟩ | he
          · exact hAM c buf0 hb0 m hm0
          · exact he
        simp only [step, htl]
        refine Or.inr ⟨ld, ⟨K, embed f, tro, PC.doneChan 1⟩,
          List.getElem?_set_self (lt_length_of_get?_eq_some htl), ?_,
          FC_leader _ _ hfc1, Or.inr ⟨hreg, ?_, ?_, ?_, ?_⟩⟩
        · rw [cnt_snoc_ne isLClaim (Event.sent ld 1) s.log rfl]
          exact hlc
        · rw [cnt_snoc_ne isExec (Event.sent ld 1) s.log rfl]
          exact hex
        · rw [hfq]
          exact hAM2
        · rw [hfq]
          exact Or.inr (Or.inr (Or.inr (Or.inr rfl)))
        · rw [hfq]
          exact Fol_set_leader _ hfol
      | succ r2 =>
        have hfq : cnt isFClaim (s.log ++ [Event.sent ld 0]) = cnt isFClaim s.log :=
          cnt_snoc_ne isFClaim (Event.sent ld 0) s.log rfl
        have hAM2 : allMsgs
            (pushBuf 0 (mkMsg toStr f (cnt isFClaim s.log)) s.chans)
            (mkMsg toStr f (cnt isFClaim s.log)) := by
          intro c buf h m hm
          rcases pushBuf_mem h hm with ⟨buf0, hb0, hm0⟩ | he
          · exact hAM c buf0 hb0 m hm0
          · exact he
        simp only [step, htl]
        refine Or.inr ⟨ld, ⟨K, embed f, tro,
            PC.sendLoopC 0 1 (mkMsg toStr f (cnt isFClaim s.log)) r2⟩,
          List.getElem?_set_self (lt_length_of_get?_eq_some htl), ?_,
          FC_leader _ _ hfc1, Or.inr ⟨hreg, ?_, ?_, ?_, ?_⟩⟩
        · rw [cnt_snoc_ne isLClaim (Event.sent ld 0) s.log rfl]
          exact hlc
        · rw [cnt_snoc_ne isExec (Event.sent ld 0) s.log rfl]
          exact hex
        · rw [hfq]
          exact hAM2
        · rw [hfq]
          exact Or.inr (Or.inr (Or.inr (Or.inl ⟨r2, rfl⟩)))
        · rw [hfq]
          exact Fol_set_leader _ hfol
    · simp only [step, htl]
      exact Or.inr ⟨ld, _, htl, hlc, hfc1,
        Or.inr ⟨hreg, hex, hAM, Or.inr (Or.inr (Or.inr (Or.inr rfl))), hfol⟩⟩


theorem UInv_stepB_follower (K : String) (f : Except E T) (toStr : E → String)
    (s : GState E T) (i ld : Nat) (tl : Thread E T)
    (hkf : KF K f s) (htl : s.threads[ld]? = some tl) (hif : i ≠ ld)
    (hlc : cnt isLClaim s.log = 1)
    (hfc1 : ∀ (j : Nat) (u : Thread E T), s.threads[j]? = some u → j ≠ ld →
      ¬ initPC u.pc → 1 ≤ cnt isFClaim s.log)
    (hB : (s.reg = [(K, ⟨cnt isFClaim s.log, 0⟩)] ∧ chansEmpty s.chans ∧
      ((LeaderRun tl.pc ∧ cnt isExec s.log = 0) ∨
       (LeaderRetire f tl.pc ∧ cnt isExec s.log = 1)) ∧
      (∀ (j : Nat) (u : Thread E T), s.threads[j]? = some u → j ≠ ld →
        FollowerPre u.pc)) ∨
     (s.reg = [] ∧ cnt isExec s.log = 1 ∧
      allMsgs s.chans (mkMsg toStr f (cnt isFClaim s.log)) ∧
      LeaderPost (mkMsg toStr f (cnt isFClaim s.log)) tl.pc ∧
      (∀ (j : Nat) (u : Thread E T), s.threads[j]? = some u → j ≠ ld →
        FollowerPost (mkMsg toStr f (cnt isFClaim s.log)) u.pc)))
    (hcond : cnt isLClaim (step toStr s i).log ≤ 1) :
    UInv K f toStr (step toStr s i) := by
  cases hti : s.threads[i]? with
  | none =>
    simp only [step, hti]
    exact Or.inr ⟨ld, tl, htl, hlc, hfc1, hB⟩
  | some t =>
    obtain ⟨hk, hf⟩ := hkf i t hti
    rcases t with ⟨tk, tf, tro, tpc⟩
    replace hk : K = tk := hk.symm
    replace hf : tf = embed f := hf
    subst hk hf
    have hset : ∀ t' : Thread E T, (s.threads.set i t')[ld]? = some tl :=
      fun t' => (List.getElem?_set_ne hif).trans htl
    rcases hB with ⟨hreg, hce, hstage, hfol⟩ | ⟨hreg, hex, hAM, hlp, hfol⟩
    · have hfp : FollowerPre tpc := hfol i _ hti hif
      rcases hfp with (hpc | hpc) | hpc | hpc <;>
        replace hpc : tpc = _ := hpc <;> subst hpc
      · have hrl : regLookup K s.reg = some ⟨cnt isFClaim s.log, 0⟩ := by
          rw [hreg]
          simp [regLookup]
        have hrb : regBump K s.reg = [(K, ⟨cnt isFClaim s.log + 1, 0⟩)] := by
          rw [hreg]
          simp [regBump]
        have hfq : cnt isFClaim (s.log ++ [Event.claimed i K false]) =
            cnt isFClaim s.log + 1 :=
          cnt_snoc_eq isFClaim (Event.claimed i K false) s.log rfl
        simp only [step, hti, hrl]
        refine Or.inr ⟨ld, tl, hset _, ?_, ?_, Or.inl ⟨?_, hce, ?_, ?_⟩⟩
        · rw [cnt_snoc_ne isLClaim (Event.claimed i K false) s.log rfl]
          exact hlc
        · intro j u hj hji hni
          rw [hfq]
          omega
        · rw [hfq]
          exact hrb
        · rw [cnt_snoc_ne isExec (Event.claimed i K false) s.log rfl]
          exact hstage
        · exact Fol_set_follower _ hti hfol (Or.inr (Or.inl rfl))
      · have hrl : regLookup K s.reg = some ⟨cnt isFClaim s.log, 0⟩ := by
          rw [hreg]
          simp [regLookup]
        have hrb : regBump K s.reg = [(K, ⟨cnt isFClaim s.log + 1, 0⟩)] := by
          rw [hreg]
          simp [regBump]
        have hfq : cnt isFClaim (s.log ++ [Event.claimed i K false]) =
            cnt isFClaim s.log + 1 :=
          cnt_snoc_eq isFClaim (Event.claimed i K false) s.log rfl
        simp only [step, hti, hrl]
        refine Or.inr ⟨ld, tl, hset _, ?_, ?_, Or.inl ⟨?_, hce, ?_, ?_⟩⟩
        · rw [cnt_snoc_ne isLClaim (Event.claimed i K false) s.log rfl]
          exact hlc
        · intro j u hj hji hni
          rw [hfq]
          omega
        · rw [hfq]
          exact hrb
        · rw [cnt_snoc_ne isExec (Event.claimed i K false) s.log rfl]
          exact hstage
        · exact Fol_set_follower _ hti hfol (Or.inr (Or.inr rfl))
      · cases hch0 : s.chans[0]? with
        | none =>
          simp only [step, hti, hch0]
          exact Or.inr ⟨ld, tl, htl, hlc, hfc1, Or.inl ⟨hreg, hce, hstage, hfol⟩⟩
        | some buf =>
          have hb := hce 0 buf hch0
          subst hb
          simp only [step, hti, hch0]
          exact Or.inr ⟨ld, tl, htl, hlc, hfc1, Or.inl ⟨hreg, hce, hstage, hfol⟩⟩
      · cases hch0 : s.chans[0]? with
        | none =>
          simp only [step, hti, hch0]
          exact Or.inr ⟨ld, tl, htl, hlc, hfc1, Or.inl ⟨hreg, hce, hstage, hfol⟩⟩
        | some buf =>
          have hb := hce 0 buf hch0
          subst hb
          simp only [step, hti, hch0]
          exact Or.inr ⟨ld, tl, htl, hlc, hfc1, Or.inl ⟨hreg, hce, hstage, hfol⟩⟩
    · have hfp : FollowerPost (mkMsg toStr f (cnt isFClaim s.log)) tpc :=
        hfol i _ hti hif
      rcases hfp with ((hpc | hpc) | hpc | hpc) | hpc | ⟨dc, hpc⟩ <;>
        replace hpc : tpc = _ := hpc <;> subst hpc
      · have hrl : regLookup K s.reg = none := by rw [hreg]; rfl
        simp only [step, hti, hrl] at hcond
        rw [cnt_snoc_eq isLClaim (Event.claimed i K true) s.log rfl, hlc] at hcond
        exact absurd hcond (by omega)
      · have hrl : regLookup K s.reg = none := by rw [hreg]; rfl
        simp only [step, hti, hrl] at hcond
        rw [cnt_snoc_eq isLClaim (Event.claimed i K true) s.log rfl, hlc] at hcond
        exact absurd hcond (by omega)
      · cases hch0 : s.chans[0]? with
        | none =>
          simp only [step, hti, hch0]
          exact Or.inr ⟨ld, tl, htl, hlc, hfc1,
            Or.inr ⟨hreg, hex, hAM, hlp, hfol⟩⟩
        | some buf =>
          cases buf with
          | nil =>
            simp only [step, hti, hch0]
            exact Or.inr ⟨ld, tl, htl, hlc, hfc1,
              Or.inr ⟨hreg, hex, hAM, hlp, hfol⟩⟩
          | cons m rest =>
            have hmM : m = mkMsg toStr f (cnt isFClaim s.log) :=
              hAM 0 _ hch0 m (List.mem_cons_self m rest)
            subst hmM
            have hAM2 : allMsgs (s.chans.set 0 rest)
                (mkMsg toStr f (cnt isFClaim s.log)) := by
              intro c buf h x hx
              rcases set_chan_mem h hx with ⟨buf0, hb0, hx0⟩ | ⟨-, hx0⟩
              · exact hAM c buf0 hb0 x hx0
              · exact hAM 0 _ hch0 x (List.mem_cons_of_mem _ hx0)
            have hfq : cnt isFClaim (s.log ++ [Event.received i 0]) =
                cnt isFClaim s.log :=
              cnt_snoc_ne isFClaim (Event.received i 0) s.log rfl
            have hni : ¬ initPC (PC.recvStep 0 : PC E T) := by
              intro h
              rcases h with h | h <;> cases h
            simp only [step, hti, hch0]
            refine Or.inr ⟨ld, tl, hset _, ?_, ?_, Or.inr ⟨hreg, ?_, ?_, ?_, ?_⟩⟩
            · rw [cnt_snoc_ne isLClaim (Event.received i 0) s.log rfl]
              exact hlc
            · exact FC_follower _ _ hti hni hfc1
            · rw [cnt_snoc_ne isExec (Event.received i 0) s.log rfl]
              exact hex
            · rw [hfq]
              exact hAM2
            · rw [hfq]
              exact hlp
            · rw [hfq]
              exact Fol_set_follower _ hti hfol (Or.inr (Or.inl rfl))
      · cases hch0 : s.chans[0]? with
        | none =>
          simp only [step, hti, hch0]
          exact Or.inr ⟨ld, tl, htl, hlc, hfc1,
            Or.inr ⟨hreg, hex, hAM, hlp, hfol⟩⟩
        | some buf =>
          cases buf with
          | nil =>
            simp only [step, hti, hch0]
            exact Or.inr ⟨ld, tl, htl, hlc, hfc1,
              Or.inr ⟨hreg, hex, hAM, hlp, hfol⟩⟩
          | cons m rest =>
            have hmM : m = mkMsg toStr f (cnt isFClaim s.log) :=
              hAM 0 _ hch0 m (List.mem_cons_self m rest)
            subst hmM
            have hAM2 : allMsgs
                (s.chans.set 0 rest ++ [[mkMsg toStr f (cnt isFClaim s.log)]])
                (mkMsg toStr f (cnt isFClaim s.log)) := by
              intro c buf h x hx
              rcases append_chan_mem h with h2 | h2
              · rcases set_chan_mem h2 hx with ⟨buf0, hb0, hx0⟩ | ⟨-, hx0⟩
                · exact hAM c buf0 hb0 x hx0
                · exact hAM 0 _ hch0 x (List.mem_cons_of_mem _ hx0)
              · have hb : buf = [mkMsg toStr f (cnt isFClaim s.log)] :=
                  List.mem_singleton.mp h2
                subst hb
                exact List.mem_singleton.mp hx
            have hfq : cnt isFClaim (s.log ++ [Event.received i 0]) =
                cnt isFClaim s.log :=
              cnt_snoc_ne isFClaim (Event.received i 0) s.log rfl
            have hni : ¬ initPC (PC.recvForwardC 0 : PC E T) := by
              intro h
              rcases h with h | h <;> cases h
            simp only [step, hti, hch0]
            refine Or.inr ⟨ld, tl, hset _, ?_, ?_, Or.inr ⟨hreg, ?_, ?_, ?_, ?_⟩⟩
            · rw [cnt_snoc_ne isLClaim (Event.received i 0) s.log rfl]
              exact hlc
            · exact FC_follower _ _ hti hni hfc1
            · rw [cnt_snoc_ne isExec (Event.received i 0) s.log rfl]
              exact hex
            · rw [hfq]
              exact hAM2
            · rw [hfq]
              exact hlp
            · rw [hfq]
              exact Fol_set_follower _ hti hfol (Or.inr (Or.inr ⟨_, rfl⟩))
      · simp only [step, hti]
        exact Or.inr ⟨ld, tl, htl, hlc, hfc1,
          Or.inr ⟨hreg, hex, hAM, hlp, hfol⟩⟩
      · simp only [step, hti]
        exact Or.inr ⟨ld, tl, htl, hlc, hfc1,
          Or.inr ⟨hreg, hex, hAM, hlp, hfol⟩⟩


theorem UInv_step (K : String) (f : Except E T) (toStr : E → String)
    (s : GState E T) (i : Nat) (hkf : KF K f s) (hU : UInv K f toStr s)
    (hcond : cnt isLClaim (step toStr s i).log ≤ 1) :
    UInv K f toStr (step toStr s i) := by
  rcases hU with ⟨hreg, hch, hlog, hinit⟩ | ⟨ld, tl, htl, hlc, hfc1, hB⟩
  · exact UInv_stepA K f toStr s i hkf hreg hch hlog hinit
  · by_cases hil : i = ld
    · subst hil
      exact UInv_stepB_leader K f toStr s i tl hkf htl hlc hfc1 hB
    · exact UInv_stepB_follower K f toStr s i ld tl hkf htl hil hlc hfc1 hB hcond

theorem KF_run (K : String) (f : Except E T) (toStr : E → String)
    (s : GState E T) (sched : List Nat) (hkf : KF K f s) :
    KF K f (run toStr s sched) := by
  induction sched generalizing s with
  | nil => exact hkf
  | cons a rest ih => exact ih _ (KF_step K f toStr s a hkf)

theorem KF_uniformInit (K : String) (f : Except E T) (modes : List Bool) :
    KF K f (uniformInit K f modes) := by
  intro j u hj
  simp only [uniformInit, mkInit, List.getElem?_map] at hj
  cases hmj : modes[j]? with
  | none => rw [hmj] at hj; cases hj
  | some b =>
    rw [hmj] at hj
    simp only [Option.map_some'] at hj
    injection hj with hj
    subst hj
    exact ⟨rfl, rfl⟩

theorem UInv_uniformInit (K : String) (f : Except E T) (toStr : E → String)
    (modes : List Bool) : UInv K f toStr (uniformInit K f modes) := by
  refine Or.inl ⟨rfl, rfl, rfl, ?_⟩
  intro j u hj
  simp only [uniformInit, mkInit, List.getElem?_map] at hj
  cases hmj : modes[j]? with
  | none => rw [hmj] at hj; cases hj
  | some b =>
    rw [hmj] at hj
    simp only [Option.map_some'] at hj
    injection hj with hj
    subst hj
    cases b
    · exact Or.inl rfl
    · exact Or.inr rfl

theorem UInv_run (K : String) (f : Except E T) (toStr : E → String)
    (s : GState E T) (sched : List Nat) (hkf : KF K f s)
    (hU : UInv K f toStr s)
    (hL : cnt isLClaim (run toStr s sched).log ≤ 1) :
    UInv K f toStr (run toStr s sched) := by
  induction sched generalizing s with
  | nil => exact hU
  | cons a rest ih =>
    have hc1 : cnt isLClaim (step toStr s a).log ≤ 1 :=
      (cnt_le_run toStr (step toStr s a) rest isLClaim).trans hL
    exact ih (step toStr s a) (KF_step K f toStr s a hkf)
      (UInv_step K f toStr s a hkf hU hc1) hL

/-- The outcome a coalesced caller observes: the shared success value with
`shared=true`, or the stringified failure. -/
def mkOut (toStr : E → String) (f : Except E T) : Msg T :=
  match f with
  | .ok v => .ok (v, true)
  | .error e => .error (toStr e)

/-- Has this caller finished (holds its `go` result / its `go_chan` receiver)? -/
def isTerminal : PC E T → Bool
  | .done _ => true
  | .doneChan _ => true
  | _ => false

theorem mkMsg_pos_eq_mkOut (toStr : E → String) (f : Except E T) (D : Nat)
    (hD : 1 ≤ D) : mkMsg toStr f D = mkOut toStr f := by
  cases f with
  | ok v =>
    have hd : decide (0 < D) = true := decide_eq_true (by omega)
    simp [mkMsg, mkOut, hd]
  | error e => rfl


/-- **C1.** Coalescing of overlapping callers.  Run any number `N ≥ 2` of
invocations of `go` / `go_chan` (selected per caller by `modes`) for the same
key `K` with the same work `f`, under any schedule.  The lifetimes
overlapping is rendered as: at most one leadership claim ever happens, i.e.
every other caller reached the registry while `K`'s record was in flight and
joined it (a caller arriving after the round is over would claim leadership
anew).  Then, once every caller has finished (each holds its `go` result or
its returned `go_chan` receiver), the work has been executed exactly once,
and every one of the `N` callers observes the same outcome with
`shared=true`: the success value `(v, true)` if `f = ok v`, or the
stringified failure if `f` is an error — `go` callers hold it as their
return value, `go_chan` callers find exactly that one message in their
returned receiver. -/
theorem go_coalesces_overlapping_callers (E T : Type) (toStr : E → String)
    (K : String) (f : Except E T) (modes : List Bool) (sched : List Nat)
    (hN : 2 ≤ modes.length)
    (hover : cnt isLClaim (run toStr (uniformInit K f modes) sched).log ≤ 1)
    (hdone : ∀ u ∈ (run toStr (uniformInit K f modes) sched).threads,
      isTerminal u.pc = true) :
    cnt isExec (run toStr (uniformInit K f modes) sched).log = 1 ∧
    ∀ (j : Nat) (u : Thread E T),
      (run toStr (uniformInit K f modes) sched).threads[j]? = some u →
      u.pc = PC.done (mkOut toStr f) ∨
      ∃ dc, u.pc = PC.doneChan dc ∧
        (run toStr (uniformInit K f modes) sched).chans[dc]? =
          some [mkOut toStr f] := by
  have hterm : ∀ (j : Nat) (u : Thread E T),
      (run toStr (uniformInit K f modes) sched).threads[j]? = some u →
      (∃ m, u.pc = PC.done m) ∨ ∃ dc, u.pc = PC.doneChan dc := by
    intro j u hu
    have ht := hdone u (List.getElem?_mem hu)
    rcases u with ⟨uk, uf, ur, upc⟩
    cases upc <;>
      first
      | exact Or.inl ⟨_, rfl⟩
      | exact Or.inr ⟨_, rfl⟩
      | simp [isTerminal] at ht
  have hU := UInv_run K f toStr (uniformInit K f modes) sched
    (KF_uniformInit K f modes) (UInv_uniformInit K f toStr modes) hover
  have hlen : (run toStr (uniformInit K f modes) sched).threads.length =
      modes.length := by
    rw [run_threads_length]
    simp [uniformInit, mkInit]
  rcases hU with ⟨hreg, hch, hlog, hinit⟩ | ⟨ld, tl, htl, hlc, hfc1, hB⟩
  · exfalso
    have h0lt : (0 : Nat) <
        (run toStr (uniformInit K f modes) sched).threads.length := by
      omega
    obtain ⟨u, hu⟩ := Option.isSome_iff_exists.mp (isSome_get?_iff_lt.mpr h0lt)
    rcases hterm 0 u hu with ⟨m, hm⟩ | ⟨dc, hm⟩ <;>
      rcases hinit 0 u hu with h | h <;> rw [hm] at h <;> cases h
  · rcases hB with ⟨hreg, hce, hstage, hfol⟩ | ⟨hreg, hex, hAM, hlp, hfol⟩
    · exfalso
      rcases hterm ld tl htl with ⟨m, hm⟩ | ⟨dc, hm⟩ <;>
        rcases hstage with ⟨hx, -⟩ | ⟨hx, -⟩ <;>
          rcases hx with h | h <;> rw [hm] at h <;> cases h
    · have hDI : DInv (run toStr (uniformInit K f modes) sched) :=
        DInv_run toStr (modes.map fun m => (⟨K, embed f, m⟩ : CallSpec E T))
          sched
      obtain ⟨j0, hj0lt, hj0ne⟩ : ∃ j0, j0 < modes.length ∧ j0 ≠ ld := by
        by_cases h : ld = 0
        · exact ⟨1, by omega, by omega⟩
        · exact ⟨0, by omega, fun he => h he.symm⟩
      have hj0lt2 : j0 <
          (run toStr (uniformInit K f modes) sched).threads.length := by
        omega
      obtain ⟨u0, hu0⟩ :=
        Option.isSome_iff_exists.mp (isSome_get?_iff_lt.mpr hj0lt2)
      have hni0 : ¬ initPC u0.pc := by
        rcases hterm j0 u0 hu0 with ⟨m, hm⟩ | ⟨dc, hm⟩ <;> rw [hm] <;>
          intro h <;> rcases h with h | h <;> cases h
      have hD1 : 1 ≤ cnt isFClaim
          (run toStr (uniformInit K f modes) sched).log :=
        hfc1 j0 u0 hu0 hj0ne hni0
      have hMout : mkMsg toStr f
          (cnt isFClaim (run toStr (uniformInit K f modes) sched).log) =
          mkOut toStr f :=
        mkMsg_pos_eq_mkOut toStr f _ hD1
      refine ⟨hex, ?_⟩
      intro j u hu
      rcases u with ⟨uk, uf, ur, upc⟩
      rcases hterm j _ hu with ⟨m, hm⟩ | ⟨dc, hm⟩ <;>
        replace hm : upc = _ := hm <;> subst hm
      · left
        by_cases hji : j = ld
        · subst hji
          have he : tl = ⟨uk, uf, ur, PC.done m⟩ := by
            rw [htl] at hu
            exact Option.some.inj hu
          subst he
          rcases hlp with ⟨r, hpc⟩ | hpc | hpc | ⟨r, hpc⟩ | hpc <;>
            replace hpc : PC.done m = _ := hpc
          · cases hpc
          · cases hpc
          · injection hpc with h2
            rw [h2, hMout]
          · cases hpc
          · cases hpc
        · have hF := hfol j _ hu hji
          rcases hF with ((hpc | hpc) | hpc | hpc) | hpc | ⟨dc2, hpc⟩ <;>
            replace hpc : PC.done m = _ := hpc
          · cases hpc
          · cases hpc
          · cases hpc
          · cases hpc
          · injection hpc with h2
            rw [h2, hMout]
          · cases hpc
      · right
        refine ⟨dc, rfl, ?_⟩
        obtain ⟨m2, hm2⟩ := hDI.2.2 j _ hu
        have hm2M : m2 = mkMsg toStr f
            (cnt isFClaim (run toStr (uniformInit K f modes) sched).log) :=
          hAM dc [m2] hm2 m2 (List.mem_singleton.mpr rfl)
        rw [hm2, hm2M, hMout]


theorem go_coalesces_overlapping_callers_witness :
    cnt isExec (run (fun e : String => e)
        (uniformInit "key" (Except.ok 7) [false, false])
        [0, 1, 0, 0, 0, 0, 0, 1, 0]).log = 1 ∧
    ((⟨"key", WorkRes.ok 7, some false, PC.done (Except.ok (7, true))⟩ :
        Thread String Nat).pc =
      PC.done (mkOut (fun e : String => e) (Except.ok 7)) ∨
     ∃ dc, (⟨"key", WorkRes.ok 7, some false,
          PC.done (Except.ok (7, true))⟩ : Thread String Nat).pc =
            PC.doneChan dc ∧
          (run (fun e : String => e)
            (uniformInit "key" (Except.ok 7) [false, false])
            [0, 1, 0, 0, 0, 0, 0, 1, 0]).chans[dc]? =
            some [mkOut (fun e : String => e) (Except.ok 7)]) :=
  have h := go_coalesces_overlapping_callers String Nat (fun e : String => e)
    "key" (Except.ok 7) [false, false] [0, 1, 0, 0, 0, 0, 0, 1, 0]
    (by decide) (by decide) (by decide)
  ⟨h.1, h.2 1 ⟨"key", WorkRes.ok 7, some false,
    PC.done (Except.ok (7, true))⟩ (by decide)⟩

end Singleflight
